import Mathlib

/-!
Talebearer: secret placeholders, resolution and rendering.

A shallow embedding of `internal/secret.go`, `internal/secretResolver.go` and
`internal/templateFile.go`, with the properties of the specification proved about it.

Modelling conventions.

* A Go `string` is a list of Unicode code points (`Str`); every text is taken to be valid
  UTF-8, so that byte-wise substring search and rune-wise search agree.
* A Go function that may stop with a run-time panic returns `Go α`.
* A Go `map` is an association list; the order in which `range` visits the entries is chosen
  by the runtime and is an explicit parameter of the functions that iterate.
* The functions of the Go standard library (`strings`, `regexp`, `fmt`) are modelled from
  their documented behaviour.
-/

set_option autoImplicit false

namespace Talebearer

/-! ## Strings -/

/-- A Go string, as its sequence of code points. -/
abbrev Str := List Char

/-- Outcome of running a Go function: a normal return, or a run-time panic. -/
inductive Go (α : Type) where
  | ret : α → Go α
  | abort : Go α
  deriving Repr, DecidableEq

/-- Sequencing of Go computations: a panic stops everything after it. -/
def Go.bind {α β : Type} (x : Go α) (f : α → Go β) : Go β :=
  match x with
  | Go.ret a => f a
  | Go.abort => Go.abort

/-- The Go pair `(value, error)` of a function that returns either a value and a nil error
(`ok`) or a nil value and an error (`err`, with the message of the error). -/
inductive Result (α : Type) where
  | ok : α → Result α
  | err : Str → Result α
  deriving Repr, DecidableEq

/-- Slice indexing `xs[i]`, which panics when the index is out of range. -/
def index {α : Type} (xs : List α) (i : Nat) : Go α :=
  match xs.get? i with
  | some a => Go.ret a
  | none => Go.abort

/-- The predicate `unicode.IsSpace`: the Latin-1 spaces and the code points with the
Unicode White_Space property. -/
def isSpace (c : Char) : Bool :=
  let n := c.toNat
  n == 9 || n == 10 || n == 11 || n == 12 || n == 13 || n == 32 || n == 0x85 || n == 0xA0 ||
  n == 0x1680 || (0x2000 ≤ n && n ≤ 0x200A) || n == 0x2028 || n == 0x2029 || n == 0x202F ||
  n == 0x205F || n == 0x3000

/-- The function `strings.TrimSpace`. -/
def TrimSpace (s : Str) : Str :=
  (s.dropWhile isSpace).rdropWhile isSpace

/-- The function `strings.TrimLeft(s, cutset)`. -/
def TrimLeft (s cutset : Str) : Str :=
  s.dropWhile (fun c => decide (c ∈ cutset))

/-- The function `strings.TrimRight(s, cutset)`. -/
def TrimRight (s cutset : Str) : Str :=
  s.rdropWhile (fun c => decide (c ∈ cutset))

/-- The function `strings.Contains(s, substr)`. -/
def Contains (s substr : Str) : Bool :=
  decide (substr <:+: s)

/-- Worker of `Split`: `skip` characters of a separator just found remain to be passed over,
`cur` holds the piece being collected (reversed). -/
def splitLoop (sep : Str) : Nat → Str → Str → List Str
  | _, cur, [] => [cur.reverse]
  | skip + 1, cur, _ :: cs => splitLoop sep skip cur cs
  | 0, cur, c :: cs =>
    if sep <+: c :: cs then cur.reverse :: splitLoop sep (sep.length - 1) [] cs
    else splitLoop sep 0 (c :: cur) cs

/-- The function `strings.Split(s, sep)`: the pieces between the non-overlapping occurrences
of `sep`, found left to right; an empty `sep` splits after every code point. -/
def Split (s sep : Str) : List Str :=
  if sep = [] then s.map (fun c => [c]) else splitLoop sep 0 [] s

/-! ## `internal/secret.go` -/

/-- The struct `VaultSecret`. -/
structure VaultSecret where
  path : Str
  key : Str
  value : Str
  deriving Repr, DecidableEq

namespace VaultSecret

/-- Method `Key`. -/
def Key (s : VaultSecret) : Str := s.key

/-- Method `Path`. -/
def Path (s : VaultSecret) : Str := s.path

/-- Method `Value`. -/
def Value (s : VaultSecret) : Str := s.value

/-- Method `SetValue`. -/
def SetValue (s : VaultSecret) (val : Str) : VaultSecret := { s with value := val }

end VaultSecret

/-- The function `trimBrackets`. -/
def trimBrackets (placeholder : Str) : Str :=
  let placeholder := TrimSpace placeholder
  let placeholder := TrimLeft placeholder ['\x7b']
  let placeholder := TrimRight placeholder ['\x7d']
  let placeholder := TrimSpace placeholder
  placeholder

/-- Method `fallback`: the value and the error it returns. -/
def fallback (placeholder : Str) : Go (Str × Option Str) :=
  if Contains placeholder [':'] then
    let tempSplit := Split placeholder [':']
    (index tempSplit 1).bind fun v => Go.ret (v, none)
  else
    Go.ret ([], none)

/-- The message of the error `NewSecret` returns for a placeholder without separator. -/
def errNoSeparator : Str := "path does not contain a `!` separator".toList

/-- The function `NewSecret`: `Result.err` is its return `nil, err`, `Result.ok s` its return
`s, nil`. The warning it logs for the key `data` has no effect on the result. -/
def NewSecret (placeholder : Str) : Go (Result VaultSecret) :=
  if !Contains placeholder ['!'] then
    Go.ret (Result.err errNoSeparator)
  else
    let p := trimBrackets placeholder
    (fallback p).bind fun (value, err) =>
    match err with
    | some _ => Go.ret (Result.err "failed to construct fallback password".toList)
    | none =>
      let split := Split p ['!']
      (index split 1).bind fun split1 =>
      let fallbackSplit := Split split1 [':']
      (index split 0).bind fun split0 =>
      (index fallbackSplit 0).bind fun key =>
      Go.ret (Result.ok { path := split0, key := key, value := value })

/-- The edge characters that `trimBrackets` removes: whitespace and braces. -/
def isEdge (c : Char) : Bool :=
  isSpace c || c == '\x7b' || c == '\x7d'

/-- A text that neither begins nor ends with whitespace or a brace. -/
def cleanEdges (s : Str) : Bool :=
  !(s.head?.any isEdge) && !(s.getLast?.any isEdge)

/-! ### The secret store -/

/-- A dynamically typed value of a store document (`interface{}`): a string, a JSON number
(`json.Number`, with its text), a boolean, `nil`, a list or a nested mapping. -/
inductive DocValue where
  | str : Str → DocValue
  | num : Str → DocValue
  | bool : Bool → DocValue
  | null : DocValue
  | list : List DocValue → DocValue
  | map : List (Str × DocValue) → DocValue

/-- A Go `map[string]interface{}`, as an association list read with `List.lookup`. -/
abbrev Document := List (Str × DocValue)

/-- The struct `vaultApi.Secret`, of which only `Data` is read; `none` is the nil map. -/
structure ApiSecret where
  Data : Option Document

/-- The interface `vault.Vault`, of which only `Read` is used: a store with states `σ`
answering a read of a path with the pair `(*Secret, error)` and its next state. -/
structure Vault (σ : Type) where
  Read : σ → Str → (Option ApiSecret × Option Str) × σ

/-- What a call of `Retrieve` leaves behind: the error returned (`none` for nil), the
receiver after the call, and the store after the call. -/
structure Retrieved (σ : Type) where
  err : Option Str
  secret : VaultSecret
  store : σ
  deriving Repr, DecidableEq

/-- Method `Retrieve`. The parameter `fmtV` is the rendering of a dynamic value by the
verb `%v` of package `fmt`. A failed type assertion `x.(string)` panics. -/
def VaultSecret.Retrieve {σ : Type} (fmtV : DocValue → Str) (s : VaultSecret) (client : Vault σ)
    (st : σ) : Go (Retrieved σ) :=
  match client.Read st s.path with
  | ((_, some err), st1) =>
    Go.ret ⟨some ("failed to fetch secret '".toList ++ s.path ++ "' from Vault: ".toList ++ err),
      s, st1⟩
  | ((none, none), st1) =>
    Go.ret ⟨some ("failed to fetch secret '".toList ++ s.path ++
      "' from Vault, secret was nil".toList), s, st1⟩
  | ((some secret, none), st1) =>
    match secret.Data with
    | none =>
      Go.ret ⟨some ("failed to fetch secret '".toList ++ s.path ++
        "' from Vault, secret.Data was nil".toList), s, st1⟩
    | some data =>
      let missing : Go (Retrieved σ) :=
        Go.ret ⟨some ("secret data for path ".toList ++ s.path ++
          " does not contain key ".toList ++ s.key), s, st1⟩
      match List.lookup "data".toList data with
      | some val =>
        match val with
        | DocValue.map v =>
          match List.lookup s.key v with
          | some x =>
            match x with
            | DocValue.str str => Go.ret ⟨none, s.SetValue str, st1⟩
            | _ => Go.abort
          | none => missing
        | _ => Go.ret ⟨some ("could not parse KV v2 secret data: ".toList ++ fmtV val), s, st1⟩
      | none =>
        match List.lookup s.key data with
        | some val =>
          match val with
          | DocValue.str str => Go.ret ⟨none, s.SetValue str, st1⟩
          | _ => Go.abort
        | none => missing

/-! ## `internal/secretResolver.go` -/

/-- A Go `map[string]Secret`, as an association list with distinct keys. -/
abbrev SecretMap := List (Str × VaultSecret)

/-- The assignment `m[k] = v` on a map. -/
def mapSet (m : SecretMap) (k : Str) (v : VaultSecret) : SecretMap :=
  match m with
  | [] => [(k, v)]
  | (k1, v1) :: rest => if k1 = k then (k, v) :: rest else (k1, v1) :: mapSet rest k v

/-- The order in which a `range` loop visits the entries of a map: the runtime chooses some
permutation of the entries. -/
structure RangeOrder where
  visit : SecretMap → SecretMap
  perm : ∀ m, (visit m).Perm m

/-- The function `strings.Join`. -/
def Join (elems : List Str) (sep : Str) : Str :=
  sep.intercalate elems

/-- The struct `SecretResolver`: the store client and the secret factory. -/
structure SecretResolver (σ : Type) where
  client : Vault σ
  secret : Str → Go (Result VaultSecret)

/-- The loop of method `secrets`, with the map built so far. -/
def secretsLoop (factory : Str → Go (Result VaultSecret)) :
    List Str → SecretMap → Go (Result SecretMap)
  | [], secrets => Go.ret (Result.ok secrets)
  | placeholder :: rest, secrets =>
    (factory placeholder).bind fun r =>
    match r with
    | Result.err _ =>
      Go.ret (Result.err ("could not construct secret for ".toList ++ placeholder))
    | Result.ok s => secretsLoop factory rest (mapSet secrets placeholder s)

/-- Method `secrets`: construct a map of secrets from placeholders. -/
def SecretResolver.secrets {σ : Type} (m : SecretResolver σ) (placeholders : List Str) :
    Go (Result SecretMap) :=
  secretsLoop m.secret placeholders []

/-- The call `fmt.Sprintf("\"%s\"", e)`: the text between double quotes. -/
def quoted (e : Str) : Str :=
  ['"'] ++ e ++ ['"']

/-- State of the retrieval loop of `Resolve`: the entries already visited (with the secrets
as `Retrieve` left them), the slice `errStrings`, the variable `err`, and the store. -/
structure LoopState (σ : Type) where
  visited : SecretMap
  errStrings : List Str
  err : Option Str
  store : σ

/-- The retrieval loop of `Resolve` over the entries still to visit. -/
def retrieveLoop {σ : Type} (fmtV : DocValue → Str) (client : Vault σ) :
    SecretMap → LoopState σ → Go (LoopState σ)
  | [], acc => Go.ret acc
  | (p, s) :: rest, acc =>
    (s.Retrieve fmtV client acc.store).bind fun r =>
    let errStrings :=
      match r.err with
      | some e => acc.errStrings ++ [quoted e]
      | none => acc.errStrings
    retrieveLoop fmtV client rest ⟨acc.visited ++ [(p, r.secret)], errStrings, r.err, r.store⟩

/-- What `Resolve` returns, the pair `(map, error)` with `none` for nil, and the store
after the call. -/
structure Resolved (σ : Type) where
  secrets : Option SecretMap
  err : Option Str
  store : σ
  deriving Repr, DecidableEq

/-- The end of `Resolve`: the variable `err` is set to the error made of the slice
`errStrings` when the slice is not empty, and is returned. -/
def aggregateError (errStrings : List Str) (err : Option Str) : Option Str :=
  if errStrings.length > 0 then
    some (['['] ++ Join errStrings ", ".toList ++ [']'])
  else err

/-- Method `Resolve`. -/
def SecretResolver.Resolve {σ : Type} (fmtV : DocValue → Str) (order : RangeOrder)
    (m : SecretResolver σ) (placeholders : List Str) (st : σ) : Go (Resolved σ) :=
  (m.secrets placeholders).bind fun r =>
  match r with
  | Result.err e => Go.ret ⟨none, some e, st⟩
  | Result.ok secrets =>
    (retrieveLoop fmtV m.client (order.visit secrets) ⟨[], [], none, st⟩).bind fun fin =>
    Go.ret ⟨some fin.visited, aggregateError fin.errStrings fin.err, fin.store⟩

/-! ## `internal/templateFile.go` -/

/-- Worker of `ReplaceAll` for a non-empty `old`: `skip` characters of an occurrence just
replaced remain to be passed over. -/
def replaceLoop (old new : Str) : Nat → Str → Str
  | _, [] => []
  | skip + 1, _ :: cs => replaceLoop old new skip cs
  | 0, c :: cs =>
    if old <+: c :: cs then new ++ replaceLoop old new (old.length - 1) cs
    else c :: replaceLoop old new 0 cs

/-- The call `strings.Replace(s, old, new, -1)`: every non-overlapping occurrence of `old`,
found left to right, is replaced by `new`; an empty `old` matches before every code point
and at the end; nothing is done when `old == new`. -/
def ReplaceAll (s old new : Str) : Str :=
  if old = new then s
  else if old = [] then new ++ (s.map fun c => c :: new).flatten
  else replaceLoop old new 0 s

/-- One element of the pattern of the matcher: one character of a class, or a greedy
repetition of a class. -/
inductive Item where
  | one : (Char → Bool) → Item
  | many : (Char → Bool) → Item

/-- Greedy repetition followed by the rest `k` of the pattern: the longest run is tried
first, shorter ones on failure. The result is the length of the match. -/
def starThen (q : Char → Bool) (k : Str → Option Nat) : Str → Option Nat
  | [] => k []
  | c :: cs =>
    if q c then
      match starThen q k cs with
      | some n => some (n + 1)
      | none => k (c :: cs)
    else k (c :: cs)

/-- Match of a pattern at the start of a text, with the preference order of a backtracking
matcher (the match `regexp` selects): the length of the match, if there is one. -/
def matchItems : List Item → Str → Option Nat
  | [], _ => some 0
  | Item.one q :: items, s =>
    match s with
    | [] => none
    | c :: cs => if q c then (matchItems items cs).map (· + 1) else none
  | Item.many q :: items, s => starThen q (matchItems items) s

/-- The class `\s` of `regexp`: tab, line feed, form feed, carriage return, space. -/
def isReSpace (c : Char) : Bool :=
  c == '\t' || c == '\n' || c == '\x0c' || c == '\r' || c == ' '

/-- The class `[^ }]`. -/
def isTokenChar (c : Char) : Bool :=
  !(c == ' ' || c == '\x7d')

/-- The pattern of `NewTemplateFile`: two opening braces, `\s*`, `([^ }]*)?`, `\s*`, two
closing braces. The optional group around a repetition matches what the repetition does. -/
def matcher : List Item :=
  [Item.one (· == '\x7b'), Item.one (· == '\x7b'), Item.many isReSpace, Item.many isTokenChar,
   Item.many isReSpace, Item.one (· == '\x7d'), Item.one (· == '\x7d')]

/-- Worker of `FindAllString`: the text is scanned left to right, a match is taken at the
first place where there is one and the scan goes on after it (`skip` characters of the
last match remain to be passed over). -/
def findAllLoop (items : List Item) : Nat → Str → List Str
  | _, [] => []
  | skip + 1, _ :: cs => findAllLoop items skip cs
  | 0, c :: cs =>
    match matchItems items (c :: cs) with
    | some n => (c :: cs).take n :: findAllLoop items (n - 1) cs
    | none => findAllLoop items 0 cs

/-- The call `matcher.FindAllString(s, -1)` for a pattern that matches no empty text. -/
def FindAllString (items : List Item) (s : Str) : List Str :=
  findAllLoop items 0 s

/-- The files as the program sees them: what `ioutil.ReadFile` returns for a path, and the
error, if any, with which `ioutil.WriteFile` fails for a path and a text. -/
structure FileSystem where
  ReadFile : Str → Result Str
  WriteFile : Str → Str → Option Str

/-- The struct `TemplateFile`; its matcher is always the pattern `matcher`. -/
structure TemplateFile where
  path : Str

/-- Method `FindPlaceholders`. -/
def TemplateFile.FindPlaceholders (fs : FileSystem) (t : TemplateFile) : Result (List Str) :=
  match fs.ReadFile t.path with
  | Result.err e => Result.err e
  | Result.ok contents => Result.ok (FindAllString matcher contents)

/-- One turn of the loop of `RenderSecrets`, for the entry `(p, s)`. -/
def renderStep (newContents : Str) (entry : Str × VaultSecret) : Str :=
  if entry.2.Value = [] then newContents
  else ReplaceAll newContents entry.1 entry.2.Value

/-- The loop of `RenderSecrets` over the entries in the order they are visited. -/
def renderLoop (contents : Str) (entries : SecretMap) : Str :=
  entries.foldl renderStep contents

/-- What a call of `RenderSecrets` does: the text it hands to `WriteFile` (`none` when it
returns before writing) and the error it returns. -/
structure Rendered where
  written : Option Str
  err : Option Str
  deriving Repr, DecidableEq

/-- Method `RenderSecrets`. -/
def TemplateFile.RenderSecrets (fs : FileSystem) (order : RangeOrder) (t : TemplateFile)
    (secrets : SecretMap) (outputFile : Str) : Rendered :=
  match fs.ReadFile t.path with
  | Result.err e => ⟨none, some e⟩
  | Result.ok contents =>
    let newContents := renderLoop contents (order.visit secrets)
    match fs.WriteFile outputFile newContents with
    | some e =>
      ⟨some newContents, some ("failed writing to file '".toList ++ outputFile ++ "': ".toList ++ e)⟩
    | none => ⟨some newContents, none⟩

/-! ## `vault/base.go` -/

/-- The function `strings.Trim(s, cutset)`. -/
def Trim (s cutset : Str) : Str :=
  TrimRight (TrimLeft s cutset) cutset

/-- The function `sanitisePath`. -/
def sanitisePath (path : Str) : Str :=
  let p := TrimSpace path
  let p := Trim p ['/']
  p

/-- The slice expression `xs[i:]`, which panics when `i` exceeds the length of `xs`. -/
def sliceFrom {α : Type} (xs : List α) (i : Nat) : Go (List α) :=
  if i ≤ xs.length then Go.ret (xs.drop i) else Go.abort

/-- The function `updatePath`. -/
def updatePath (path : Str) : Go Str :=
  let s := sanitisePath path
  let a := Split s ['/']
  (index a 0).bind fun mount =>
  (sliceFrom a 1).bind fun ap =>
  let out := [mount, "data".toList] ++ ap
  Go.ret (Join out ['/'])

/-- The response of a raw request: its status code, and its body as
`vaultApi.ParseSecret` reads it (an error, no secret for an empty body, or a secret). -/
structure Response where
  StatusCode : Nat
  Body : Result (Option ApiSecret)

/-- The parts of `*vaultApi.Client` that are used: `RawRequest` on a request with a method
and a path, and `Logical().Read`. The client has states `σ`. The settings that
`getMountVersion` switches off and restores on return are left out. -/
structure ApiClient (σ : Type) where
  RawRequest : σ → Str → Str → (Option Response × Option Str) × σ
  LogicalRead : σ → Str → (Option ApiSecret × Option Str) × σ

/-- The function `getMountVersion`: the pair `(int, error)` it returns and the client after
the call. It panics on a nil response without error, on a nil secret, on options that are
no mapping and on a version that is no string. -/
def getMountVersion {σ : Type} (client : ApiClient σ) (st : σ) (path : Str) :
    Go (Result Nat × σ) :=
  match client.RawRequest st "GET".toList ("/v1/sys/internal/ui/mounts/".toList ++ path) with
  | ((resp, some err), st1) =>
    match resp with
    | some r =>
      if r.StatusCode = 404 then Go.ret (Result.ok 1, st1) else Go.ret (Result.err err, st1)
    | none => Go.ret (Result.err err, st1)
  | ((none, none), _) => Go.abort
  | ((some r, none), st1) =>
    match r.Body with
    | Result.err e => Go.ret (Result.err e, st1)
    | Result.ok none => Go.abort
    | Result.ok (some secret) =>
      let options : Option DocValue :=
        match secret.Data with
        | none => none
        | some data => List.lookup "options".toList data
      match options with
      | none => Go.ret (Result.ok 1, st1)
      | some DocValue.null => Go.ret (Result.ok 1, st1)
      | some (DocValue.map o) =>
        match List.lookup "version".toList o with
        | none => Go.ret (Result.ok 1, st1)
        | some DocValue.null => Go.ret (Result.ok 1, st1)
        | some (DocValue.str version) =>
          if version = [] ∨ version = "1".toList then Go.ret (Result.ok 1, st1)
          else if version = "2".toList then Go.ret (Result.ok 2, st1)
          else Go.ret (Result.err ("unknown KV API version ".toList ++ version), st1)
        | some _ => Go.abort
      | some _ => Go.abort

/-- The function `pathToSecret`. -/
def pathToSecret {σ : Type} (client : ApiClient σ) (st : σ) (path : Str) :
    Go (Result Str × σ) :=
  (getMountVersion client st path).bind fun (r, st1) =>
  match r with
  | Result.err e => Go.ret (Result.err e, st1)
  | Result.ok version =>
    if version = 1 then Go.ret (Result.ok path, st1)
    else if version = 2 then (updatePath path).bind fun p => Go.ret (Result.ok p, st1)
    else Go.ret (Result.err ("unsupported KV API version: ".toList ++ (Nat.repr version).toList),
      st1)

/-- The struct `BaseClient`, of which `Read` uses the field `client`. -/
structure BaseClient (σ : Type) where
  client : ApiClient σ

/-- Method `Read` of `BaseClient`: the pair `(*Secret, error)` and the client after. -/
def BaseClient.Read {σ : Type} (c : BaseClient σ) (st : σ) (path : Str) :
    Go ((Option ApiSecret × Option Str) × σ) :=
  (pathToSecret c.client st path).bind fun (r, st1) =>
  match r with
  | Result.err e => Go.ret ((none, some e), st1)
  | Result.ok p => Go.ret (c.client.LogicalRead st1 p)

/-! ## `talebearer.go` -/

/-- The interface `vault.Vault` with the two methods that `Run` and the resolver call:
`Read`, and `Authenticate`, which answers a role with an error (`none` for nil) and the
next state of the store. -/
structure AuthVault (σ : Type) extends Vault σ where
  Authenticate : σ → Str → Option Str × σ

/-- The files with the answer of `os.Stat`: whether it fails for a path with an error for
which `os.IsNotExist` holds. -/
structure HostFiles extends FileSystem where
  StatNotExist : Str → Bool

/-- The function `NewTemplateFile`. -/
def NewTemplateFile (files : HostFiles) (filename : Str) : Result TemplateFile :=
  if files.StatNotExist filename then
    Result.err ("file ".toList ++ filename ++ " does not exist".toList)
  else Result.ok ⟨filename⟩

/-- The struct `talebearerConfig`. -/
structure talebearerConfig where
  inputFile : Str
  outputFile : Str
  vaultRole : Str

/-- What a call of `Run` does: the error it returns (`none` for nil), the text handed to
`WriteFile` (`none` when no write is reached), the lines that `Run` itself logs at the
level of errors, and the store after the call. -/
structure RunResult (σ : Type) where
  err : Option Str
  written : Option Str
  logged : List Str
  store : σ
  deriving Repr, DecidableEq

/-- The part of `Run` from the call of `RenderSecrets` on. A nil map of secrets is ranged
over as an empty one. -/
def runRender {σ : Type} (continueOnError : Bool) (later : FileSystem) (order : RangeOrder)
    (template : TemplateFile) (secrets : Option SecretMap) (outputFile : Str)
    (logged : List Str) (st : σ) : RunResult σ :=
  let rend := template.RenderSecrets later order (secrets.getD []) outputFile
  match rend.err with
  | some e =>
    let msg := "failed rendering secrets: ".toList ++ e
    if continueOnError then ⟨none, rend.written, logged ++ [msg ++ "; continuing".toList], st⟩
    else ⟨some (msg ++ "; exiting".toList), rend.written, logged, st⟩
  | none => ⟨none, rend.written, logged, st⟩

/-- The part of `Run` from the call of `Resolve` on. -/
def runResolve {σ : Type} (fmtV : DocValue → Str) (order1 order2 : RangeOrder)
    (continueOnError : Bool) (later : FileSystem) (client : Vault σ) (template : TemplateFile)
    (placeholders : List Str) (outputFile : Str) (logged : List Str) (st : σ) :
    Go (RunResult σ) :=
  (SecretResolver.Resolve fmtV order1 ⟨client, NewSecret⟩ placeholders st).bind fun res =>
  match res.err with
  | some e =>
    let msg := "failed resolving secrets: ".toList ++ e
    if continueOnError then
      Go.ret (runRender continueOnError later order2 template res.secrets outputFile
        (logged ++ [msg ++ "; continuing".toList]) res.store)
    else Go.ret ⟨some (msg ++ "; exiting".toList), none, logged, res.store⟩
  | none =>
    Go.ret (runRender continueOnError later order2 template res.secrets outputFile logged
      res.store)

/-- The function `Run`. The global `continueOnError` is a parameter. The orders are those in
which `Resolve` and `RenderSecrets` range over the map of secrets; `files` are the files
when the template is created and read and `later` the files when it is rendered. -/
def Run {σ : Type} (fmtV : DocValue → Str) (order1 order2 : RangeOrder)
    (continueOnError : Bool) (files : HostFiles) (later : FileSystem) (client : AuthVault σ)
    (st : σ) (config : talebearerConfig) : Go (RunResult σ) :=
  match NewTemplateFile files config.inputFile with
  | Result.err e => Go.ret ⟨some ("failed creating template: ".toList ++ e), none, [], st⟩
  | Result.ok template =>
    match template.FindPlaceholders files.toFileSystem with
    | Result.err e =>
      Go.ret ⟨some ("failed finding placeholders in template: ".toList ++ e), none, [], st⟩
    | Result.ok placeholders =>
      match client.Authenticate st config.vaultRole with
      | (some e, st1) =>
        let msg := "failed authenticating with Vault: ".toList ++ e
        if continueOnError then
          runResolve fmtV order1 order2 continueOnError later client.toVault template
            placeholders config.outputFile [msg] st1
        else Go.ret ⟨some (msg ++ "; exiting".toList), none, [], st1⟩
      | (none, st1) =>
        runResolve fmtV order1 order2 continueOnError later client.toVault template
          placeholders config.outputFile [] st1

/-! ### Notions used to state the properties -/

/-- The member of a document in which `Retrieve` looks for the key `k`: inside the mapping
`data` when the document has a member `data`, at top level otherwise. -/
def fieldOf (data : Document) (k : Str) : Option DocValue :=
  match List.lookup "data".toList data with
  | some (DocValue.map v) => List.lookup k v
  | some _ => none
  | none => List.lookup k data

/-- The retrievals of the entries of a map one after the other, each on the store as the
one before left it: the outcome of every one of them, in the order of the visits. -/
def fetchEach {σ : Type} (fmtV : DocValue → Str) (client : Vault σ) :
    SecretMap → σ → Go (List (Str × Retrieved σ))
  | [], _ => Go.ret []
  | (p, s) :: rest, st =>
    (s.Retrieve fmtV client st).bind fun r =>
    (fetchEach fmtV client rest r.store).bind fun rs => Go.ret ((p, r) :: rs)

/-- The text `out` is the text `t` with every occurrence of the non-empty text `old`, found
left to right without overlap, replaced by `new`: either `old` does not occur in `t` and
`out` is `t`, or `t` is `g ++ old ++ rest` where this occurrence of `old` is the leftmost
one, and `out` is `g ++ new` followed by `rest` with its occurrences replaced. -/
inductive Replaced (old new : Str) : Str → Str → Prop where
  | done (t : Str) : ¬ old <:+: t → Replaced old new t t
  | step (g rest out : Str) : ¬ old <:+: g ++ old.dropLast → Replaced old new rest out →
      Replaced old new (g ++ old ++ rest) (g ++ new ++ out)

/-- A store that answers every read with the same pair and has no state. -/
def constVault (answer : Option ApiSecret × Option Str) : Vault Unit :=
  ⟨fun st _ => (answer, st)⟩

/-- A store that answers from a table of documents by path, fails with `not found` for the
other paths, and records the paths read. -/
def tableVault (table : List (Str × Document)) : Vault (List Str) :=
  ⟨fun log path =>
    match List.lookup path table with
    | some d => ((some ⟨some d⟩, none), log ++ [path])
    | none => ((none, some "not found".toList), log ++ [path])⟩

/-- The order of visit that keeps the order of the association list. -/
def orderAsListed : RangeOrder := ⟨id, fun _ => List.Perm.refl _⟩

/-- The order of visit that reverses the association list. -/
def orderReversed : RangeOrder := ⟨List.reverse, fun m => List.reverse_perm m⟩

/-- A stand-in for the verb `%v`: it renders every value as the empty text. -/
def fmtNone : DocValue → Str := fun _ => []

/-- The messages of the retrievals that returned an error, in the order of the visits. -/
def failures {σ : Type} (rs : List (Str × Retrieved σ)) : List Str :=
  rs.filterMap fun pr => pr.2.err

/-- The store after a sequence of retrievals that started on the store `st`. -/
def lastStore {σ : Type} (st : σ) : List (Str × Retrieved σ) → σ
  | [] => st
  | pr :: rs => lastStore pr.2.store rs

/-- The error of the last of a sequence of retrievals, `err` when there is none. -/
def lastErr {σ : Type} (err : Option Str) : List (Str × Retrieved σ) → Option Str
  | [] => err
  | pr :: rs => lastErr pr.2.err rs

/-- The entries of the map after the retrievals: every key with its secret as the
retrieval left it. -/
def retrievedSecrets {σ : Type} (rs : List (Str × Retrieved σ)) : SecretMap :=
  rs.map fun pr => (pr.1, pr.2.secret)

/-- Two placeholders with fallbacks, for the examples. -/
def examplePlaceholders : List Str :=
  ["secret/a!k:f1".toList, "secret/b!k:f2".toList]

/-- A store for the examples: it holds one document, at `secret/a`, with the field `k`. -/
def exampleStore : Vault (List Str) :=
  tableVault [("secret/a".toList, [("k".toList, DocValue.str "v1".toList)])]

/-- A resolver for the examples: the example store, with `NewSecret` as factory as in
`Run`. -/
def exampleResolver : SecretResolver (List Str) :=
  ⟨exampleStore, NewSecret⟩

/-- Files for the examples: the template `in` and no other file; every write succeeds. -/
def exampleFiles : FileSystem :=
  ⟨fun path =>
    if path = "in".toList then Result.ok "user=\x7b\x7bx!y\x7d\x7d;admin=\x7b\x7bx!y\x7d\x7d".toList
    else Result.err "no such file".toList,
   fun _ _ => none⟩

/-- Worker of `outside`, scanning as `findAllLoop` does. -/
def outsideLoop (items : List Item) : Nat → Str → Str
  | _, [] => []
  | skip + 1, _ :: cs => outsideLoop items skip cs
  | 0, c :: cs =>
    match matchItems items (c :: cs) with
    | some n => outsideLoop items (n - 1) cs
    | none => c :: outsideLoop items 0 cs

/-- The characters of a text that lie in none of the matches `FindAllString` returns. -/
def outside (items : List Item) (s : Str) : Str :=
  outsideLoop items 0 s

/-- The shape of a placeholder: two opening braces, a text without closing brace, two
closing braces. -/
def Shaped (p : Str) : Prop :=
  ∃ X, p = '\x7b' :: '\x7b' :: (X ++ ['\x7d', '\x7d']) ∧ '\x7d' ∉ X

/-- Every closing brace of the text lies in an occurrence of a text that satisfies `U`: the
text reads `h₀ k₁ h₁ k₂ … kₙ hₙ` where no `hᵢ` has a closing brace and every `kᵢ`
satisfies `U`. -/
inductive Covered (U : Str → Prop) : Str → Prop where
  | tail (h : Str) : '\x7d' ∉ h → Covered U h
  | seg (h k rest : Str) : '\x7d' ∉ h → U k → Covered U rest → Covered U (h ++ k ++ rest)

/-- Files for an example in which the value fetched contains the text of its placeholder:
every read gives the template `pw={{a!b}}`. -/
def echoFiles : FileSystem :=
  ⟨fun _ => Result.ok "pw=\x7b\x7ba!b\x7d\x7d".toList, fun _ _ => none⟩

/-- The mapping of that example: the placeholder `{{a!b}}` with the value `<{{a!b}}>`. -/
def echoSecrets : SecretMap :=
  [("\x7b\x7ba!b\x7d\x7d".toList, ⟨"a".toList, "b".toList, "<\x7b\x7ba!b\x7d\x7d>".toList⟩)]

/-- A mapping for the example files: their placeholder `{{x!y}}` with the value `pw`. -/
def exampleSecrets : SecretMap :=
  [("\x7b\x7bx!y\x7d\x7d".toList, ⟨"x".toList, "y".toList, "pw".toList⟩)]

/-- The member `options` of the data of a mount response; `none` also when the data is a
nil map. -/
def mountOptions (secret : ApiSecret) : Option DocValue :=
  match secret.Data with
  | none => none
  | some data => List.lookup "options".toList data

/-- A client like the one of the tests of `vault`: every raw request is answered with
status 200 and the given secret, every read with the given secret; the state records the
paths read. -/
def mockApiClient (secret : ApiSecret) : ApiClient (List Str) :=
  ⟨fun log _ _ => ((some ⟨200, Result.ok (some secret)⟩, none), log),
   fun log path => ((some secret, none), log ++ [path])⟩

/-- The data of `TestBaseClient_Read`: a mount response without options. -/
def flatMountSecret : ApiSecret :=
  ⟨some [("foo".toList, DocValue.str "bar".toList)]⟩

/-- The data of `TestBaseClient_Read_KvAPIUnknown`: options with an unknown version. -/
def unknownMountSecret : ApiSecret :=
  ⟨some [("foo".toList, DocValue.str "bar".toList),
    ("options".toList, DocValue.map [("version".toList, DocValue.str "0987w456".toList)])]⟩

/-- The form the specification gives to a placeholder: two opening braces, whitespace, a
token without brace and without whitespace, whitespace, two closing braces. -/
def SpecForm (m : Str) : Prop :=
  ∃ w1 tok w2, m = '\x7b' :: '\x7b' :: (w1 ++ tok ++ w2 ++ ['\x7d', '\x7d']) ∧
    (∀ c ∈ w1, isSpace c = true) ∧ (∀ c ∈ w2, isSpace c = true) ∧
    ∀ c ∈ tok, c ≠ '\x7b' ∧ c ≠ '\x7d' ∧ isSpace c = false

/-- Files for an example with an opening brace in a token: every read gives the template
`key={{{{x}}`. -/
def braceFiles : FileSystem :=
  ⟨fun _ => Result.ok "key=\x7b\x7b\x7b\x7bx\x7d\x7d".toList, fun _ _ => none⟩

/-- The part of a text before its first `c`; the whole text when it has no `c`. -/
def beforeFirst (c : Char) (s : Str) : Str :=
  s.takeWhile (fun x => x != c)

/-- The part of a text after its first `c`; empty when it has no `c`. -/
def afterFirst (c : Char) (s : Str) : Str :=
  (s.dropWhile (fun x => x != c)).drop 1

/-- The example files with the answer of `os.Stat`: only the template `in` exists. -/
def exampleHost : HostFiles :=
  ⟨exampleFiles, fun path => path != "in".toList⟩

/-- The example store with an authentication that always succeeds. -/
def exampleClient : AuthVault (List Str) :=
  ⟨exampleStore, fun st _ => (none, st)⟩

/-- The lines that `Run` logs for a failure when it goes on: one line, or none. -/
def logLine (before : Str) (err : Option Str) (after : Str) : List Str :=
  match err with
  | some e => [before ++ e ++ after]
  | none => []

/-- A piece of a template: a text between placeholders, or a placeholder. -/
inductive Piece where
  | text : Str → Piece
  | hole : Str → Piece
  deriving Repr, DecidableEq

/-- The text of a piece. -/
def Piece.str : Piece → Str
  | Piece.text g => g
  | Piece.hole p => p

/-- The template made of the pieces, one after the other. -/
def assemble (pieces : List Piece) : Str :=
  (pieces.map Piece.str).flatten

/-- A text that holds no brace. -/
def braceFree (s : Str) : Bool :=
  s.all fun c => c != '\x7b' && c != '\x7d'

/-- A placeholder with no brace between its two opening and its two closing braces. -/
def PlainHole (p : Str) : Prop :=
  ∃ inner, p = '\x7b' :: '\x7b' :: (inner ++ ['\x7d', '\x7d']) ∧ braceFree inner = true

/-- A piece of a plain template: a text without braces, or a plain placeholder. -/
def Piece.Plain : Piece → Prop
  | Piece.text g => braceFree g = true
  | Piece.hole p => PlainHole p

/-- A piece filled from the entries of a map: a placeholder that is a key with a value
that is not empty becomes the value; every other piece stays. -/
def fill (entries : SecretMap) : Piece → Piece
  | Piece.text g => Piece.text g
  | Piece.hole p =>
    match List.lookup p entries with
    | some s => if s.Value = [] then Piece.hole p else Piece.text s.Value
    | none => Piece.hole p

/-- Files for the example of two placeholders of which one ends with the other: the
template `in` reads `{{{{a!b}} {{a!b}}`. -/
def nestedFiles : FileSystem :=
  ⟨fun _ => Result.ok "\x7b\x7b\x7b\x7ba!b\x7d\x7d \x7b\x7ba!b\x7d\x7d".toList, fun _ _ => none⟩

/-- The mapping of that example: both placeholders, resolved to the value `v`. -/
def nestedSecrets : SecretMap :=
  [("\x7b\x7b\x7b\x7ba!b\x7d\x7d".toList, ⟨"a".toList, "b".toList, "v".toList⟩),
   ("\x7b\x7ba!b\x7d\x7d".toList, ⟨"a".toList, "b".toList, "v".toList⟩)]

/-- The mapping of the example files with a second entry, whose placeholder is not in the
template. -/
def exampleSecretsTwo : SecretMap :=
  [("\x7b\x7bx!y\x7d\x7d".toList, ⟨"x".toList, "y".toList, "pw".toList⟩),
   ("\x7b\x7bu!w\x7d\x7d".toList, ⟨"u".toList, "w".toList, "other".toList⟩)]

/-- A mount response with the options of a mount of version 2. -/
def envelopedMountSecret : ApiSecret :=
  ⟨some [("options".toList, DocValue.map [("version".toList, DocValue.str "2".toList)])]⟩

/-- A store for the examples of a field that is no string: it holds one document, at
`secret/a`, whose field `k` is the number 42. -/
def numberStore : Vault (List Str) :=
  tableVault [("secret/a".toList, [("k".toList, DocValue.num "42".toList)])]

/-- Files for those examples: the template `in` reads `pw={{secret/a!k}}`; every write
succeeds. -/
def numberHost : HostFiles :=
  ⟨⟨fun path =>
      if path = "in".toList then Result.ok "pw=\x7b\x7bsecret/a!k\x7d\x7d".toList
      else Result.err "no such file".toList,
    fun _ _ => none⟩,
   fun path => path != "in".toList⟩

/-- The store of those examples with an authentication that always succeeds. -/
def numberClient : AuthVault (List Str) :=
  ⟨numberStore, fun st _ => (none, st)⟩

/-- The example files when nothing can be written: every write fails. -/
def readOnlyFiles : FileSystem :=
  ⟨exampleFiles.ReadFile, fun _ _ => some "permission denied".toList⟩

/-! ## Lemmas on the string functions -/

theorem single_infix_iff (s : Str) (c : Char) : [c] <:+: s ↔ c ∈ s := by
  constructor
  · rintro ⟨a, b, e⟩
    rw [← e]
    simp
  · intro h
    obtain ⟨a, b, e⟩ := List.append_of_mem h
    exact ⟨a, b, by simp [e]⟩

theorem Contains_single (s : Str) (c : Char) : Contains s [c] = true ↔ c ∈ s := by
  simp [Contains, single_infix_iff]

theorem splitLoop_ne_nil (sep : Str) (skip : Nat) (cur s : Str) :
    splitLoop sep skip cur s ≠ [] := by
  induction s generalizing skip cur with
  | nil => simp [splitLoop]
  | cons x xs ih =>
    cases skip with
    | succ n => simpa [splitLoop] using ih n cur
    | zero =>
      simp only [splitLoop]
      split
      · simp
      · exact ih 0 (x :: cur)

theorem splitLoop_single_absent (c : Char) (cur s : Str) (h : c ∉ s) :
    splitLoop [c] 0 cur s = [cur.reverse ++ s] := by
  induction s generalizing cur with
  | nil => simp [splitLoop]
  | cons x xs ih =>
    have hx : c ≠ x := fun e => h (by simp [e])
    have hxs : c ∉ xs := fun e => h (by simp [e])
    simp [splitLoop, hx, ih _ hxs]

theorem splitLoop_single_first (c : Char) (cur a b : Str) (h : c ∉ a) :
    splitLoop [c] 0 cur (a ++ c :: b) = (cur.reverse ++ a) :: splitLoop [c] 0 [] b := by
  induction a generalizing cur with
  | nil => simp [splitLoop]
  | cons x xs ih =>
    have hx : c ≠ x := fun e => h (by simp [e])
    have hxs : c ∉ xs := fun e => h (by simp [e])
    simp [splitLoop, hx, ih _ hxs]

theorem Split_single_absent (c : Char) (s : Str) (h : c ∉ s) : Split s [c] = [s] := by
  simp [Split, splitLoop_single_absent c [] s h]

theorem Split_single_first (c : Char) (a b : Str) (h : c ∉ a) :
    Split (a ++ c :: b) [c] = a :: Split b [c] := by
  simp [Split, splitLoop_single_first c [] a b h]

/-- Every text containing `c` splits at the first `c`. -/
theorem exists_first (c : Char) (s : Str) (h : c ∈ s) :
    ∃ a b, s = a ++ c :: b ∧ c ∉ a := by
  induction s with
  | nil => simp at h
  | cons x xs ih =>
    by_cases hx : c = x
    · exact ⟨[], xs, by simp [hx], by simp⟩
    · have hxs : c ∈ xs := by
        rcases List.mem_cons.1 h with e | e
        · exact absurd e hx
        · exact e
      obtain ⟨a, b, e, ha⟩ := ih hxs
      refine ⟨x :: a, b, by simp [e], ?_⟩
      simp [hx, ha]

theorem Split_single_ne_nil (c : Char) (s : Str) : Split s [c] ≠ [] := by
  simp [Split, splitLoop_ne_nil]

theorem index_zero_Split (c : Char) (s : Str) :
    ∃ a, index (Split s [c]) 0 = Go.ret a := by
  cases h : Split s [c] with
  | nil => exact absurd h (Split_single_ne_nil c s)
  | cons a t => exact ⟨a, by simp [index]⟩

theorem index_one_Split (c : Char) (s : Str) (h : c ∈ s) :
    ∃ a, index (Split s [c]) 1 = Go.ret a := by
  obtain ⟨a, b, e, ha⟩ := exists_first c s h
  subst e
  rw [Split_single_first c a b ha]
  cases h2 : Split b [c] with
  | nil => exact absurd h2 (Split_single_ne_nil c b)
  | cons y t => exact ⟨y, by simp [index]⟩

theorem mem_dropWhile_of_mem (q : Char → Bool) (c : Char) (s : Str) (h : c ∈ s)
    (hc : q c = false) : c ∈ s.dropWhile q := by
  have e := List.takeWhile_append_dropWhile q s
  rw [← e] at h
  rcases List.mem_append.1 h with h1 | h1
  · have := List.mem_takeWhile_imp h1
    simp [hc] at this
  · exact h1

theorem mem_rdropWhile_of_mem (q : Char → Bool) (c : Char) (s : Str) (h : c ∈ s)
    (hc : q c = false) : c ∈ s.rdropWhile q := by
  unfold List.rdropWhile
  rw [List.mem_reverse]
  exact mem_dropWhile_of_mem q c s.reverse (List.mem_reverse.2 h) hc

/-- The function `trimBrackets` removes no character other than whitespace and braces. -/
theorem mem_trimBrackets (c : Char) (s : Str) (h : c ∈ s) (hc : isEdge c = false) :
    c ∈ trimBrackets s := by
  simp only [isEdge, Bool.or_eq_false_iff, beq_eq_false_iff_ne, ne_eq] at hc
  obtain ⟨⟨h1, h2⟩, h3⟩ := hc
  unfold trimBrackets TrimSpace TrimLeft TrimRight
  apply mem_rdropWhile_of_mem _ _ _ _ h1
  apply mem_dropWhile_of_mem _ _ _ _ h1
  apply mem_rdropWhile_of_mem _ _ _ _ (by simp [h3])
  apply mem_dropWhile_of_mem _ _ _ _ (by simp [h2])
  apply mem_rdropWhile_of_mem _ _ _ _ h1
  exact mem_dropWhile_of_mem _ _ _ h h1

theorem dropWhile_eq_self_of_head (q : Char → Bool) (s : Str)
    (h : ∀ c, s.head? = some c → q c = false) : s.dropWhile q = s := by
  cases s with
  | nil => rfl
  | cons x xs => simp [List.dropWhile, h x (by simp)]

theorem rdropWhile_eq_self_of_last (q : Char → Bool) (s : Str)
    (h : ∀ c, s.getLast? = some c → q c = false) : s.rdropWhile q = s := by
  unfold List.rdropWhile
  rw [dropWhile_eq_self_of_head q s.reverse (by simpa using h)]
  simp

/-- A text with clean edges is left alone by `trimBrackets`. -/
theorem trimBrackets_of_cleanEdges (s : Str) (h : cleanEdges s = true) :
    trimBrackets s = s := by
  have hh : ∀ c, s.head? = some c → isEdge c = false := fun c hc => by
    simp [cleanEdges, hc] at h; simp [h.1]
  have hl : ∀ c, s.getLast? = some c → isEdge c = false := fun c hc => by
    simp [cleanEdges, hc] at h; simp [h.2]
  have e1 : ∀ c, s.head? = some c → isSpace c = false := fun c hc => by
    have := hh c hc; simp [isEdge] at this; simp [this]
  have e2 : ∀ c, s.getLast? = some c → isSpace c = false := fun c hc => by
    have := hl c hc; simp [isEdge] at this; simp [this]
  have e3 : ∀ c, s.head? = some c → decide (c ∈ ['\x7b']) = false := fun c hc => by
    have := hh c hc; simp [isEdge] at this; simp [this]
  have e4 : ∀ c, s.getLast? = some c → decide (c ∈ ['\x7d']) = false := fun c hc => by
    have := hl c hc; simp [isEdge] at this; simp [this]
  have t1 : TrimSpace s = s := by
    unfold TrimSpace
    rw [dropWhile_eq_self_of_head _ s e1, rdropWhile_eq_self_of_last _ s e2]
  unfold trimBrackets
  simp only [t1]
  unfold TrimLeft TrimRight
  rw [dropWhile_eq_self_of_head _ s e3, rdropWhile_eq_self_of_last _ s e4, t1]

theorem index_cons_zero {α : Type} (a : α) (t : List α) : index (a :: t) 0 = Go.ret a := by
  simp [index]

theorem index_cons_one {α : Type} (a b : α) (t : List α) :
    index (a :: b :: t) 1 = Go.ret b := by
  simp [index]

theorem cleanEdges_append (a m b : Str) (ha : a ≠ []) (hb : b ≠ [])
    (ca : cleanEdges a = true) (cb : cleanEdges b = true) :
    cleanEdges (a ++ m ++ b) = true := by
  cases a with
  | nil => exact absurd rfl ha
  | cons x xs =>
    have hl : (x :: xs ++ m ++ b).getLast? = b.getLast? := by
      rw [List.getLast?_append_of_ne_nil _ hb]
    simp only [cleanEdges, Bool.and_eq_true, Bool.not_eq_true'] at ca cb ⊢
    refine ⟨?_, ?_⟩
    · simpa using ca.1
    · rw [hl]; exact cb.2

/-- The result of `NewSecret` on a text with clean edges and a single separator. -/
theorem NewSecret_clean (x a b v key : Str) (hx : cleanEdges x = true)
    (e : x = a ++ '!' :: b) (ha : '!' ∉ a) (hb : '!' ∉ b) (hfb : fallback x = Go.ret (v, none))
    (hkey : index (Split b [':']) 0 = Go.ret key) :
    NewSecret x = Go.ret (Result.ok ⟨a, key, v⟩) := by
  have hc : Contains x ['!'] = true := by
    rw [Contains_single, e]; simp
  have hs : Split x ['!'] = [a, b] := by
    rw [e, Split_single_first '!' a b ha, Split_single_absent '!' b hb]
  unfold NewSecret
  simp only [hc, trimBrackets_of_cleanEdges x hx, hfb, hs, Go.bind, index_cons_one,
    index_cons_zero, hkey]
  simp

/-- C1: for non-empty `p`, `k`, `f` without `!` and `:` and with clean edges, `NewSecret`
succeeds on `p!k:f` with path `p`, key `k` and value `f`, and on `p!k` with path `p`, key
`k` and the empty value. -/
theorem C1_NewSecret_parses (p k f : Str) (hp : p ≠ []) (hk : k ≠ []) (hf : f ≠ [])
    (hp1 : '!' ∉ p) (hp2 : ':' ∉ p) (hk1 : '!' ∉ k) (hk2 : ':' ∉ k)
    (hf1 : '!' ∉ f) (hf2 : ':' ∉ f)
    (cp : cleanEdges p = true) (ck : cleanEdges k = true) (cf : cleanEdges f = true) :
    (∃ s, NewSecret (p ++ "!".toList ++ k ++ ":".toList ++ f) = Go.ret (Result.ok s) ∧
      s.Path = p ∧ s.Key = k ∧ s.Value = f) ∧
    (∃ s, NewSecret (p ++ "!".toList ++ k) = Go.ret (Result.ok s) ∧
      s.Path = p ∧ s.Key = k ∧ s.Value = []) := by
  have t1 : "!".toList = ['!'] := rfl
  have t2 : ":".toList = [':'] := rfl
  rw [t1, t2]
  constructor
  · refine ⟨⟨p, k, f⟩, ?_, rfl, rfl, rfl⟩
    have e : p ++ ['!'] ++ k ++ [':'] ++ f = p ++ '!' :: (k ++ ':' :: f) := by simp
    have e2 : p ++ ['!'] ++ k ++ [':'] ++ f = (p ++ '!' :: k) ++ ':' :: f := by simp
    have hx : cleanEdges (p ++ ['!'] ++ k ++ [':'] ++ f) = true := by
      have := cleanEdges_append p (['!'] ++ k ++ [':']) f hp hf cp cf
      simpa using this
    apply NewSecret_clean _ p (k ++ ':' :: f) f k hx e hp1
    · simp [hk1, hf1]
    · have hc : Contains (p ++ ['!'] ++ k ++ [':'] ++ f) [':'] = true := by
        rw [Contains_single]; simp
      unfold fallback
      rw [if_pos hc, e2, Split_single_first ':' (p ++ '!' :: k) f (by simp [hp2, hk2]),
        Split_single_absent ':' f hf2]
      simp [index, Go.bind]
    · rw [Split_single_first ':' k f hk2]
      exact index_cons_zero _ _
  · refine ⟨⟨p, k, []⟩, ?_, rfl, rfl, rfl⟩
    have e : p ++ ['!'] ++ k = p ++ '!' :: k := by simp
    have hx : cleanEdges (p ++ ['!'] ++ k) = true :=
      cleanEdges_append p ['!'] k hp hk cp ck
    apply NewSecret_clean _ p k [] k hx e hp1 hk1
    · have hc : Contains (p ++ ['!'] ++ k) [':'] = false := by
        rw [← Bool.not_eq_true, Contains_single]; simp [hp2, hk2]
      unfold fallback
      rw [hc]
      simp
    · rw [Split_single_absent ':' k hk2]
      exact index_cons_zero _ _

/-- C1, at the references `secret/example!key:fallbackPassword` and `secret/example!key`. -/
theorem C1_NewSecret_parses_witness :
    (∃ s, NewSecret ("secret/example".toList ++ "!".toList ++ "key".toList ++ ":".toList ++
        "fallbackPassword".toList) = Go.ret (Result.ok s) ∧
      s.Path = "secret/example".toList ∧ s.Key = "key".toList ∧
      s.Value = "fallbackPassword".toList) ∧
    (∃ s, NewSecret ("secret/example".toList ++ "!".toList ++ "key".toList) =
        Go.ret (Result.ok s) ∧
      s.Path = "secret/example".toList ∧ s.Key = "key".toList ∧ s.Value = []) :=
  C1_NewSecret_parses "secret/example".toList "key".toList "fallbackPassword".toList
    (by decide) (by decide) (by decide) (by decide) (by decide) (by decide) (by decide)
    (by decide) (by decide) (by decide) (by decide) (by decide)

theorem infix_of_append (m a b : Str) : m <:+: a ++ m ++ b := ⟨a, b, rfl⟩

/-- On a placeholder without `!`, `NewSecret` returns the error about the separator. -/
theorem NewSecret_without_separator (x : Str) (h : '!' ∉ x) :
    NewSecret x = Go.ret (Result.err errNoSeparator) := by
  have hc : Contains x ['!'] = false := by
    rw [← Bool.not_eq_true, Contains_single]; exact h
  simp [NewSecret, hc]

/-- On a placeholder with `!`, `NewSecret` returns a secret. -/
theorem NewSecret_with_separator (x : Str) (h : '!' ∈ x) :
    ∃ s, NewSecret x = Go.ret (Result.ok s) := by
  have hc : Contains x ['!'] = true := (Contains_single x '!').2 h
  have hm : '!' ∈ trimBrackets x := mem_trimBrackets '!' x h (by decide)
  obtain ⟨s1, h1⟩ := index_one_Split '!' (trimBrackets x) hm
  obtain ⟨s0, h0⟩ := index_zero_Split '!' (trimBrackets x)
  obtain ⟨k, hk⟩ := index_zero_Split ':' s1
  have hf : ∃ v, fallback (trimBrackets x) = Go.ret (v, none) := by
    unfold fallback
    by_cases hcc : Contains (trimBrackets x) [':'] = true
    · obtain ⟨v, hv⟩ := index_one_Split ':' (trimBrackets x) ((Contains_single _ _).1 hcc)
      exact ⟨v, by simp [hcc, hv, Go.bind]⟩
    · exact ⟨[], by simp [hcc]⟩
  obtain ⟨v, hv⟩ := hf
  refine ⟨⟨s0, k, v⟩, ?_⟩
  unfold NewSecret
  simp only [hc, hv, h1, h0, hk, Go.bind]
  simp

/-- The function `NewSecret` never panics. -/
theorem NewSecret_ne_abort (x : Str) : NewSecret x ≠ Go.abort := by
  by_cases h : '!' ∈ x
  · obtain ⟨s, hs⟩ := NewSecret_with_separator x h
    rw [hs]
    exact fun c => Go.noConfusion c
  · rw [NewSecret_without_separator x h]
    exact fun c => Go.noConfusion c

/-- C2: `NewSecret` fails exactly on the inputs without `!`; it then returns no secret and
an error whose message contains the text about the missing separator; on every input with
`!` it returns a secret and no error, and it never panics. -/
theorem C2_NewSecret_fails_iff (x : Str) :
    ((∃ e, NewSecret x = Go.ret (Result.err e)) ↔ '!' ∉ x) ∧
    ('!' ∉ x → ∃ e, NewSecret x = Go.ret (Result.err e) ∧
      "does not contain a `!` separator".toList <:+: e) ∧
    ('!' ∈ x → ∃ s, NewSecret x = Go.ret (Result.ok s)) ∧
    NewSecret x ≠ Go.abort := by
  refine ⟨⟨?_, ?_⟩, ?_, NewSecret_with_separator x, NewSecret_ne_abort x⟩
  · rintro ⟨e, he⟩ hmem
    obtain ⟨s, hs⟩ := NewSecret_with_separator x hmem
    rw [hs] at he
    cases he
  · intro h
    exact ⟨_, NewSecret_without_separator x h⟩
  · intro h
    refine ⟨_, NewSecret_without_separator x h, ?_⟩
    exact infix_of_append _ "path ".toList []

/-- C2, at the reference `secret/example/missingKey` of the test and at `a!b`. -/
theorem C2_NewSecret_fails_iff_witness :
    (∃ e, NewSecret "secret/example/missingKey".toList = Go.ret (Result.err e) ∧
      "does not contain a `!` separator".toList <:+: e) ∧
    (∃ s, NewSecret "a!b".toList = Go.ret (Result.ok s)) :=
  ⟨(C2_NewSecret_fails_iff "secret/example/missingKey".toList).2.1 (by decide),
   (C2_NewSecret_fails_iff "a!b".toList).2.2.1 (by decide)⟩

/-! ## Lemmas on `Retrieve` -/

/-- A successful retrieval: the store answers with a document that holds a string for the
key at the place where `Retrieve` looks. -/
theorem Retrieve_success {σ : Type} (fmtV : DocValue → Str) (s : VaultSecret)
    (client : Vault σ) (st st1 : σ) (data : Document) (v : Str)
    (hr : client.Read st s.path = ((some ⟨some data⟩, none), st1))
    (hf : fieldOf data s.key = some (DocValue.str v)) :
    s.Retrieve fmtV client st = Go.ret ⟨none, s.SetValue v, st1⟩ := by
  unfold VaultSecret.Retrieve
  rw [hr]
  unfold fieldOf at hf
  cases hd : List.lookup "data".toList data with
  | none =>
    rw [hd] at hf
    simp only at hf
    simp only [hd, hf]
  | some val =>
    rw [hd] at hf
    cases val with
    | map m =>
      simp only at hf
      simp only [hd, hf]
    | str _ => cases hf
    | num _ => cases hf
    | bool _ => cases hf
    | null => cases hf
    | list _ => cases hf

/-- What a retrieval that returns has done: either it returns an error and leaves the
secret as it was, or it returns no error and has set the value to the string found. -/
theorem Retrieve_ret_cases {σ : Type} (fmtV : DocValue → Str) (s : VaultSecret)
    (client : Vault σ) (st : σ) (r : Retrieved σ) (h : s.Retrieve fmtV client st = Go.ret r) :
    r.store = (client.Read st s.path).2 ∧
    ((r.err ≠ none ∧ r.secret = s) ∨
     (r.err = none ∧ ∃ data v, (client.Read st s.path).1 = (some ⟨some data⟩, none) ∧
        fieldOf data s.key = some (DocValue.str v) ∧ r.secret = s.SetValue v)) := by
  unfold VaultSecret.Retrieve at h
  rcases hr : client.Read st s.path with ⟨⟨sec, err⟩, st1⟩
  rw [hr] at h
  have failed : ∀ (e : Str), Go.ret (⟨some e, s, st1⟩ : Retrieved σ) = Go.ret r →
      r.store = st1 ∧ ((r.err ≠ none ∧ r.secret = s) ∨
        (r.err = none ∧ ∃ data v, (sec, err) = (some ⟨some data⟩, none) ∧
          fieldOf data s.key = some (DocValue.str v) ∧ r.secret = s.SetValue v)) := by
    intro e he
    cases he
    exact ⟨rfl, Or.inl ⟨fun c => Option.noConfusion c, rfl⟩⟩
  cases err with
  | some e => cases sec <;> exact failed _ h
  | none =>
    cases sec with
    | none => exact failed _ h
    | some secret =>
      obtain ⟨d⟩ := secret
      cases d with
      | none => exact failed _ h
      | some data =>
        simp only at h
        have found : ∀ (v : Str), fieldOf data s.key = some (DocValue.str v) →
            Go.ret (⟨none, s.SetValue v, st1⟩ : Retrieved σ) = Go.ret r →
            r.store = st1 ∧ ((r.err ≠ none ∧ r.secret = s) ∨
              (r.err = none ∧ ∃ data1 v, ((some ⟨some data⟩, none) :
                  Option ApiSecret × Option Str) = (some ⟨some data1⟩, none) ∧
                fieldOf data1 s.key = some (DocValue.str v) ∧ r.secret = s.SetValue v)) := by
          intro v hv he
          cases he
          exact ⟨rfl, Or.inr ⟨rfl, data, v, rfl, hv, rfl⟩⟩
        cases hd : List.lookup "data".toList data with
        | none =>
          rw [hd] at h
          simp only at h
          cases hk : List.lookup s.key data with
          | none =>
            rw [hk] at h
            exact failed _ h
          | some val =>
            rw [hk] at h
            have hf : fieldOf data s.key = some val := by
              unfold fieldOf; rw [hd]; exact hk
            cases val with
            | str v => exact found v hf h
            | num _ => cases h
            | bool _ => cases h
            | null => cases h
            | list _ => cases h
            | map _ => cases h
        | some val =>
          rw [hd] at h
          cases val with
          | map m =>
            simp only at h
            cases hk : List.lookup s.key m with
            | none =>
              rw [hk] at h
              exact failed _ h
            | some x =>
              rw [hk] at h
              have hf : fieldOf data s.key = some x := by
                unfold fieldOf; rw [hd]; exact hk
              cases x with
              | str v => exact found v hf h
              | num _ => cases h
              | bool _ => cases h
              | null => cases h
              | list _ => cases h
              | map _ => cases h
          | str _ => exact failed _ h
          | num _ => exact failed _ h
          | bool _ => exact failed _ h
          | null => exact failed _ h
          | list _ => exact failed _ h

/-- A retrieval returns whenever the field it looks up, if the document has it, holds a
string. -/
theorem Retrieve_returns_of_string_field {σ : Type} (fmtV : DocValue → Str) (s : VaultSecret)
    (client : Vault σ) (st : σ)
    (h : ∀ data x, (client.Read st s.path).1 = (some ⟨some data⟩, none) →
      fieldOf data s.key = some x → ∃ v, x = DocValue.str v) :
    s.Retrieve fmtV client st ≠ Go.abort := by
  intro hab
  unfold VaultSecret.Retrieve at hab
  rcases hr : client.Read st s.path with ⟨⟨sec, err⟩, st1⟩
  rw [hr] at hab h
  cases err with
  | some e => cases sec <;> cases hab
  | none =>
    cases sec with
    | none => cases hab
    | some secret =>
      obtain ⟨d⟩ := secret
      cases d with
      | none => cases hab
      | some data =>
        simp only at hab
        have hstr : ∀ x, fieldOf data s.key = some x → ∃ v, x = DocValue.str v :=
          fun x hx => h data x rfl hx
        cases hd : List.lookup "data".toList data with
        | none =>
          rw [hd] at hab
          simp only at hab
          cases hk : List.lookup s.key data with
          | none => rw [hk] at hab; cases hab
          | some val =>
            rw [hk] at hab
            have hf : fieldOf data s.key = some val := by
              unfold fieldOf; rw [hd]; exact hk
            obtain ⟨v, hv⟩ := hstr val hf
            subst hv
            cases hab
        | some val =>
          rw [hd] at hab
          cases val with
          | map m =>
            simp only at hab
            cases hk : List.lookup s.key m with
            | none => rw [hk] at hab; cases hab
            | some x =>
              rw [hk] at hab
              have hf : fieldOf data s.key = some x := by
                unfold fieldOf; rw [hd]; exact hk
              obtain ⟨v, hv⟩ := hstr x hf
              subst hv
              cases hab
          | str _ => cases hab
          | num _ => cases hab
          | bool _ => cases hab
          | null => cases hab
          | list _ => cases hab

/-- C3: when the store returns a document without member `data` that holds the string `v`
for the key (flat), and when it returns the document with the single member `data`, a
mapping that holds `v` for the key (enveloped), `Retrieve` returns no error and leaves the
secret with the value `v`, its path and key as they were: both shapes give the same. -/
theorem C3_Retrieve_flat_and_enveloped {σ : Type} (fmtV : DocValue → Str) (s : VaultSecret)
    (client : Vault σ) (st st1 : σ) (D E : Document) (v : Str) :
    (client.Read st s.Path = ((some ⟨some D⟩, none), st1) →
      List.lookup "data".toList D = none → List.lookup s.Key D = some (DocValue.str v) →
      s.Retrieve fmtV client st = Go.ret ⟨none, s.SetValue v, st1⟩ ∧
      (s.SetValue v).Value = v ∧ (s.SetValue v).Path = s.Path ∧ (s.SetValue v).Key = s.Key) ∧
    (client.Read st s.Path = ((some ⟨some [("data".toList, DocValue.map E)]⟩, none), st1) →
      List.lookup s.Key E = some (DocValue.str v) →
      s.Retrieve fmtV client st = Go.ret ⟨none, s.SetValue v, st1⟩ ∧
      (s.SetValue v).Value = v ∧ (s.SetValue v).Path = s.Path ∧ (s.SetValue v).Key = s.Key) := by
  constructor
  · intro hr hd hk
    refine ⟨Retrieve_success fmtV s client st st1 D v hr ?_, rfl, rfl, rfl⟩
    unfold fieldOf
    rw [hd]
    exact hk
  · intro hr hk
    refine ⟨Retrieve_success fmtV s client st st1 _ v hr ?_, rfl, rfl, rfl⟩
    have hd : List.lookup "data".toList [("data".toList, DocValue.map E)] =
        some (DocValue.map E) := by
      simp [List.lookup]
    unfold fieldOf
    rw [hd]
    exact hk

/-- C3, at the documents of the tests: the reference `secret/example!testKey` gets the
value `testValue` from the flat and from the enveloped document. -/
theorem C3_Retrieve_flat_and_enveloped_witness :
    (VaultSecret.Retrieve fmtNone ⟨"secret/example".toList, "testKey".toList, []⟩
        (constVault (some ⟨some [("testKey".toList, DocValue.str "testValue".toList)]⟩, none)) ()
      = Go.ret ⟨none, ⟨"secret/example".toList, "testKey".toList, "testValue".toList⟩, ()⟩) ∧
    (VaultSecret.Retrieve fmtNone ⟨"secret/example".toList, "testKey".toList, []⟩
        (constVault (some ⟨some [("data".toList,
          DocValue.map [("testKey".toList, DocValue.str "testValue".toList)])]⟩, none)) ()
      = Go.ret ⟨none, ⟨"secret/example".toList, "testKey".toList, "testValue".toList⟩, ()⟩) :=
  ⟨((C3_Retrieve_flat_and_enveloped fmtNone ⟨"secret/example".toList, "testKey".toList, []⟩
      (constVault (some ⟨some [("testKey".toList, DocValue.str "testValue".toList)]⟩, none))
      () () [("testKey".toList, DocValue.str "testValue".toList)] []
      "testValue".toList).1 rfl rfl rfl).1,
   ((C3_Retrieve_flat_and_enveloped fmtNone ⟨"secret/example".toList, "testKey".toList, []⟩
      (constVault (some ⟨some [("data".toList,
          DocValue.map [("testKey".toList, DocValue.str "testValue".toList)])]⟩, none))
      () () [] [("testKey".toList, DocValue.str "testValue".toList)]
      "testValue".toList).2 rfl rfl).1⟩

/-! ## Lemmas on the retrieval loop -/

theorem Go_bind_ret {α β : Type} (a : α) (f : α → Go β) : (Go.ret a).bind f = f a := rfl

/-- When every fetch fails, the loop of `Resolve` returns and leaves every entry as it
was. -/
theorem retrieveLoop_all_failed {σ : Type} (fmtV : DocValue → Str) (client : Vault σ)
    (entries : SecretMap)
    (hfail : ∀ e ∈ entries, ∀ st, ∃ r, e.2.Retrieve fmtV client st = Go.ret r ∧ r.err ≠ none)
    (acc : LoopState σ) :
    ∃ fin, retrieveLoop fmtV client entries acc = Go.ret fin ∧
      fin.visited = acc.visited ++ entries := by
  induction entries generalizing acc with
  | nil => exact ⟨acc, rfl, by simp⟩
  | cons e rest ih =>
    obtain ⟨p, s⟩ := e
    obtain ⟨r, hr, he⟩ := hfail (p, s) (by simp) acc.store
    have hs : r.secret = s := by
      rcases (Retrieve_ret_cases fmtV s client acc.store r hr).2 with h | h
      · exact h.2
      · exact absurd h.1 he
    have hrest : ∀ e ∈ rest, ∀ st, ∃ r, e.2.Retrieve fmtV client st = Go.ret r ∧ r.err ≠ none :=
      fun e he st => hfail e (by simp [he]) st
    simp only [retrieveLoop]
    simp only at hr
    rw [hr, Go_bind_ret]
    obtain ⟨fin, hfin, hv⟩ := ih hrest _
    exact ⟨fin, hfin, by rw [hv, hs]; simp⟩

/-- The result of `Resolve` from the constructed map and the end of its loop. -/
theorem Resolve_eq {σ : Type} (fmtV : DocValue → Str) (order : RangeOrder)
    (m : SecretResolver σ) (placeholders : List Str) (st : σ) (m0 : SecretMap)
    (fin : LoopState σ) (hm : m.secrets placeholders = Go.ret (Result.ok m0))
    (hfin : retrieveLoop fmtV m.client (order.visit m0) ⟨[], [], none, st⟩ = Go.ret fin) :
    m.Resolve fmtV order placeholders st =
      Go.ret ⟨some fin.visited, aggregateError fin.errStrings fin.err, fin.store⟩ := by
  unfold SecretResolver.Resolve
  rw [hm, Go_bind_ret]
  simp only
  rw [hfin, Go_bind_ret]

/-- The value a fresh secret carries is its fallback. -/
theorem NewSecret_value (x : Str) (s : VaultSecret) (h : NewSecret x = Go.ret (Result.ok s)) :
    fallback (trimBrackets x) = Go.ret (s.Value, none) := by
  unfold NewSecret at h
  by_cases hc : Contains x ['!'] = true
  · simp only [hc, Bool.not_true, Bool.false_eq_true, if_false] at h
    cases hf : fallback (trimBrackets x) with
    | abort => rw [hf] at h; cases h
    | ret pr =>
      obtain ⟨v, err⟩ := pr
      rw [hf, Go_bind_ret] at h
      cases err with
      | some e => cases h
      | none =>
        simp only at h
        cases h1 : index (Split (trimBrackets x) ['!']) 1 with
        | abort => rw [h1] at h; cases h
        | ret s1 =>
          rw [h1, Go_bind_ret] at h
          cases h0 : index (Split (trimBrackets x) ['!']) 0 with
          | abort => rw [h0] at h; cases h
          | ret s0 =>
            rw [h0, Go_bind_ret] at h
            cases hk : index (Split s1 [':']) 0 with
            | abort => rw [hk] at h; cases h
            | ret k =>
              rw [hk, Go_bind_ret] at h
              cases h
              rfl
  · simp only [hc, Bool.not_false, if_true] at h
    cases h

/-- C4: a retrieval that returns an error leaves value, path and key of the secret as they
were; so a secret fresh from `NewSecret` still carries its fallback after a failed fetch;
and when every fetch fails, `Resolve` returns the constructed mapping entry for entry, so
that rendering it writes what rendering the mapping without any fetch writes. -/
theorem C4_failed_fetch_keeps_secret {σ : Type} (fmtV : DocValue → Str) (client : Vault σ) :
    (∀ (s : VaultSecret) (st : σ) (r : Retrieved σ), s.Retrieve fmtV client st = Go.ret r →
      r.err ≠ none →
      r.secret.Value = s.Value ∧ r.secret.Path = s.Path ∧ r.secret.Key = s.Key) ∧
    (∀ (x : Str) (s : VaultSecret) (st : σ) (r : Retrieved σ),
      NewSecret x = Go.ret (Result.ok s) → s.Retrieve fmtV client st = Go.ret r →
      r.err ≠ none → fallback (trimBrackets x) = Go.ret (r.secret.Value, none)) ∧
    (∀ (order : RangeOrder) (factory : Str → Go (Result VaultSecret))
      (placeholders : List Str) (m0 : SecretMap) (st : σ),
      (SecretResolver.mk client factory).secrets placeholders = Go.ret (Result.ok m0) →
      (∀ e ∈ m0, ∀ st1, ∃ r, e.2.Retrieve fmtV client st1 = Go.ret r ∧ r.err ≠ none) →
      ∃ res, (SecretResolver.mk client factory).Resolve fmtV order placeholders st = Go.ret res ∧
        res.secrets = some (order.visit m0) ∧
        ∀ (m1 : SecretMap), res.secrets = some m1 →
          ∀ (fs : FileSystem) (order1 : RangeOrder) (t : TemplateFile) (out : Str),
            t.RenderSecrets fs order1 m1 out =
              t.RenderSecrets fs order1 (order.visit m0) out) := by
  have part1 : ∀ (s : VaultSecret) (st : σ) (r : Retrieved σ),
      s.Retrieve fmtV client st = Go.ret r → r.err ≠ none → r.secret = s := by
    intro s st r hr he
    rcases (Retrieve_ret_cases fmtV s client st r hr).2 with h | h
    · exact h.2
    · exact absurd h.1 he
  refine ⟨?_, ?_, ?_⟩
  · intro s st r hr he
    rw [part1 s st r hr he]
    exact ⟨rfl, rfl, rfl⟩
  · intro x s st r hx hr he
    rw [part1 s st r hr he]
    exact NewSecret_value x s hx
  · intro order factory placeholders m0 st hm hfail
    have hfail1 : ∀ e ∈ order.visit m0, ∀ st1,
        ∃ r, e.2.Retrieve fmtV client st1 = Go.ret r ∧ r.err ≠ none :=
      fun e he st1 => hfail e ((order.perm m0).mem_iff.1 he) st1
    obtain ⟨fin, hfin, hv⟩ :=
      retrieveLoop_all_failed fmtV client (order.visit m0) hfail1 ⟨[], [], none, st⟩
    refine ⟨_, Resolve_eq fmtV order ⟨client, factory⟩ placeholders st m0 fin hm hfin, ?_, ?_⟩
    · simpa using hv
    · intro m1 hm1 fs order1 t out
      have : m1 = order.visit m0 := by
        have h2 : some fin.visited = some m1 := hm1
        rw [hv] at h2
        simpa using h2.symm
      rw [this]

/-- C4, at a store whose reads fail with `document missing`: the secret of the reference
`secret/missing!key:dflt` keeps its fallback `dflt`, and resolving the example placeholders
returns the mapping as constructed. -/
theorem C4_failed_fetch_keeps_secret_witness :
    (∃ r, VaultSecret.Retrieve fmtNone ⟨"secret/missing".toList, "key".toList, "dflt".toList⟩
        (constVault (none, some "document missing".toList)) () = Go.ret r ∧
      r.err ≠ none ∧ r.secret.Value = "dflt".toList ∧
      r.secret.Path = "secret/missing".toList ∧ r.secret.Key = "key".toList) ∧
    (∃ res, (SecretResolver.mk (constVault (none, some "document missing".toList))
        NewSecret).Resolve fmtNone orderReversed examplePlaceholders () = Go.ret res ∧
      res.secrets = some (orderReversed.visit
        [("secret/a!k:f1".toList, ⟨"secret/a".toList, "k".toList, "f1".toList⟩),
         ("secret/b!k:f2".toList, ⟨"secret/b".toList, "k".toList, "f2".toList⟩)])) := by
  have h := C4_failed_fetch_keeps_secret fmtNone
    (constVault (none, some "document missing".toList))
  refine ⟨⟨⟨_, ⟨"secret/missing".toList, "key".toList, "dflt".toList⟩, ()⟩, rfl,
    fun c => Option.noConfusion c,
    h.1 ⟨"secret/missing".toList, "key".toList, "dflt".toList⟩ ()
      ⟨_, ⟨"secret/missing".toList, "key".toList, "dflt".toList⟩, ()⟩ rfl
      (fun c => Option.noConfusion c)⟩, ?_⟩
  obtain ⟨res, h1, h2, _⟩ := h.2.2 orderReversed NewSecret examplePlaceholders
    [("secret/a!k:f1".toList, ⟨"secret/a".toList, "k".toList, "f1".toList⟩),
     ("secret/b!k:f2".toList, ⟨"secret/b".toList, "k".toList, "f2".toList⟩)] ()
    (by decide)
    (fun e _ st1 => ⟨⟨_, e.2, st1⟩, rfl, fun c => Option.noConfusion c⟩)
  exact ⟨res, h1, h2⟩

/-! ## Lemmas on the construction of the map -/

theorem mem_keys_mapSet (m : SecretMap) (k : Str) (v : VaultSecret) (x : Str) :
    x ∈ (mapSet m k v).map Prod.fst ↔ x ∈ m.map Prod.fst ∨ x = k := by
  induction m with
  | nil => simp [mapSet]
  | cons e rest ih =>
    obtain ⟨k1, v1⟩ := e
    by_cases h : k1 = k
    · subst h
      simp only [mapSet, if_true, List.map_cons, List.mem_cons]
      tauto
    · simp only [mapSet, if_neg h, List.map_cons, List.mem_cons, ih]
      tauto

theorem nodup_keys_mapSet (m : SecretMap) (k : Str) (v : VaultSecret)
    (h : (m.map Prod.fst).Nodup) : ((mapSet m k v).map Prod.fst).Nodup := by
  induction m with
  | nil => simp [mapSet]
  | cons e rest ih =>
    obtain ⟨k1, v1⟩ := e
    simp only [List.map_cons, List.nodup_cons] at h
    by_cases hk : k1 = k
    · subst hk
      simp only [mapSet, if_true, List.map_cons, List.nodup_cons]
      exact h
    · simp only [mapSet, if_neg hk, List.map_cons, List.nodup_cons]
      refine ⟨?_, ih h.2⟩
      rw [mem_keys_mapSet]
      rintro (h1 | h1)
      · exact h.1 h1
      · exact hk h1

theorem mem_mapSet (m : SecretMap) (k : Str) (v : VaultSecret) (e : Str × VaultSecret)
    (h : e ∈ mapSet m k v) : e = (k, v) ∨ e ∈ m := by
  induction m with
  | nil => simpa [mapSet] using h
  | cons e1 rest ih =>
    obtain ⟨k1, v1⟩ := e1
    by_cases hk : k1 = k
    · simp only [mapSet, if_pos hk, List.mem_cons] at h
      rcases h with h | h
      · exact Or.inl h
      · exact Or.inr (by simp [h])
    · simp only [mapSet, if_neg hk, List.mem_cons] at h
      rcases h with h | h
      · exact Or.inr (by simp [h])
      · rcases ih h with h1 | h1
        · exact Or.inl h1
        · exact Or.inr (by simp [h1])

/-- When the factory succeeds on every placeholder, the loop of `secrets` returns a map
whose keys are the keys it started with and the placeholders, each once, and whose secrets
are those the factory makes for their keys. -/
theorem secretsLoop_ok (factory : Str → Go (Result VaultSecret)) (ps : List Str)
    (hok : ∀ p ∈ ps, ∃ s, factory p = Go.ret (Result.ok s)) (m : SecretMap) :
    ∃ m1, secretsLoop factory ps m = Go.ret (Result.ok m1) ∧
      (∀ k, k ∈ m1.map Prod.fst ↔ k ∈ m.map Prod.fst ∨ k ∈ ps) ∧
      ((m.map Prod.fst).Nodup → (m1.map Prod.fst).Nodup) ∧
      ((∀ e ∈ m, factory e.1 = Go.ret (Result.ok e.2)) →
        ∀ e ∈ m1, factory e.1 = Go.ret (Result.ok e.2)) := by
  induction ps generalizing m with
  | nil =>
    exact ⟨m, rfl, fun k => ⟨Or.inl, fun h => h.elim id fun h1 => (List.not_mem_nil _ h1).elim⟩,
      id, id⟩
  | cons p rest ih =>
    obtain ⟨s, hs⟩ := hok p (List.mem_cons_self _ _)
    obtain ⟨m1, h1, hk, hn, hv⟩ := ih (fun q hq => hok q (by simp [hq])) (mapSet m p s)
    refine ⟨m1, ?_, ?_, ?_, ?_⟩
    · simp only [secretsLoop]
      rw [hs, Go_bind_ret]
      exact h1
    · intro k
      rw [hk, mem_keys_mapSet]
      simp only [List.mem_cons]
      tauto
    · intro h
      exact hn (nodup_keys_mapSet m p s h)
    · intro h
      apply hv
      intro e he
      rcases mem_mapSet m p s e he with h2 | h2
      · rw [h2]; exact hs
      · exact h e h2

/-- The loop of `secrets` stops at the first placeholder on which the factory fails. -/
theorem secretsLoop_fail (factory : Str → Go (Result VaultSecret)) (pre : List Str)
    (X : Str) (post : List Str) (hpre : ∀ p ∈ pre, ∃ s, factory p = Go.ret (Result.ok s))
    (e : Str) (hX : factory X = Go.ret (Result.err e)) (m : SecretMap) :
    secretsLoop factory (pre ++ X :: post) m =
      Go.ret (Result.err ("could not construct secret for ".toList ++ X)) := by
  induction pre generalizing m with
  | nil =>
    simp only [List.nil_append, secretsLoop]
    rw [hX, Go_bind_ret]
  | cons p rest ih =>
    obtain ⟨s, hs⟩ := hpre p (by simp)
    simp only [List.cons_append, secretsLoop]
    rw [hs, Go_bind_ret]
    exact ih (fun q hq => hpre q (by simp [hq])) _

/-- A list on which the factory never panics and fails somewhere splits at the first
placeholder on which it fails. -/
theorem exists_first_failure (factory : Str → Go (Result VaultSecret)) (ps : List Str)
    (hret : ∀ p ∈ ps, factory p ≠ Go.abort)
    (hfail : ∃ p ∈ ps, ∃ e, factory p = Go.ret (Result.err e)) :
    ∃ pre X post, ps = pre ++ X :: post ∧
      (∀ p ∈ pre, ∃ s, factory p = Go.ret (Result.ok s)) ∧
      ∃ e, factory X = Go.ret (Result.err e) := by
  induction ps with
  | nil =>
    obtain ⟨p, hp, _⟩ := hfail
    simp at hp
  | cons q rest ih =>
    cases hq : factory q with
    | abort => exact absurd hq (hret q (by simp))
    | ret r =>
      cases r with
      | err e => exact ⟨[], q, rest, rfl, by simp, e, hq⟩
      | ok s =>
        have hfail1 : ∃ p ∈ rest, ∃ e, factory p = Go.ret (Result.err e) := by
          obtain ⟨p, hp, e, he⟩ := hfail
          rcases List.mem_cons.1 hp with h | h
          · subst h
            rw [hq] at he
            cases he
          · exact ⟨p, h, e, he⟩
        obtain ⟨pre, X, post, h1, h2, h3⟩ := ih (fun p hp => hret p (by simp [hp])) hfail1
        refine ⟨q :: pre, X, post, by simp [h1], ?_, h3⟩
        intro p hp
        rcases List.mem_cons.1 hp with h | h
        · subst h; exact ⟨s, hq⟩
        · exact h2 p h

/-- C7: when the factory fails on some placeholder of the list (and panics on none),
`Resolve` returns no mapping and the error `could not construct secret for X`, `X` being
the first placeholder on which the factory fails; the store is as it was before the call,
whatever the store: no fetch of any placeholder was attempted. -/
theorem C7_factory_failure_aborts_batch {σ : Type} (fmtV : DocValue → Str)
    (order : RangeOrder) (m : SecretResolver σ) (ps : List Str) (st : σ)
    (hret : ∀ p ∈ ps, m.secret p ≠ Go.abort)
    (hfail : ∃ p ∈ ps, ∃ e, m.secret p = Go.ret (Result.err e)) :
    ∃ pre X post, ps = pre ++ X :: post ∧
      (∀ p ∈ pre, ∃ s, m.secret p = Go.ret (Result.ok s)) ∧
      (∃ e, m.secret X = Go.ret (Result.err e)) ∧
      m.Resolve fmtV order ps st =
        Go.ret ⟨none, some ("could not construct secret for ".toList ++ X), st⟩ := by
  obtain ⟨pre, X, post, h1, h2, e, h3⟩ := exists_first_failure m.secret ps hret hfail
  refine ⟨pre, X, post, h1, h2, ⟨e, h3⟩, ?_⟩
  unfold SecretResolver.Resolve SecretResolver.secrets
  rw [h1, secretsLoop_fail m.secret pre X post h2 e h3, Go_bind_ret]

/-! ## The loop of `Resolve` and the retrievals it makes -/

theorem Go_bind_abort {α β : Type} (f : α → Go β) : (Go.abort : Go α).bind f = Go.abort := rfl

theorem failures_cons {σ : Type} (pr : Str × Retrieved σ) (rs : List (Str × Retrieved σ)) :
    failures (pr :: rs) =
      match pr.2.err with
      | none => failures rs
      | some e => e :: failures rs := by
  unfold failures
  rw [List.filterMap_cons]
  cases pr.2.err <;> rfl

/-- The loop of `Resolve` makes the retrievals of `fetchEach`: it visits every entry, keeps
the secrets as the retrievals leave them, and collects the quoted messages of those that
failed. -/
theorem retrieveLoop_eq_fetchEach {σ : Type} (fmtV : DocValue → Str) (client : Vault σ)
    (entries : SecretMap) (acc : LoopState σ) :
    retrieveLoop fmtV client entries acc =
      (fetchEach fmtV client entries acc.store).bind fun rs =>
        Go.ret ⟨acc.visited ++ retrievedSecrets rs,
          acc.errStrings ++ (failures rs).map quoted, lastErr acc.err rs,
          lastStore acc.store rs⟩ := by
  induction entries generalizing acc with
  | nil =>
    simp only [retrieveLoop, fetchEach, Go_bind_ret, retrievedSecrets, failures, lastStore,
      lastErr,
      List.map_nil, List.filterMap_nil, List.append_nil]
  | cons e rest ih =>
    obtain ⟨p, s⟩ := e
    simp only [retrieveLoop, fetchEach]
    cases hr : s.Retrieve fmtV client acc.store with
    | abort => rfl
    | ret r =>
      simp only [Go_bind_ret]
      rw [ih]
      simp only
      cases hf : fetchEach fmtV client rest r.store with
      | abort => rfl
      | ret rs =>
        simp only [Go_bind_ret]
        rw [failures_cons]
        cases he : r.err with
        | none =>
          simp only [retrievedSecrets, lastStore, lastErr, he, List.map_cons,
            List.append_assoc, List.singleton_append]
        | some e =>
          simp only [retrievedSecrets, lastStore, lastErr, he, List.map_cons,
            List.append_assoc, List.singleton_append]

/-- Every outcome of `fetchEach` is the outcome of `Retrieve` on the entry visited, on the
store at that time. -/
theorem fetchEach_spec {σ : Type} (fmtV : DocValue → Str) (client : Vault σ)
    (entries : SecretMap) (st : σ) (rs : List (Str × Retrieved σ))
    (h : fetchEach fmtV client entries st = Go.ret rs) :
    List.Forall₂ (fun e pr => pr.1 = e.1 ∧ ∃ st0, e.2.Retrieve fmtV client st0 = Go.ret pr.2)
      entries rs := by
  induction entries generalizing st rs with
  | nil =>
    simp only [fetchEach, Go.ret.injEq] at h
    subst h
    exact List.Forall₂.nil
  | cons e rest ih =>
    obtain ⟨p, s⟩ := e
    simp only [fetchEach] at h
    cases hr : s.Retrieve fmtV client st with
    | abort => rw [hr] at h; cases h
    | ret r =>
      rw [hr, Go_bind_ret] at h
      cases hf : fetchEach fmtV client rest r.store with
      | abort => rw [hf] at h; cases h
      | ret rs1 =>
        rw [hf, Go_bind_ret] at h
        cases h
        exact List.Forall₂.cons ⟨rfl, st, hr⟩ (ih r.store rs1 hf)

/-- When no retrieval panics, `fetchEach` returns. -/
theorem fetchEach_returns {σ : Type} (fmtV : DocValue → Str) (client : Vault σ)
    (entries : SecretMap)
    (hret : ∀ e ∈ entries, ∀ st, e.2.Retrieve fmtV client st ≠ Go.abort) (st : σ) :
    ∃ rs, fetchEach fmtV client entries st = Go.ret rs := by
  induction entries generalizing st with
  | nil => exact ⟨[], rfl⟩
  | cons e rest ih =>
    obtain ⟨p, s⟩ := e
    cases hr : s.Retrieve fmtV client st with
    | abort => exact absurd hr (hret (p, s) (List.mem_cons_self _ _) st)
    | ret r =>
      obtain ⟨rs, hrs⟩ := ih (fun e he st => hret e (List.mem_cons_of_mem _ he) st) r.store
      refine ⟨(p, r) :: rs, ?_⟩
      simp only [fetchEach]
      rw [hr, Go_bind_ret, hrs, Go_bind_ret]

theorem failures_eq_nil_iff {σ : Type} (rs : List (Str × Retrieved σ)) :
    failures rs = [] ↔ ∀ pr ∈ rs, pr.2.err = none := by
  induction rs with
  | nil => exact ⟨fun _ pr h => (List.not_mem_nil _ h).elim, fun _ => rfl⟩
  | cons pr rest ih =>
    rw [failures_cons]
    cases he : pr.2.err with
    | none =>
      simp only
      rw [ih]
      constructor
      · intro h q hq
        rcases List.mem_cons.1 hq with h1 | h1
        · rw [h1]; exact he
        · exact h q h1
      · intro h q hq
        exact h q (List.mem_cons_of_mem _ hq)
    | some e =>
      simp only
      constructor
      · intro h; cases h
      · intro h
        have := h pr (List.mem_cons_self _ _)
        rw [he] at this
        cases this

theorem mem_failures {σ : Type} (rs : List (Str × Retrieved σ)) (e : Str) :
    e ∈ failures rs ↔ ∃ pr ∈ rs, pr.2.err = some e := by
  unfold failures
  rw [List.mem_filterMap]

theorem infix_intercalate_of_mem (sep x : Str) (l : List Str) (h : x ∈ l) :
    x <:+: sep.intercalate l := by
  induction l with
  | nil => simp at h
  | cons y t ih =>
    cases t with
    | nil =>
      have : x = y := by simpa using h
      subst this
      simp [List.intercalate, List.intersperse]
    | cons z t1 =>
      have e : sep.intercalate (y :: z :: t1) = y ++ sep ++ sep.intercalate (z :: t1) := by
        simp [List.intercalate, List.intersperse]
      rw [e]
      rcases List.mem_cons.1 h with h1 | h1
      · subst h1
        exact ⟨[], sep ++ sep.intercalate (z :: t1), by simp⟩
      · obtain ⟨a, b, hab⟩ := ih h1
        exact ⟨y ++ sep ++ a, b, by simp [← hab]⟩

/-- The message of every failed retrieval is part of the text of the aggregate error. -/
theorem infix_aggregateError (errs : List Str) (e text : Str) (err : Option Str)
    (he : e ∈ errs) (h : aggregateError (errs.map quoted) err = some text) : e <:+: text := by
  unfold aggregateError at h
  split at h
  · simp only [Option.some.injEq] at h
    subst h
    have h1 : quoted e <:+: Join (errs.map quoted) ", ".toList :=
      infix_intercalate_of_mem _ _ _ (List.mem_map_of_mem quoted he)
    have h2 : e <:+: quoted e := ⟨['"'], ['"'], rfl⟩
    obtain ⟨a, b, hab⟩ := h2.trans h1
    refine ⟨'[' :: a, b ++ [']'], ?_⟩
    rw [← hab]
    simp
  · rename_i hlen
    exfalso
    apply hlen
    rw [List.length_map]
    exact List.length_pos_of_mem he

theorem aggregateError_eq_none_iff (errs : List Str) (err : Option Str) :
    aggregateError errs err = none ↔ errs = [] ∧ err = none := by
  unfold aggregateError
  cases errs with
  | nil => exact ⟨fun h => ⟨rfl, h⟩, fun h => h.2⟩
  | cons a t =>
    constructor
    · intro h
      have hpos : (a :: t).length > 0 := Nat.succ_pos _
      rw [if_pos hpos] at h
      cases h
    · intro h; cases h.1

/-- When no retrieval failed, the variable `err` is nil after the loop. -/
theorem lastErr_of_no_failure {σ : Type} (rs : List (Str × Retrieved σ)) (err : Option Str)
    (herr : err = none) (h : ∀ pr ∈ rs, pr.2.err = none) : lastErr err rs = none := by
  induction rs generalizing err with
  | nil => exact herr
  | cons pr rest ih =>
    exact ih pr.2.err (h pr (List.mem_cons_self _ _))
      (fun q hq => h q (List.mem_cons_of_mem _ hq))

theorem aggregateError_of_ne_nil (errs : List Str) (err : Option Str) (h : errs ≠ []) :
    aggregateError errs err = some (['['] ++ Join errs ", ".toList ++ [']']) := by
  unfold aggregateError
  cases errs with
  | nil => exact absurd rfl h
  | cons a t =>
    have hpos : (a :: t).length > 0 := Nat.succ_pos _
    rw [if_pos hpos]

theorem keys_of_outcomes {σ : Type} (R : Str × VaultSecret → Str × Retrieved σ → Prop)
    (hR : ∀ e pr, R e pr → pr.1 = e.1) (entries : SecretMap) (rs : List (Str × Retrieved σ))
    (h : List.Forall₂ R entries rs) :
    (retrievedSecrets rs).map Prod.fst = entries.map Prod.fst := by
  induction h with
  | nil => rfl
  | cons hd _ ih =>
    unfold retrievedSecrets at ih ⊢
    rw [List.map_cons, List.map_cons, List.map_cons, ih, hR _ _ hd]

theorem entry_of_outcome {σ : Type} (R : Str × VaultSecret → Str × Retrieved σ → Prop)
    (entries : SecretMap) (rs : List (Str × Retrieved σ)) (h : List.Forall₂ R entries rs)
    (pr : Str × Retrieved σ) (hpr : pr ∈ rs) : ∃ e ∈ entries, R e pr := by
  induction h with
  | nil => exact (List.not_mem_nil _ hpr).elim
  | cons hd _ ih =>
    rcases List.mem_cons.1 hpr with h1 | h1
    · subst h1
      exact ⟨_, List.mem_cons_self _ _, hd⟩
    · obtain ⟨e, he, hr⟩ := ih h1
      exact ⟨e, List.mem_cons_of_mem _ he, hr⟩

/-- What `Resolve` does when the factory succeeds on every placeholder and no retrieval
panics: it constructs the map `m0`, makes the retrievals `rs` of all its entries in the
order of the visits, and returns the retrieved secrets with the aggregate error. -/
theorem Resolve_run {σ : Type} (fmtV : DocValue → Str) (order : RangeOrder)
    (m : SecretResolver σ) (ps : List Str) (st : σ)
    (hok : ∀ p ∈ ps, ∃ s, m.secret p = Go.ret (Result.ok s))
    (hret : ∀ p ∈ ps, ∀ s, m.secret p = Go.ret (Result.ok s) →
      ∀ st1, s.Retrieve fmtV m.client st1 ≠ Go.abort) :
    ∃ m0 rs, m.secrets ps = Go.ret (Result.ok m0) ∧
      (∀ k, k ∈ m0.map Prod.fst ↔ k ∈ ps) ∧ (m0.map Prod.fst).Nodup ∧
      (∀ e ∈ m0, m.secret e.1 = Go.ret (Result.ok e.2)) ∧
      fetchEach fmtV m.client (order.visit m0) st = Go.ret rs ∧
      m.Resolve fmtV order ps st =
        Go.ret ⟨some (retrievedSecrets rs),
          aggregateError ((failures rs).map quoted) (lastErr none rs), lastStore st rs⟩ := by
  obtain ⟨m0, h0, hk, hn, hv⟩ := secretsLoop_ok m.secret ps hok []
  have hk1 : ∀ k, k ∈ m0.map Prod.fst ↔ k ∈ ps := fun k => by
    rw [hk]
    exact ⟨fun h => h.elim (fun h1 => (List.not_mem_nil _ h1).elim) id, Or.inr⟩
  have hv1 : ∀ e ∈ m0, m.secret e.1 = Go.ret (Result.ok e.2) :=
    hv (fun e he => (List.not_mem_nil _ he).elim)
  have hret1 : ∀ e ∈ order.visit m0, ∀ st1, e.2.Retrieve fmtV m.client st1 ≠ Go.abort := by
    intro e he st1
    have hm : e ∈ m0 := (order.perm m0).mem_iff.1 he
    exact hret e.1 ((hk1 e.1).1 (List.mem_map_of_mem Prod.fst hm)) e.2 (hv1 e hm) st1
  obtain ⟨rs, hrs⟩ := fetchEach_returns fmtV m.client (order.visit m0) hret1 st
  have hloop := retrieveLoop_eq_fetchEach fmtV m.client (order.visit m0) ⟨[], [], none, st⟩
  simp only at hloop
  rw [hrs, Go_bind_ret, List.nil_append, List.nil_append] at hloop
  refine ⟨m0, rs, h0, hk1, hn List.nodup_nil, hv1, hrs, ?_⟩
  exact Resolve_eq fmtV order m ps st m0 _ h0 hloop

/-- The claim C5 as stated fails: the factory succeeds on `{{secret/a!k}}`, and on a store
whose document at `secret/a` holds a number for `k` the retrieval aborts, so that `Resolve`
aborts and returns no mapping. -/
theorem C5_counterexample :
    NewSecret "\x7b\x7bsecret/a!k\x7d\x7d".toList =
      Go.ret (Result.ok ⟨"secret/a".toList, "k".toList, []⟩) ∧
    SecretResolver.Resolve fmtNone orderAsListed ⟨numberStore, NewSecret⟩
      ["\x7b\x7bsecret/a!k\x7d\x7d".toList] [] = Go.abort := by
  decide

/-- C5, amended: when the factory succeeds on every placeholder and no retrieval aborts,
`Resolve` returns a mapping whose keys are exactly the distinct placeholders of the list,
whether or not retrievals fail; every entry is the secret constructed for its key after its
retrieval: as constructed when the retrieval failed, with the string fetched from the
store as value when it succeeded. -/
theorem C5_Resolve_returns_every_reference {σ : Type} (fmtV : DocValue → Str)
    (order : RangeOrder) (m : SecretResolver σ) (ps : List Str) (st : σ)
    (hok : ∀ p ∈ ps, ∃ s, m.secret p = Go.ret (Result.ok s))
    (hret : ∀ p ∈ ps, ∀ s, m.secret p = Go.ret (Result.ok s) →
      ∀ st1, s.Retrieve fmtV m.client st1 ≠ Go.abort) :
    ∃ res secrets, m.Resolve fmtV order ps st = Go.ret res ∧ res.secrets = some secrets ∧
      (∀ k, k ∈ secrets.map Prod.fst ↔ k ∈ ps) ∧ (secrets.map Prod.fst).Nodup ∧
      ∀ p s1, (p, s1) ∈ secrets →
        ∃ s0 st0 r, m.secret p = Go.ret (Result.ok s0) ∧
          s0.Retrieve fmtV m.client st0 = Go.ret r ∧ s1 = r.secret ∧
          (r.err ≠ none → s1 = s0) ∧
          (r.err = none → ∃ data v,
            (m.client.Read st0 s0.Path).1 = (some ⟨some data⟩, none) ∧
            fieldOf data s0.Key = some (DocValue.str v) ∧
            s1.Value = v ∧ s1.Path = s0.Path ∧ s1.Key = s0.Key) := by
  obtain ⟨m0, rs, _, hk, hn, hv, hrs, hres⟩ := Resolve_run fmtV order m ps st hok hret
  have hspec := fetchEach_spec fmtV m.client (order.visit m0) st rs hrs
  have hkeys : (retrievedSecrets rs).map Prod.fst = (order.visit m0).map Prod.fst :=
    keys_of_outcomes _ (fun _ _ h => h.1) _ _ hspec
  have hperm : ((order.visit m0).map Prod.fst).Perm (m0.map Prod.fst) :=
    (order.perm m0).map Prod.fst
  refine ⟨_, retrievedSecrets rs, hres, rfl, ?_, ?_, ?_⟩
  · intro k
    rw [hkeys, hperm.mem_iff]
    exact hk k
  · rw [hkeys]
    exact hperm.nodup_iff.2 hn
  · intro p s1 hmem
    unfold retrievedSecrets at hmem
    obtain ⟨pr, hpr, heq⟩ := List.mem_map.1 hmem
    obtain ⟨e, he, he1, st0, hr⟩ := entry_of_outcome _ _ _ hspec pr hpr
    have hm : e ∈ m0 := (order.perm m0).mem_iff.1 he
    have hp : e.1 = p := by
      rw [← he1]
      exact congrArg Prod.fst heq
    have hs1 : s1 = pr.2.secret := (congrArg Prod.snd heq).symm
    refine ⟨e.2, st0, pr.2, ?_, hr, hs1, ?_, ?_⟩
    · rw [← hp]; exact hv e hm
    · intro herr
      rcases (Retrieve_ret_cases fmtV e.2 m.client st0 pr.2 hr).2 with h | h
      · rw [hs1]; exact h.2
      · exact absurd h.1 herr
    · intro herr
      rcases (Retrieve_ret_cases fmtV e.2 m.client st0 pr.2 hr).2 with h | h
      · exact absurd herr h.1
      · obtain ⟨_, data, v, h1, h2, h3⟩ := h
        refine ⟨data, v, h1, h2, ?_, ?_, ?_⟩
        · rw [hs1, h3]; rfl
        · rw [hs1, h3]; rfl
        · rw [hs1, h3]; rfl

/-- The claim C6 as stated fails: on the store whose document at `secret/a` holds a number
for `k` and which has no document at `secret/b`, the retrieval of `secret/b!k` returns an
error and that of `secret/a!k` aborts; `Resolve` aborts on the two placeholders, in either
order of visit, and returns neither nil nor the error of the failed retrieval. -/
theorem C6_counterexample :
    VaultSecret.Retrieve fmtNone ⟨"secret/b".toList, "k".toList, []⟩ numberStore [] =
      Go.ret ⟨some "failed to fetch secret 'secret/b' from Vault: not found".toList,
        ⟨"secret/b".toList, "k".toList, []⟩, ["secret/b".toList]⟩ ∧
    VaultSecret.Retrieve fmtNone ⟨"secret/a".toList, "k".toList, []⟩ numberStore
      ["secret/b".toList] = Go.abort ∧
    SecretResolver.Resolve fmtNone orderAsListed ⟨numberStore, NewSecret⟩
      ["secret/b!k".toList, "secret/a!k".toList] [] = Go.abort ∧
    SecretResolver.Resolve fmtNone orderReversed ⟨numberStore, NewSecret⟩
      ["secret/b!k".toList, "secret/a!k".toList] [] = Go.abort := by
  decide

/-- C6, amended: when the factory succeeds on every placeholder and no retrieval aborts,
`Resolve` calls `Retrieve` on every entry of the mapping, one after the other whatever
their outcomes; it returns a nil error exactly when every retrieval succeeded; otherwise
the text of its error is `[`, the double-quoted messages of exactly the failed retrievals
joined by a comma and a space, and `]`, and the message of every failed retrieval is part
of it. -/
theorem C6_Resolve_aggregates_errors {σ : Type} (fmtV : DocValue → Str)
    (order : RangeOrder) (m : SecretResolver σ) (ps : List Str) (st : σ)
    (hok : ∀ p ∈ ps, ∃ s, m.secret p = Go.ret (Result.ok s))
    (hret : ∀ p ∈ ps, ∀ s, m.secret p = Go.ret (Result.ok s) →
      ∀ st1, s.Retrieve fmtV m.client st1 ≠ Go.abort) :
    ∃ m0 rs res, m.secrets ps = Go.ret (Result.ok m0) ∧
      fetchEach fmtV m.client (order.visit m0) st = Go.ret rs ∧
      List.Forall₂ (fun e pr => pr.1 = e.1 ∧ ∃ st0, e.2.Retrieve fmtV m.client st0 = Go.ret pr.2)
        (order.visit m0) rs ∧
      m.Resolve fmtV order ps st = Go.ret res ∧
      (res.err = none ↔ ∀ pr ∈ rs, pr.2.err = none) ∧
      (∀ e, e ∈ failures rs ↔ ∃ pr ∈ rs, pr.2.err = some e) ∧
      ((∃ pr ∈ rs, pr.2.err ≠ none) →
        res.err = some (['['] ++ Join ((failures rs).map quoted) ", ".toList ++ [']'])) ∧
      (∀ pr ∈ rs, ∀ e, pr.2.err = some e → ∃ text, res.err = some text ∧ e <:+: text) := by
  obtain ⟨m0, rs, h0, _, _, _, hrs, hres⟩ := Resolve_run fmtV order m ps st hok hret
  have hspec := fetchEach_spec fmtV m.client (order.visit m0) st rs hrs
  have hnil : (failures rs).map quoted = [] ↔ ∀ pr ∈ rs, pr.2.err = none := by
    rw [List.map_eq_nil_iff]
    exact failures_eq_nil_iff rs
  have hsome : (∃ pr ∈ rs, pr.2.err ≠ none) →
      aggregateError ((failures rs).map quoted) (lastErr none rs) =
      some (['['] ++ Join ((failures rs).map quoted) ", ".toList ++ [']']) := by
    rintro ⟨pr, hpr, he⟩
    apply aggregateError_of_ne_nil
    intro hn
    exact he (hnil.1 hn pr hpr)
  refine ⟨m0, rs, _, h0, hrs, hspec, hres, ?_, mem_failures rs, hsome, ?_⟩
  · show aggregateError ((failures rs).map quoted) (lastErr none rs) = none ↔ _
    rw [aggregateError_eq_none_iff]
    exact ⟨fun h => hnil.1 h.1, fun h => ⟨hnil.2 h, lastErr_of_no_failure rs none rfl h⟩⟩
  · intro pr hpr e he
    have h1 := hsome ⟨pr, hpr, by rw [he]; exact fun c => Option.noConfusion c⟩
    refine ⟨_, h1, ?_⟩
    exact infix_aggregateError (failures rs) e _ _ ((mem_failures rs e).2 ⟨pr, hpr, he⟩) h1

/-! ## The examples -/

theorem examplePlaceholders_ok :
    ∀ p ∈ examplePlaceholders, ∃ s, exampleResolver.secret p = Go.ret (Result.ok s) := by
  intro p hp
  apply NewSecret_with_separator
  simp only [examplePlaceholders, List.mem_cons, List.mem_singleton, List.not_mem_nil,
    or_false] at hp
  rcases hp with h | h <;> subst h <;> decide

theorem examplePlaceholders_return :
    ∀ p ∈ examplePlaceholders, ∀ s, exampleResolver.secret p = Go.ret (Result.ok s) →
      ∀ st1, s.Retrieve fmtNone exampleResolver.client st1 ≠ Go.abort := by
  intro p hp s hs st1
  have e1 : NewSecret "secret/a!k:f1".toList =
      Go.ret (Result.ok ⟨"secret/a".toList, "k".toList, "f1".toList⟩) := by decide
  have e2 : NewSecret "secret/b!k:f2".toList =
      Go.ret (Result.ok ⟨"secret/b".toList, "k".toList, "f2".toList⟩) := by decide
  simp only [examplePlaceholders, List.mem_cons, List.mem_singleton, List.not_mem_nil,
    or_false] at hp
  rcases hp with h | h
  · subst h
    have hs1 : NewSecret "secret/a!k:f1".toList = Go.ret (Result.ok s) := hs
    rw [e1] at hs1
    cases hs1
    intro c
    cases c
  · subst h
    have hs1 : NewSecret "secret/b!k:f2".toList = Go.ret (Result.ok s) := hs
    rw [e2] at hs1
    cases hs1
    intro c
    cases c

/-- C5, at the example: one placeholder is fetched, the fetch of the other fails, and the
mapping returned has both. -/
theorem C5_Resolve_returns_every_reference_witness :
    ∃ res secrets, exampleResolver.Resolve fmtNone orderAsListed examplePlaceholders [] =
        Go.ret res ∧ res.secrets = some secrets ∧
      (∀ k, k ∈ secrets.map Prod.fst ↔ k ∈ examplePlaceholders) ∧
      (secrets.map Prod.fst).Nodup := by
  obtain ⟨res, secrets, h1, h2, h3, h4, _⟩ :=
    C5_Resolve_returns_every_reference fmtNone orderAsListed exampleResolver
      examplePlaceholders [] examplePlaceholders_ok examplePlaceholders_return
  exact ⟨res, secrets, h1, h2, h3, h4⟩

/-- C6, at the example: the retrieval of `secret/b` fails, and the error returned is not
nil. -/
theorem C6_Resolve_aggregates_errors_witness :
    ∃ (rs : List (Str × Retrieved (List Str))) (res : Resolved (List Str)),
      exampleResolver.Resolve fmtNone orderAsListed examplePlaceholders [] = Go.ret res ∧
      (res.err = none ↔ ∀ pr ∈ rs, pr.2.err = none) ∧
      (∀ pr ∈ rs, ∀ e, pr.2.err = some e → ∃ text, res.err = some text ∧ e <:+: text) := by
  obtain ⟨_, rs, res, _, _, _, h1, h2, _, _, h3⟩ :=
    C6_Resolve_aggregates_errors fmtNone orderAsListed exampleResolver
      examplePlaceholders [] examplePlaceholders_ok examplePlaceholders_return
  exact ⟨rs, res, h1, h2, h3⟩

/-- C7, at a list whose second placeholder has no separator: nothing is read. -/
theorem C7_factory_failure_aborts_batch_witness :
    ∃ pre X post,
      ["secret/a!k".toList, "secret/missing".toList, "other".toList] = pre ++ X :: post ∧
      (∀ p ∈ pre, ∃ s, exampleResolver.secret p = Go.ret (Result.ok s)) ∧
      (∃ e, exampleResolver.secret X = Go.ret (Result.err e)) ∧
      exampleResolver.Resolve fmtNone orderAsListed
          ["secret/a!k".toList, "secret/missing".toList, "other".toList] [] =
        Go.ret ⟨none, some ("could not construct secret for ".toList ++ X), []⟩ :=
  C7_factory_failure_aborts_batch fmtNone orderAsListed exampleResolver
    ["secret/a!k".toList, "secret/missing".toList, "other".toList] []
    (fun p _ => NewSecret_ne_abort p)
    ⟨"secret/missing".toList, by decide, errNoSeparator, by decide⟩

/-! ## Lemmas on `ReplaceAll` -/

theorem not_infix_tail (old : Str) (x : Char) (t : Str) (h : ¬ old <:+: x :: t) :
    ¬ old <:+: t :=
  fun c => h (List.infix_cons c)

theorem not_isPrefix_of_absent (old t : Str) (h : ¬ old <:+: t) : ¬ old <+: t :=
  fun c => h c.isInfix

/-- A text in which `old` does not occur is left as it is. -/
theorem replaceLoop_of_absent (old new t : Str) (h : ¬ old <:+: t) :
    replaceLoop old new 0 t = t := by
  induction t with
  | nil => rfl
  | cons x xs ih =>
    simp only [replaceLoop]
    rw [if_neg (not_isPrefix_of_absent old _ h), ih (not_infix_tail old x xs h)]

/-- The characters of an occurrence just replaced are passed over. -/
theorem replaceLoop_skip (old new a rest : Str) :
    replaceLoop old new a.length (a ++ rest) = replaceLoop old new 0 rest := by
  induction a with
  | nil => rfl
  | cons x xs ih =>
    simp only [List.length_cons, List.cons_append, replaceLoop]
    exact ih

theorem not_infix_dropLast (old : Str) (h : old ≠ []) : ¬ old <:+: old.dropLast := by
  intro c
  have h1 := c.length_le
  rw [List.length_dropLast] at h1
  have h2 : 0 < old.length := List.length_pos.2 h
  omega

/-- An occurrence of `old` at the start of `g ++ old ++ rest` lies within
`g ++ old.dropLast` when `g` is not empty. -/
theorem isPrefix_within (old g rest : Str) (hg : g ≠ []) (h : old <+: g ++ old ++ rest) :
    old <+: g ++ old.dropLast := by
  have hold : old ≠ [] → g ++ old.dropLast <+: g ++ old ++ rest := by
    intro hne
    refine ⟨[old.getLast hne] ++ rest, ?_⟩
    have e := List.dropLast_append_getLast hne
    calc g ++ old.dropLast ++ ([old.getLast hne] ++ rest)
        = g ++ (old.dropLast ++ [old.getLast hne]) ++ rest := by simp
      _ = g ++ old ++ rest := by rw [e]
  by_cases hne : old = []
  · subst hne
    exact List.nil_prefix
  · apply List.prefix_of_prefix_length_le h (hold hne)
    have h1 : 0 < g.length := List.length_pos.2 hg
    have h2 : 0 < old.length := List.length_pos.2 hne
    rw [List.length_append, List.length_dropLast]
    omega

/-- The leftmost occurrence of `old` is replaced and the loop goes on after it. -/
theorem replaceLoop_first (old new g rest : Str) (hne : old ≠ [])
    (h : ¬ old <:+: g ++ old.dropLast) :
    replaceLoop old new 0 (g ++ old ++ rest) = g ++ new ++ replaceLoop old new 0 rest := by
  induction g with
  | nil =>
    cases old with
    | nil => exact absurd rfl hne
    | cons c cs =>
      have hp : c :: cs <+: c :: (cs ++ rest) := ⟨rest, rfl⟩
      have e : [] ++ (c :: cs) ++ rest = c :: (cs ++ rest) := rfl
      rw [e]
      simp only [replaceLoop]
      rw [if_pos hp]
      have hl : (c :: cs).length - 1 = cs.length := rfl
      rw [hl, replaceLoop_skip]
      rfl
  | cons x xs ih =>
    have hnp : ¬ old <+: x :: xs ++ old ++ rest := fun c =>
      h (isPrefix_within old (x :: xs) rest (List.cons_ne_nil _ _) c).isInfix
    have hxs : ¬ old <:+: xs ++ old.dropLast := fun c => h (List.infix_cons c)
    have e : x :: xs ++ old ++ rest = x :: (xs ++ old ++ rest) := rfl
    rw [e] at hnp ⊢
    simp only [replaceLoop]
    rw [if_neg hnp, ih hxs]
    rfl

/-- A text in which `old` occurs splits at the leftmost occurrence. -/
theorem exists_leftmost (old t : Str) (hne : old ≠ []) (h : old <:+: t) :
    ∃ g rest, t = g ++ old ++ rest ∧ ¬ old <:+: g ++ old.dropLast := by
  induction t with
  | nil =>
    have := List.eq_nil_of_infix_nil h
    exact absurd this hne
  | cons x xs ih =>
    by_cases hp : old <+: x :: xs
    · obtain ⟨rest, hr⟩ := hp
      exact ⟨[], rest, by simp [hr], by simpa using not_infix_dropLast old hne⟩
    · have hx : old <:+: xs := by
        rcases List.infix_cons_iff.1 h with h1 | h1
        · exact absurd h1 hp
        · exact h1
      obtain ⟨g, rest, e, hl⟩ := ih hx
      refine ⟨x :: g, rest, by simp [e], ?_⟩
      intro c
      rcases List.infix_cons_iff.1 c with h1 | h1
      · apply hp
        have h2 : x :: (g ++ old.dropLast) <+: x :: xs := by
          rw [e]
          refine ⟨[old.getLast hne] ++ rest, ?_⟩
          have e1 := List.dropLast_append_getLast hne
          calc x :: (g ++ old.dropLast) ++ ([old.getLast hne] ++ rest)
              = x :: (g ++ (old.dropLast ++ [old.getLast hne]) ++ rest) := by simp
            _ = x :: (g ++ old ++ rest) := by rw [e1]
        exact h1.trans h2
      · exact hl h1

/-- The loop of `ReplaceAll` replaces every occurrence found left to right. -/
theorem Replaced_replaceLoop (old new : Str) (hne : old ≠ []) (n : Nat) :
    ∀ t : Str, t.length ≤ n → Replaced old new t (replaceLoop old new 0 t) := by
  induction n with
  | zero =>
    intro t ht
    have : t = [] := List.length_eq_zero.1 (Nat.le_zero.1 ht)
    subst this
    exact Replaced.done [] (fun c => hne (List.eq_nil_of_infix_nil c))
  | succ k ih =>
    intro t ht
    by_cases h : old <:+: t
    · obtain ⟨g, rest, e, hl⟩ := exists_leftmost old t hne h
      subst e
      rw [replaceLoop_first old new g rest hne hl]
      apply Replaced.step g rest _ hl
      apply ih
      have h2 : 0 < old.length := List.length_pos.2 hne
      simp only [List.length_append] at ht
      omega
    · rw [replaceLoop_of_absent old new t h]
      exact Replaced.done t h

/-- The relation `Replaced` determines the text: it is the one the loop computes. -/
theorem Replaced_unique (old new t out : Str) (hne : old ≠ []) (h : Replaced old new t out) :
    out = replaceLoop old new 0 t := by
  induction h with
  | done t hn => exact (replaceLoop_of_absent old new t hn).symm
  | step g rest out hl _ ih => rw [replaceLoop_first old new g rest hne hl, ih]

theorem Replaced_same (old t out : Str) (h : Replaced old old t out) : out = t := by
  induction h with
  | done t _ => rfl
  | step g rest out _ _ ih => rw [ih]

/-- For a non-empty `old`, `ReplaceAll` is its loop, also when `old` and `new` are equal. -/
theorem ReplaceAll_eq_loop (s old new : Str) (hne : old ≠ []) :
    ReplaceAll s old new = replaceLoop old new 0 s := by
  unfold ReplaceAll
  by_cases h : old = new
  · subst h
    rw [if_pos rfl]
    exact (Replaced_same old s _ (Replaced_replaceLoop old old hne s.length s (Nat.le_refl _))).symm
  · rw [if_neg h, if_neg hne]

/-- A text in which `old` does not occur is left as it is by `ReplaceAll`. -/
theorem ReplaceAll_of_absent (s old new : Str) (h : ¬ old <:+: s) :
    ReplaceAll s old new = s := by
  have hne : old ≠ [] := fun c => h (by rw [c]; exact List.nil_infix)
  rw [ReplaceAll_eq_loop s old new hne]
  exact replaceLoop_of_absent old new s h

/-! ## Rendering -/

/-- What `RenderSecrets` hands to `WriteFile` once the template is read. -/
theorem RenderSecrets_written (fs : FileSystem) (order : RangeOrder) (t : TemplateFile)
    (secrets : SecretMap) (out T : Str) (hT : fs.ReadFile t.path = Result.ok T) :
    (t.RenderSecrets fs order secrets out).written = some (renderLoop T (order.visit secrets)) := by
  unfold TemplateFile.RenderSecrets
  rw [hT]
  simp only
  cases fs.WriteFile out (renderLoop T (order.visit secrets)) <;> rfl

theorem visit_singleton (order : RangeOrder) (e : Str × VaultSecret) :
    order.visit [e] = [e] :=
  List.perm_singleton.1 (order.perm [e])

/-- C8: rendering the text `T` with the single entry `(p, s)` writes `T` unchanged when the
value of `s` is empty, and otherwise `T` with every occurrence of `p`, found left to right
without overlap, replaced by the value (for the empty `p`: the value put before every
character and at the end); for any mapping the text written is the result of one such step
per entry, in the order the entries are visited. -/
theorem C8_render_replaces_occurrences (fs : FileSystem) (order : RangeOrder)
    (t : TemplateFile) (out T : Str) (hT : fs.ReadFile t.path = Result.ok T) :
    (∀ (p : Str) (s : VaultSecret),
      (t.RenderSecrets fs order [(p, s)] out).written = some (renderStep T (p, s))) ∧
    (∀ (X p : Str) (s : VaultSecret),
      (s.Value = [] → renderStep X (p, s) = X) ∧
      (s.Value ≠ [] → p ≠ [] →
        Replaced p s.Value X (renderStep X (p, s)) ∧
        ∀ W, Replaced p s.Value X W → W = renderStep X (p, s)) ∧
      (s.Value ≠ [] → p = [] →
        renderStep X (p, s) = s.Value ++ (X.map fun c => c :: s.Value).flatten)) ∧
    (∀ (secrets : SecretMap),
      (t.RenderSecrets fs order secrets out).written =
        some ((order.visit secrets).foldl renderStep T)) := by
  refine ⟨?_, ?_, ?_⟩
  · intro p s
    rw [RenderSecrets_written fs order t _ out T hT, visit_singleton]
    rfl
  · intro X p s
    refine ⟨?_, ?_, ?_⟩
    · intro hv
      unfold renderStep
      rw [if_pos hv]
    · intro hv hp
      have e : renderStep X (p, s) = replaceLoop p s.Value 0 X := by
        unfold renderStep
        rw [if_neg hv]
        exact ReplaceAll_eq_loop X p s.Value hp
      rw [e]
      exact ⟨Replaced_replaceLoop p s.Value hp X.length X (Nat.le_refl _),
        fun W hW => Replaced_unique p s.Value X W hp hW⟩
    · intro hv hp
      subst hp
      unfold renderStep
      rw [if_neg hv]
      unfold ReplaceAll
      rw [if_neg (fun c => hv c.symm), if_pos rfl]
  · intro secrets
    exact RenderSecrets_written fs order t secrets out T hT

/-- C8, at the example template: both occurrences of the placeholder are replaced. -/
theorem C8_render_replaces_occurrences_witness :
    Replaced "\x7b\x7bx!y\x7d\x7d".toList "pw".toList
      "user=\x7b\x7bx!y\x7d\x7d;admin=\x7b\x7bx!y\x7d\x7d".toList "user=pw;admin=pw".toList :=
  (((C8_render_replaces_occurrences exampleFiles orderAsListed ⟨"in".toList⟩ "out".toList
      "user=\x7b\x7bx!y\x7d\x7d;admin=\x7b\x7bx!y\x7d\x7d".toList (by decide)).2.1
      "user=\x7b\x7bx!y\x7d\x7d;admin=\x7b\x7bx!y\x7d\x7d".toList "\x7b\x7bx!y\x7d\x7d".toList
      ⟨"x".toList, "y".toList, "pw".toList⟩).2.1 (by decide) (by decide)).1

theorem renderLoop_of_absent (T : Str) (entries : SecretMap)
    (h : ∀ e ∈ entries, ¬ e.1 <:+: T) : renderLoop T entries = T := by
  unfold renderLoop
  induction entries with
  | nil => rfl
  | cons e rest ih =>
    have he : renderStep T e = T := by
      unfold renderStep
      split
      · rfl
      · exact ReplaceAll_of_absent T e.1 _ (h e (List.mem_cons_self _ _))
    rw [List.foldl_cons, he]
    exact ih (fun e1 h1 => h e1 (List.mem_cons_of_mem _ h1))

/-- C10: when no key of the mapping occurs in the text of the template, `RenderSecrets`
writes exactly that text. -/
theorem C10_render_without_occurrence (fs : FileSystem) (order : RangeOrder)
    (t : TemplateFile) (secrets : SecretMap) (out T : Str)
    (hT : fs.ReadFile t.path = Result.ok T) (hno : ∀ e ∈ secrets, ¬ e.1 <:+: T) :
    (t.RenderSecrets fs order secrets out).written = some T := by
  rw [RenderSecrets_written fs order t secrets out T hT]
  rw [renderLoop_of_absent T (order.visit secrets)
    (fun e he => hno e ((order.perm secrets).mem_iff.1 he))]

/-- C10, at the example template and a mapping whose key is not in it. -/
theorem C10_render_without_occurrence_witness :
    (TemplateFile.RenderSecrets exampleFiles orderAsListed ⟨"in".toList⟩
        [("\x7b\x7bz!y\x7d\x7d".toList, ⟨"z".toList, "y".toList, "pw".toList⟩)]
        "out".toList).written =
      some "user=\x7b\x7bx!y\x7d\x7d;admin=\x7b\x7bx!y\x7d\x7d".toList :=
  C10_render_without_occurrence exampleFiles orderAsListed ⟨"in".toList⟩
    [("\x7b\x7bz!y\x7d\x7d".toList, ⟨"z".toList, "y".toList, "pw".toList⟩)] "out".toList
    "user=\x7b\x7bx!y\x7d\x7d;admin=\x7b\x7bx!y\x7d\x7d".toList (by decide) (by decide)

/-! ## Lemmas on the matcher -/

theorem starThen_some (q : Char → Bool) (k : Str → Option Nat) (s : Str) (n : Nat)
    (h : starThen q k s = some n) :
    ∃ a b m, s = a ++ b ∧ (∀ c ∈ a, q c = true) ∧ k b = some m ∧ n = a.length + m := by
  induction s generalizing n with
  | nil =>
    exact ⟨[], [], n, rfl, fun c hc => (List.not_mem_nil _ hc).elim, h, by simp⟩
  | cons x xs ih =>
    have stop : k (x :: xs) = some n →
        ∃ a b m, x :: xs = a ++ b ∧ (∀ c ∈ a, q c = true) ∧ k b = some m ∧ n = a.length + m :=
      fun hk => ⟨[], x :: xs, n, rfl, fun c hc => (List.not_mem_nil _ hc).elim, hk, by simp⟩
    simp only [starThen] at h
    by_cases hq : q x = true
    · rw [if_pos hq] at h
      cases hr : starThen q k xs with
      | none =>
        rw [hr] at h
        exact stop h
      | some n1 =>
        rw [hr] at h
        simp only [Option.some.injEq] at h
        obtain ⟨a, b, m, e, ha, hk, hn⟩ := ih n1 hr
        refine ⟨x :: a, b, m, by rw [e]; rfl, ?_, hk, ?_⟩
        · intro c hc
          rcases List.mem_cons.1 hc with h1 | h1
          · rw [h1]; exact hq
          · exact ha c h1
        · rw [← h, hn, List.length_cons]
          omega
    · rw [if_neg hq] at h
      exact stop h

theorem matchItems_one (q : Char → Bool) (items : List Item) (s : Str) (n : Nat)
    (h : matchItems (Item.one q :: items) s = some n) :
    ∃ c cs m, s = c :: cs ∧ q c = true ∧ matchItems items cs = some m ∧ n = m + 1 := by
  cases s with
  | nil => simp [matchItems] at h
  | cons c cs =>
    simp only [matchItems] at h
    by_cases hq : q c = true
    · rw [if_pos hq] at h
      cases hm : matchItems items cs with
      | none => rw [hm] at h; cases h
      | some m =>
        rw [hm] at h
        simp only [Option.map_some', Option.some.injEq] at h
        exact ⟨c, cs, m, rfl, hq, hm, h.symm⟩
    · rw [if_neg hq] at h
      cases h

theorem matchItems_many (q : Char → Bool) (items : List Item) (s : Str) :
    matchItems (Item.many q :: items) s = starThen q (matchItems items) s := by
  cases s <;> rfl

theorem not_brace_of_isReSpace (c : Char) (h : isReSpace c = true) : c ≠ '\x7d' := by
  intro e
  subst e
  revert h
  decide

theorem not_brace_of_isTokenChar (c : Char) (h : isTokenChar c = true) : c ≠ '\x7d' := by
  intro e
  subst e
  revert h
  decide

/-- A match of the pattern is two opening braces, whitespace, a token without space and
closing brace, whitespace, and two closing braces. -/
theorem matcher_match (s : Str) (n : Nat) (h : matchItems matcher s = some n) :
    ∃ w1 tok w2 rest,
      s = '\x7b' :: '\x7b' :: (w1 ++ tok ++ w2 ++ '\x7d' :: '\x7d' :: rest) ∧
      (∀ c ∈ w1, isReSpace c = true) ∧ (∀ c ∈ tok, isTokenChar c = true) ∧
      (∀ c ∈ w2, isReSpace c = true) ∧ n = (w1 ++ tok ++ w2).length + 4 := by
  unfold matcher at h
  obtain ⟨c1, s1, m1, e1, q1, h1, n1⟩ := matchItems_one _ _ _ _ h
  obtain ⟨c2, s2, m2, e2, q2, h2, n2⟩ := matchItems_one _ _ _ _ h1
  rw [matchItems_many] at h2
  obtain ⟨w1, r1, m3, e3, hw1, h3, n3⟩ := starThen_some _ _ _ _ h2
  rw [matchItems_many] at h3
  obtain ⟨tok, r2, m4, e4, htok, h4, n4⟩ := starThen_some _ _ _ _ h3
  rw [matchItems_many] at h4
  obtain ⟨w2, r3, m5, e5, hw2, h5, n5⟩ := starThen_some _ _ _ _ h4
  obtain ⟨c6, s6, m6, e6, q6, h6, n6⟩ := matchItems_one _ _ _ _ h5
  obtain ⟨c7, s7, m7, e7, q7, h7, n7⟩ := matchItems_one _ _ _ _ h6
  simp only [matchItems, Option.some.injEq] at h7
  simp only [beq_iff_eq] at q1 q2 q6 q7
  refine ⟨w1, tok, w2, s7, ?_, hw1, htok, hw2, ?_⟩
  · rw [e1, e2, e3, e4, e5, e6, e7, q1, q2, q6, q7]
    simp
  · simp only [List.length_append]
    omega

/-- A match of the pattern has the shape of a placeholder. -/
theorem matcher_match_shaped (s : Str) (n : Nat) (h : matchItems matcher s = some n) :
    Shaped (s.take n) ∧ 1 ≤ n := by
  obtain ⟨w1, tok, w2, rest, e, hw1, htok, hw2, hn⟩ := matcher_match s n h
  refine ⟨⟨w1 ++ tok ++ w2, ?_, ?_⟩, by omega⟩
  · have e1 : s = ('\x7b' :: '\x7b' :: (w1 ++ tok ++ w2 ++ ['\x7d', '\x7d'])) ++ rest := by
      rw [e]; simp
    have hl : ('\x7b' :: '\x7b' :: (w1 ++ tok ++ w2 ++ ['\x7d', '\x7d'])).length = n := by
      rw [hn]
      simp only [List.length_cons, List.length_append, List.length_nil]
    rw [e1, List.take_left' hl]
  · intro hm
    rcases List.mem_append.1 hm with h1 | h1
    · rcases List.mem_append.1 h1 with h2 | h2
      · exact not_brace_of_isReSpace _ (hw1 _ h2) rfl
      · exact not_brace_of_isTokenChar _ (htok _ h2) rfl
    · exact not_brace_of_isReSpace _ (hw2 _ h1) rfl

theorem brace_mem_of_Shaped (p : Str) (h : Shaped p) : '\x7d' ∈ p := by
  obtain ⟨X, e, _⟩ := h
  rw [e]
  simp

/-- Every text `FindAllString` returns for the pattern has the shape of a placeholder. -/
theorem findAllLoop_shaped (k : Nat) (s : Str) : ∀ m ∈ findAllLoop matcher k s, Shaped m := by
  induction s generalizing k with
  | nil => intro m hm; simp [findAllLoop] at hm
  | cons x xs ih =>
    cases k with
    | succ k1 =>
      intro m hm
      simp only [findAllLoop] at hm
      exact ih k1 m hm
    | zero =>
      intro m hm
      simp only [findAllLoop] at hm
      cases hmt : matchItems matcher (x :: xs) with
      | none =>
        rw [hmt] at hm
        exact ih 0 m hm
      | some n =>
        rw [hmt] at hm
        rcases List.mem_cons.1 hm with h1 | h1
        · rw [h1]
          exact (matcher_match_shaped _ _ hmt).1
        · exact ih (n - 1) m h1

/-- Nothing is extracted from a text without closing brace. -/
theorem findAllLoop_of_no_brace (k : Nat) (s : Str) (h : '\x7d' ∉ s) :
    findAllLoop matcher k s = [] := by
  induction s generalizing k with
  | nil => cases k <;> rfl
  | cons x xs ih =>
    have hxs : '\x7d' ∉ xs := fun c => h (List.mem_cons_of_mem _ c)
    cases k with
    | succ k1 =>
      simp only [findAllLoop]
      exact ih k1 hxs
    | zero =>
      simp only [findAllLoop]
      cases hmt : matchItems matcher (x :: xs) with
      | none => exact ih 0 hxs
      | some n =>
        exfalso
        have h1 := brace_mem_of_Shaped _ (matcher_match_shaped _ _ hmt).1
        exact h (List.mem_of_mem_take h1)

/-! ## Texts whose closing braces all lie in placeholders -/

theorem first_brace_unique (b1 b2 r1 r2 : Str) (h1 : '\x7d' ∉ b1) (h2 : '\x7d' ∉ b2)
    (e : b1 ++ '\x7d' :: r1 = b2 ++ '\x7d' :: r2) : b1 = b2 ∧ r1 = r2 := by
  induction b1 generalizing b2 with
  | nil =>
    cases b2 with
    | nil =>
      simp only [List.nil_append, List.cons.injEq, true_and] at e
      exact ⟨rfl, e⟩
    | cons y ys =>
      simp only [List.nil_append, List.cons_append, List.cons.injEq] at e
      exact absurd (e.1 ▸ List.mem_cons_self _ _) h2
  | cons x xs ih =>
    cases b2 with
    | nil =>
      simp only [List.nil_append, List.cons_append, List.cons.injEq] at e
      exact absurd (e.1 ▸ List.mem_cons_self _ _) h1
    | cons y ys =>
      simp only [List.cons_append, List.cons.injEq] at e
      obtain ⟨h, h3⟩ := ih ys (fun c => h1 (List.mem_cons_of_mem _ c))
        (fun c => h2 (List.mem_cons_of_mem _ c)) e.2
      exact ⟨by rw [e.1, h], h3⟩

/-- An occurrence of a placeholder ends at the first pair of closing braces after its
start. -/
theorem shaped_isPrefix_eq (p ab rest : Str) (hp : Shaped p) (hab : '\x7d' ∉ ab)
    (h : p <+: ab ++ '\x7d' :: '\x7d' :: rest) : p = ab ++ ['\x7d', '\x7d'] := by
  obtain ⟨X, e, hX⟩ := hp
  obtain ⟨z, hz⟩ := h
  subst e
  have hb : '\x7d' ∉ '\x7b' :: '\x7b' :: X := by
    intro c
    rcases List.mem_cons.1 c with c1 | c1
    · exact absurd c1 (by decide)
    · rcases List.mem_cons.1 c1 with c2 | c2
      · exact absurd c2 (by decide)
      · exact hX c2
  have e1 : ('\x7b' :: '\x7b' :: X) ++ '\x7d' :: ('\x7d' :: z) =
      ab ++ '\x7d' :: ('\x7d' :: rest) := by
    rw [← hz]; simp
  obtain ⟨h1, _⟩ := first_brace_unique _ _ _ _ hb hab e1
  rw [← h1]
  simp

theorem Shaped_ne_nil (p : Str) (h : Shaped p) : p ≠ [] := by
  obtain ⟨X, e, _⟩ := h
  rw [e]
  exact List.cons_ne_nil _ _

theorem Shaped_head (p : Str) (h : Shaped p) : ∃ t, p = '\x7b' :: t := by
  obtain ⟨X, e, _⟩ := h
  exact ⟨_, e⟩

/-- The loop of `ReplaceAll` works on the two parts of a text one after the other when
every occurrence of `p` that starts in the first part ends in it. -/
theorem replaceLoop_append (p v b : Str) (hp : p ≠ []) (n : Nat) :
    ∀ a : Str, a.length ≤ n →
      (∀ a1 a2, a = a1 ++ a2 → a2 ≠ [] → p <+: a2 ++ b → p <+: a2) →
      replaceLoop p v 0 (a ++ b) = replaceLoop p v 0 a ++ replaceLoop p v 0 b := by
  induction n with
  | zero =>
    intro a ha _
    have : a = [] := List.length_eq_zero.1 (Nat.le_zero.1 ha)
    subst this
    rfl
  | succ k ih =>
    intro a ha hcond
    cases a with
    | nil => rfl
    | cons x xs =>
      have hlen : xs.length ≤ k := by
        simp only [List.length_cons] at ha
        omega
      by_cases hpre : p <+: x :: xs ++ b
      · obtain ⟨r, hr⟩ := hcond [] (x :: xs) rfl (List.cons_ne_nil _ _) hpre
        cases p with
        | nil => exact absurd rfl hp
        | cons c cs =>
          simp only [List.cons_append, List.cons.injEq] at hr
          obtain ⟨hc, hxs⟩ := hr
          subst hc
          subst hxs
          have e1 : c :: (cs ++ r) ++ b = c :: (cs ++ (r ++ b)) := by simp
          have hp1 : c :: cs <+: c :: (cs ++ (r ++ b)) := ⟨r ++ b, rfl⟩
          have hp2 : c :: cs <+: c :: (cs ++ r) := ⟨r, rfl⟩
          have hl : (c :: cs).length - 1 = cs.length := rfl
          rw [e1]
          simp only [replaceLoop]
          rw [if_pos hp1, if_pos hp2, hl, replaceLoop_skip, replaceLoop_skip]
          have hr2 : r.length ≤ k := by
            simp only [List.length_append] at hlen
            omega
          rw [ih r hr2 ?_, List.append_assoc]
          intro a1 a2 e2 hne hpf
          exact hcond (c :: cs ++ a1) a2 (by rw [e2]; simp) hne hpf
      · have hnp : ¬ p <+: x :: xs := fun c => hpre (c.trans (List.prefix_append _ _))
        have e1 : x :: xs ++ b = x :: (xs ++ b) := rfl
        rw [e1] at hpre ⊢
        simp only [replaceLoop]
        rw [if_neg hpre, if_neg hnp, ih xs hlen ?_]
        · rfl
        · intro a1 a2 e2 hne hpf
          exact hcond (x :: a1) a2 (by rw [e2]; rfl) hne hpf

theorem Covered_prepend (U : Str → Prop) (a t : Str) (ha : '\x7d' ∉ a) (h : Covered U t) :
    Covered U (a ++ t) := by
  cases h with
  | tail h hh =>
    exact Covered.tail _ (fun c => (List.mem_append.1 c).elim ha hh)
  | seg h k rest hh hk hr =>
    have e : a ++ (h ++ k ++ rest) = (a ++ h) ++ k ++ rest := by simp
    rw [e]
    exact Covered.seg _ k rest (fun c => (List.mem_append.1 c).elim ha hh) hk hr

theorem Covered_mono (U V : Str → Prop) (hUV : ∀ k, U k → V k) (t : Str) (h : Covered U t) :
    Covered V t := by
  induction h with
  | tail h hh => exact Covered.tail h hh
  | seg h k rest hh hk _ ih => exact Covered.seg h k rest hh (hUV k hk) ih

theorem Covered_none (t : Str) (h : Covered (fun _ => False) t) : '\x7d' ∉ t := by
  cases h with
  | tail h hh => exact hh
  | seg h k rest hh hk hr => exact hk.elim

/-- Replacing a placeholder by a value without closing brace keeps every closing brace
inside an occurrence of one of the other placeholders. -/
theorem Covered_replace (U : Str → Prop) (p v t : Str) (hU : ∀ k, U k → Shaped k)
    (hp : Shaped p) (hv : '\x7d' ∉ v) (h : Covered U t) :
    Covered (fun k => U k ∧ k ≠ p) (replaceLoop p v 0 t) := by
  have hne : p ≠ [] := Shaped_ne_nil p hp
  induction h with
  | tail h hh =>
    have hn : ¬ p <:+: h := fun c => hh (c.subset (brace_mem_of_Shaped p hp))
    rw [replaceLoop_of_absent p v h hn]
    exact Covered.tail h hh
  | seg h k rest hh hk _ ih =>
    obtain ⟨X, ek, hX⟩ := hU k hk
    have hab : '\x7d' ∉ h ++ '\x7b' :: '\x7b' :: X := by
      intro c
      rcases List.mem_append.1 c with c0 | c0
      · exact hh c0
      · rcases List.mem_cons.1 c0 with c1 | c1
        · exact absurd c1 (by decide)
        · rcases List.mem_cons.1 c1 with c2 | c2
          · exact absurd c2 (by decide)
          · exact hX c2
    have ehk : h ++ k = (h ++ '\x7b' :: '\x7b' :: X) ++ ['\x7d', '\x7d'] := by
      rw [ek]; simp
    have hcond : ∀ a1 a2, h ++ k = a1 ++ a2 → a2 ≠ [] → p <+: a2 ++ rest → p <+: a2 := by
      intro a1 a2 e hne2 hpf
      rw [ehk] at e
      rcases List.append_eq_append_iff.1 e with ⟨c, e1, e2⟩ | ⟨c, e1, e2⟩
      · -- the cut lies in the last two characters
        obtain ⟨t1, ht1⟩ := Shaped_head p hp
        cases c with
        | nil =>
          simp only [List.nil_append] at e2
          rw [← e2, ht1] at hpf
          obtain ⟨z, hz⟩ := hpf
          simp only [List.cons_append, List.cons.injEq] at hz
          exact absurd hz.1 (by decide)
        | cons y ys =>
          cases ys with
          | nil =>
            simp only [List.singleton_append, List.cons.injEq] at e2
            obtain ⟨_, h2⟩ := e2
            rw [← h2, ht1] at hpf
            obtain ⟨z, hz⟩ := hpf
            simp only [List.singleton_append, List.cons_append, List.cons.injEq] at hz
            exact absurd hz.1 (by decide)
          | cons y2 ys2 =>
            simp only [List.cons_append, List.cons.injEq] at e2
            obtain ⟨_, _, h3⟩ := e2
            have : a2 = [] := by
              have := congrArg List.length h3
              simp only [List.length_nil, List.length_append] at this
              exact List.length_eq_zero.1 (by omega)
            exact absurd this hne2
      · -- the cut lies before them
        have hc : '\x7d' ∉ c := by
          intro hm
          apply hab
          rw [e1]
          exact List.mem_append_right _ hm
        have e3 : a2 ++ rest = c ++ '\x7d' :: '\x7d' :: rest := by
          rw [e2]; simp
        rw [e3] at hpf
        have := shaped_isPrefix_eq p c rest hp hc hpf
        rw [e2, this]
    have e0 : h ++ k ++ rest = (h ++ k) ++ rest := rfl
    rw [e0, replaceLoop_append p v rest hne (h ++ k).length (h ++ k) (Nat.le_refl _) hcond]
    by_cases hin : p <:+: h ++ k
    · obtain ⟨g, r, e, hl⟩ := exists_leftmost p (h ++ k) hne hin
      obtain ⟨Y, ep, hY⟩ := hp
      have hgb : '\x7d' ∉ '\x7b' :: '\x7b' :: Y := by
        intro c
        rcases List.mem_cons.1 c with c1 | c1
        · exact absurd c1 (by decide)
        · rcases List.mem_cons.1 c1 with c2 | c2
          · exact absurd c2 (by decide)
          · exact hY c2
      have hg : '\x7d' ∉ g := by
        intro hm
        have e4 : g ++ p ++ r = (g ++ '\x7b' :: '\x7b' :: Y) ++ '\x7d' :: ('\x7d' :: r) := by
          rw [ep]; simp
        rw [e, e4] at ehk
        -- the first closing brace of the left side lies in `g`, that of the right side not
        obtain ⟨g3, g4, hg34, hg3⟩ := exists_first '\x7d' g hm
        have e5 : g3 ++ '\x7d' :: (g4 ++ '\x7b' :: '\x7b' :: Y ++ '\x7d' :: ('\x7d' :: r)) =
            (h ++ '\x7b' :: '\x7b' :: X) ++ '\x7d' :: ['\x7d'] := by
          rw [← ehk, hg34]; simp
        obtain ⟨_, h6⟩ := first_brace_unique _ _ _ _ hg3 hab e5
        have := congrArg List.length h6
        simp only [List.length_append, List.length_cons, List.length_nil] at this
        omega
      have hr : r = [] := by
        have e4 : (g ++ '\x7b' :: '\x7b' :: Y) ++ '\x7d' :: ('\x7d' :: r) =
            (h ++ '\x7b' :: '\x7b' :: X) ++ '\x7d' :: ['\x7d'] := by
          rw [← ehk, e, ep]; simp
        have hgy : '\x7d' ∉ g ++ '\x7b' :: '\x7b' :: Y :=
          fun c => (List.mem_append.1 c).elim hg hgb
        obtain ⟨_, h6⟩ := first_brace_unique _ _ _ _ hgy hab e4
        simp only [List.cons.injEq, true_and] at h6
        exact h6
      subst hr
      rw [e, replaceLoop_first p v g [] hne hl]
      have e7 : g ++ v ++ replaceLoop p v 0 [] ++ replaceLoop p v 0 rest =
          (g ++ v) ++ replaceLoop p v 0 rest := by
        simp [replaceLoop]
      rw [e7]
      exact Covered_prepend _ _ _ (fun c => (List.mem_append.1 c).elim hg hv) ih
    · rw [replaceLoop_of_absent p v (h ++ k) hin]
      have hkp : k ≠ p := by
        intro c
        apply hin
        rw [← c]
        exact ⟨h, [], by simp⟩
      exact Covered.seg h k _ hh ⟨hk, hkp⟩ ih

/-- A text whose closing braces all lie in extracted placeholders is covered by them. -/
theorem findAllLoop_covered (U : Str → Prop) (k : Nat) (s : Str)
    (hU : ∀ m ∈ findAllLoop matcher k s, U m) (hout : '\x7d' ∉ outsideLoop matcher k s) :
    Covered U (s.drop k) := by
  induction s generalizing k with
  | nil =>
    rw [List.drop_nil]
    exact Covered.tail [] (List.not_mem_nil _)
  | cons x xs ih =>
    cases k with
    | succ k1 =>
      simp only [findAllLoop] at hU
      simp only [outsideLoop] at hout
      exact ih k1 hU hout
    | zero =>
      simp only [findAllLoop] at hU
      simp only [outsideLoop] at hout
      cases hmt : matchItems matcher (x :: xs) with
      | none =>
        rw [hmt] at hU hout
        simp only at hU hout
        have h1 := ih 0 hU (fun c => hout (List.mem_cons_of_mem _ c))
        rw [List.drop_zero] at h1 ⊢
        have hx : '\x7d' ∉ [x] := by
          intro c
          rw [List.mem_singleton] at c
          exact hout (c ▸ List.mem_cons_self _ _)
        exact Covered_prepend U [x] xs hx h1
      | some n =>
        rw [hmt] at hU hout
        simp only at hU hout
        have hn : 1 ≤ n := (matcher_match_shaped _ _ hmt).2
        have h1 := ih (n - 1) (fun m hm => hU m (List.mem_cons_of_mem _ hm)) hout
        have e1 : (x :: xs).drop n = xs.drop (n - 1) := by
          obtain ⟨j, hj⟩ : ∃ j, n = j + 1 := ⟨n - 1, by omega⟩
          rw [hj]
          rfl
        have e2 : (x :: xs).drop 0 = [] ++ (x :: xs).take n ++ (x :: xs).drop n := by
          rw [List.drop_zero, List.nil_append, List.take_append_drop]
        rw [e2]
        apply Covered.seg [] _ _ (List.not_mem_nil _) (hU _ (List.mem_cons_self _ _))
        rw [e1]
        exact h1

/-- Rendering with values that are not empty and have no closing brace keeps every closing
brace inside an occurrence of a placeholder not yet replaced. -/
theorem Covered_renderLoop (entries : SecretMap)
    (hent : ∀ e ∈ entries, Shaped e.1 ∧ e.2.Value ≠ [] ∧ '\x7d' ∉ e.2.Value) :
    ∀ (U : Str → Prop) (X : Str), (∀ k, U k → Shaped k) → Covered U X →
      Covered (fun k => U k ∧ k ∉ entries.map Prod.fst) (renderLoop X entries) := by
  induction entries with
  | nil =>
    intro U X _ h
    exact Covered_mono U _ (fun k hk => ⟨hk, List.not_mem_nil _⟩) X h
  | cons e rest ih =>
    intro U X hU h
    obtain ⟨hs, hv, hb⟩ := hent e (List.mem_cons_self _ _)
    have hstep : renderStep X e = replaceLoop e.1 e.2.Value 0 X := by
      unfold renderStep
      rw [if_neg hv]
      exact ReplaceAll_eq_loop X e.1 e.2.Value (Shaped_ne_nil e.1 hs)
    have h1 := Covered_replace U e.1 e.2.Value X hU hs hb h
    have h2 := ih (fun e1 he1 => hent e1 (List.mem_cons_of_mem _ he1))
      (fun k => U k ∧ k ≠ e.1) (replaceLoop e.1 e.2.Value 0 X) (fun k hk => hU k hk.1) h1
    have e3 : renderLoop X (e :: rest) = renderLoop (renderStep X e) rest := rfl
    rw [e3, hstep]
    refine Covered_mono _ _ ?_ _ h2
    rintro k ⟨⟨hk1, hk2⟩, hk3⟩
    refine ⟨hk1, ?_⟩
    intro c
    rcases List.mem_cons.1 c with c1 | c1
    · exact hk2 c1
    · exact hk3 c1

/-- The claim C9 as stated fails: the value fetched for `{{a!b}}` is `<{{a!b}}>`, the
placeholder is replaced, and the text written, `pw=<{{a!b}}>`, holds the placeholder
again although its value is not empty. -/
theorem C9_counterexample :
    TemplateFile.FindPlaceholders echoFiles ⟨"in".toList⟩ =
      Result.ok ["\x7b\x7ba!b\x7d\x7d".toList] ∧
    echoSecrets.map Prod.fst = ["\x7b\x7ba!b\x7d\x7d".toList] ∧
    (∀ e ∈ echoSecrets, e.2.Value ≠ []) ∧
    (TemplateFile.RenderSecrets echoFiles orderAsListed ⟨"in".toList⟩ echoSecrets
      "out".toList).written = some "pw=<\x7b\x7ba!b\x7d\x7d>".toList ∧
    FindAllString matcher "pw=<\x7b\x7ba!b\x7d\x7d>".toList = ["\x7b\x7ba!b\x7d\x7d".toList] := by
  decide

/-- C9, amended: when every closing brace of the template lies in an extracted
placeholder, the keys of the mapping are the placeholders extracted, and every value is
non-empty and has no closing brace, the text written has no closing brace: nothing is
extracted from it, and no extracted placeholder occurs in it. -/
theorem C9_no_placeholder_left (fs : FileSystem) (order : RangeOrder) (t : TemplateFile)
    (secrets : SecretMap) (out T : Str) (P : List Str)
    (hT : fs.ReadFile t.path = Result.ok T)
    (hP : t.FindPlaceholders fs = Result.ok P)
    (hstray : '\x7d' ∉ outside matcher T)
    (hkeys : ∀ e ∈ secrets, e.1 ∈ P)
    (hall : ∀ p ∈ P, p ∈ secrets.map Prod.fst)
    (hval : ∀ e ∈ secrets, e.2.Value ≠ [] ∧ '\x7d' ∉ e.2.Value) :
    ∃ W, (t.RenderSecrets fs order secrets out).written = some W ∧
      '\x7d' ∉ W ∧ FindAllString matcher W = [] ∧ ∀ p ∈ P, ¬ p <:+: W := by
  have eP : P = FindAllString matcher T := by
    unfold TemplateFile.FindPlaceholders at hP
    rw [hT] at hP
    simp only [Result.ok.injEq] at hP
    exact hP.symm
  have hshape : ∀ p ∈ P, Shaped p := by
    intro p hp
    rw [eP] at hp
    exact findAllLoop_shaped 0 T p hp
  have hcov : Covered (fun k => k ∈ P) T := by
    have := findAllLoop_covered (fun k => k ∈ P) 0 T (fun m hm => by rw [eP]; exact hm) hstray
    rwa [List.drop_zero] at this
  have hent : ∀ e ∈ order.visit secrets, Shaped e.1 ∧ e.2.Value ≠ [] ∧ '\x7d' ∉ e.2.Value := by
    intro e he
    have hm : e ∈ secrets := (order.perm secrets).mem_iff.1 he
    exact ⟨hshape e.1 (hkeys e hm), hval e hm⟩
  have h1 := Covered_renderLoop (order.visit secrets) hent (fun k => k ∈ P) T hshape hcov
  have h2 : Covered (fun _ => False) (renderLoop T (order.visit secrets)) := by
    refine Covered_mono _ _ ?_ _ h1
    rintro k ⟨hk1, hk2⟩
    apply hk2
    exact ((order.perm secrets).map Prod.fst).mem_iff.2 (hall k hk1)
  have h3 := Covered_none _ h2
  refine ⟨_, RenderSecrets_written fs order t secrets out T hT, h3, ?_, ?_⟩
  · exact findAllLoop_of_no_brace 0 _ h3
  · intro p hp c
    exact h3 (c.subset (brace_mem_of_Shaped p (hshape p hp)))

/-- C9 as amended, at the example template and the value `pw`. -/
theorem C9_no_placeholder_left_witness :
    ∃ W, (TemplateFile.RenderSecrets exampleFiles orderAsListed ⟨"in".toList⟩ exampleSecrets
        "out".toList).written = some W ∧
      '\x7d' ∉ W ∧ FindAllString matcher W = [] ∧
      ∀ p ∈ ["\x7b\x7bx!y\x7d\x7d".toList, "\x7b\x7bx!y\x7d\x7d".toList], ¬ p <:+: W :=
  C9_no_placeholder_left exampleFiles orderAsListed ⟨"in".toList⟩ exampleSecrets "out".toList
    "user=\x7b\x7bx!y\x7d\x7d;admin=\x7b\x7bx!y\x7d\x7d".toList
    ["\x7b\x7bx!y\x7d\x7d".toList, "\x7b\x7bx!y\x7d\x7d".toList]
    (by decide) (by decide) (by decide) (by decide) (by decide) (by decide)

/-! ## The tests of the repository, on the model -/

/-- The cases of `TestTrimBrackets`. -/
theorem test_trimBrackets :
    trimBrackets "\x7b\x7b foo \x7d\x7d".toList = "foo".toList ∧
    trimBrackets " \x7b\x7b foo \x7d\x7d ".toList = "foo".toList ∧
    trimBrackets "\x7b\x7bfoo\x7d\x7d".toList = "foo".toList ∧
    trimBrackets "\x7b\x7b foo bar \x7d\x7d".toList = "foo bar".toList := by
  decide

/-- The placeholders of `TestFindPlaceholdersInJsonFile`: the one closed by two braces is
found, the one closed by a single brace is not. -/
theorem test_FindAllString :
    FindAllString matcher
      "a: \x7b\x7b secret/example!password_key \x7d\x7d, b: \x7b\x7b secret/invalid!invalid \x7d".toList =
      ["\x7b\x7b secret/example!password_key \x7d\x7d".toList] := by
  decide

/-- The example resolver on the example placeholders: the first is fetched, the second
keeps its fallback, and the error names the failed fetch. -/
theorem test_Resolve :
    exampleResolver.Resolve fmtNone orderAsListed examplePlaceholders [] =
      Go.ret ⟨some [("secret/a!k:f1".toList, ⟨"secret/a".toList, "k".toList, "v1".toList⟩),
          ("secret/b!k:f2".toList, ⟨"secret/b".toList, "k".toList, "f2".toList⟩)],
        some "[\"failed to fetch secret 'secret/b' from Vault: not found\"]".toList,
        ["secret/a".toList, "secret/b".toList]⟩ := by
  decide

/-! ## Lemmas on `Split` and `Join` -/

theorem intercalate_cons_cons (sep x y : Str) (t : List Str) :
    sep.intercalate (x :: y :: t) = x ++ sep ++ sep.intercalate (y :: t) := by
  simp [List.intercalate, List.intersperse]

theorem intercalate_single (sep x : Str) : sep.intercalate [x] = x := by
  simp [List.intercalate, List.intersperse]

/-- Joining is the first element followed by every other element after a separator. -/
theorem intercalate_cons (sep x : Str) (xs : List Str) :
    sep.intercalate (x :: xs) = x ++ (xs.map fun y => sep ++ y).flatten := by
  induction xs generalizing x with
  | nil => rw [intercalate_single]; simp
  | cons y t ih =>
    rw [intercalate_cons_cons, ih y]
    simp

theorem splitLoop_single_cons (c x : Char) (cur xs : Str) :
    splitLoop [c] 0 cur (x :: xs) =
      if c = x then cur.reverse :: splitLoop [c] 0 [] xs else splitLoop [c] 0 (x :: cur) xs := by
  simp only [splitLoop, List.cons_prefix_cons, List.nil_prefix, and_true, List.length_singleton,
    Nat.sub_self]

/-- Joining the pieces of a split with the separator gives the text back. -/
theorem intercalate_splitLoop (c : Char) (cur s : Str) :
    [c].intercalate (splitLoop [c] 0 cur s) = cur.reverse ++ s := by
  induction s generalizing cur with
  | nil => simp [splitLoop, intercalate_single]
  | cons x xs ih =>
    rw [splitLoop_single_cons]
    by_cases h : c = x
    · rw [if_pos h]
      cases hs : splitLoop [c] 0 [] xs with
      | nil => exact absurd hs (splitLoop_ne_nil _ _ _ _)
      | cons y t =>
        rw [intercalate_cons_cons, ← hs, ih []]
        simp [h]
    · rw [if_neg h, ih]
      simp

theorem Join_Split_single (c : Char) (s : Str) : Join (Split s [c]) [c] = s := by
  have h := intercalate_splitLoop c [] s
  simpa [Join, Split] using h

/-- No piece of a split holds the separator. -/
theorem splitLoop_pieces_free (c : Char) (cur s : Str) (hcur : c ∉ cur) :
    ∀ piece ∈ splitLoop [c] 0 cur s, c ∉ piece := by
  induction s generalizing cur with
  | nil =>
    intro piece hp
    simp only [splitLoop, List.mem_singleton] at hp
    rw [hp]
    simpa using hcur
  | cons x xs ih =>
    intro piece hp
    rw [splitLoop_single_cons] at hp
    by_cases h : c = x
    · rw [if_pos h] at hp
      rcases List.mem_cons.1 hp with h1 | h1
      · rw [h1]; simpa using hcur
      · exact ih [] (List.not_mem_nil _) piece h1
    · rw [if_neg h] at hp
      refine ih (x :: cur) ?_ piece hp
      intro hm
      rcases List.mem_cons.1 hm with h1 | h1
      · exact h h1
      · exact hcur h1

theorem Split_pieces_free (c : Char) (s : Str) : ∀ piece ∈ Split s [c], c ∉ piece := by
  have h := splitLoop_pieces_free c [] s (List.not_mem_nil _)
  simpa [Split] using h

/-- Splitting a joined list of texts without separator gives the list back. -/
theorem Split_Join_single (c : Char) (x : Str) (xs : List Str)
    (h : ∀ y ∈ x :: xs, c ∉ y) : Split (Join (x :: xs) [c]) [c] = x :: xs := by
  induction xs generalizing x with
  | nil =>
    unfold Join
    rw [intercalate_single]
    exact Split_single_absent c x (h x (List.mem_cons_self _ _))
  | cons y t ih =>
    unfold Join at ih ⊢
    rw [intercalate_cons_cons]
    have e : x ++ [c] ++ [c].intercalate (y :: t) = x ++ c :: [c].intercalate (y :: t) := by
      simp
    rw [e, Split_single_first c x _ (h x (List.mem_cons_self _ _)),
      ih y (fun z hz => h z (List.mem_cons_of_mem _ hz))]

/-! ## `updatePath` and `sanitisePath` -/

/-- The result of `updatePath` from the components of the sanitised path. -/
theorem updatePath_eq (path c0 : Str) (rest : List Str)
    (h : Split (sanitisePath path) ['/'] = c0 :: rest) :
    updatePath path = Go.ret (Join (c0 :: "data".toList :: rest) ['/']) := by
  unfold updatePath
  simp only [h, index_cons_zero, Go_bind_ret, sliceFrom]
  have hl : 1 ≤ (c0 :: rest).length := Nat.succ_pos _
  rw [if_pos hl, Go_bind_ret]
  rfl

/-- C12: when the sanitised path splits on `/` into `c0` and the components `rest`,
`updatePath` returns `c0`, `/data`, and every component of `rest` after a `/`; the result
splits into `c0`, `data` and `rest`, and without its second component it is the sanitised
path again. Every path splits so, and `secret/foo` becomes `secret/data/foo`. -/
theorem C12_updatePath_inserts_data :
    (∀ path : Str, ∃ c0 rest result,
      Split (sanitisePath path) ['/'] = c0 :: rest ∧
      updatePath path = Go.ret result ∧
      result = c0 ++ "/data".toList ++ (rest.map fun ci => '/' :: ci).flatten ∧
      Split result ['/'] = c0 :: "data".toList :: rest ∧
      Join ((Split result ['/']).eraseIdx 1) ['/'] = sanitisePath path) ∧
    updatePath "secret/foo".toList = Go.ret "secret/data/foo".toList := by
  refine ⟨?_, by decide⟩
  intro path
  cases hs : Split (sanitisePath path) ['/'] with
  | nil => exact absurd hs (Split_single_ne_nil '/' _)
  | cons c0 rest =>
    have hfree : ∀ y ∈ c0 :: rest, '/' ∉ y := by
      intro y hy
      rw [← hs] at hy
      exact Split_pieces_free '/' _ y hy
    have hfree2 : ∀ y ∈ c0 :: "data".toList :: rest, '/' ∉ y := by
      intro y hy
      rcases List.mem_cons.1 hy with h1 | h1
      · exact hfree y (h1 ▸ List.mem_cons_self _ _)
      · rcases List.mem_cons.1 h1 with h2 | h2
        · rw [h2]; decide
        · exact hfree y (List.mem_cons_of_mem _ h2)
    have hsplit := Split_Join_single '/' c0 ("data".toList :: rest) hfree2
    refine ⟨c0, rest, Join (c0 :: "data".toList :: rest) ['/'], rfl,
      updatePath_eq path c0 rest hs, ?_, hsplit, ?_⟩
    · unfold Join
      rw [intercalate_cons]
      simp
    · rw [hsplit]
      have e : (c0 :: "data".toList :: rest).eraseIdx 1 = c0 :: rest := rfl
      rw [e, ← hs]
      exact Join_Split_single '/' _

theorem head_dropWhile_not (q : Char → Bool) (s : Str) (c : Char)
    (h : (s.dropWhile q).head? = some c) : q c = false := by
  have := List.head?_dropWhile_not q s
  rw [h] at this
  exact this

theorem last_rdropWhile_not (q : Char → Bool) (s : Str) (c : Char)
    (h : (s.rdropWhile q).getLast? = some c) : q c = false := by
  unfold List.rdropWhile at h
  rw [List.getLast?_reverse] at h
  exact head_dropWhile_not q s.reverse c h

theorem head_rdropWhile (q : Char → Bool) (s : Str) (c : Char)
    (h : (s.rdropWhile q).head? = some c) : s.head? = some c := by
  obtain ⟨t, ht⟩ := List.rdropWhile_prefix q (l := s)
  cases hr : s.rdropWhile q with
  | nil => rw [hr] at h; cases h
  | cons x xs =>
    rw [hr] at h ht
    rw [← ht]
    exact h

/-- The sanitised path neither begins nor ends with a slash. -/
theorem sanitisePath_no_slash (path : Str) :
    (sanitisePath path).head? ≠ some '/' ∧ (sanitisePath path).getLast? ≠ some '/' := by
  unfold sanitisePath Trim TrimRight TrimLeft
  constructor
  · intro h
    have h1 := head_rdropWhile _ _ _ h
    have h2 := head_dropWhile_not _ _ _ h1
    simp at h2
  · intro h
    have h2 := last_rdropWhile_not _ _ _ h
    simp at h2

/-! ## `getMountVersion`, `pathToSecret` and `Read` of the base client -/

/-- The result of `pathToSecret` from the result of `getMountVersion`, when the version is
not 2. -/
theorem pathToSecret_of_version {σ : Type} (client : ApiClient σ) (st st1 : σ) (path : Str)
    (r : Result Nat) (h : getMountVersion client st path = Go.ret (r, st1)) :
    (r = Result.ok 1 → pathToSecret client st path = Go.ret (Result.ok path, st1)) ∧
    (∀ e, r = Result.err e → pathToSecret client st path = Go.ret (Result.err e, st1)) := by
  unfold pathToSecret
  rw [h, Go_bind_ret]
  constructor
  · intro hr
    subst hr
    rfl
  · intro e hr
    subst hr
    rfl

theorem Read_of_pathToSecret {σ : Type} (c : BaseClient σ) (st st1 : σ) (path : Str)
    (r : Result Str) (h : pathToSecret c.client st path = Go.ret (r, st1)) :
    (∀ p, r = Result.ok p → c.Read st path = Go.ret (c.client.LogicalRead st1 p)) ∧
    (∀ e, r = Result.err e → c.Read st path = Go.ret ((none, some e), st1)) := by
  unfold BaseClient.Read
  rw [h, Go_bind_ret]
  constructor
  · intro p hr
    subst hr
    rfl
  · intro e hr
    subst hr
    rfl

/-- The result of `getMountVersion` on a parsed response, from its options. -/
theorem getMountVersion_parsed {σ : Type} (client : ApiClient σ) (st st1 : σ) (path : Str)
    (r : Response) (secret : ApiSecret)
    (hreq : client.RawRequest st "GET".toList ("/v1/sys/internal/ui/mounts/".toList ++ path) =
      ((some r, none), st1))
    (hbody : r.Body = Result.ok (some secret)) :
    getMountVersion client st path =
      match mountOptions secret with
      | none => Go.ret (Result.ok 1, st1)
      | some DocValue.null => Go.ret (Result.ok 1, st1)
      | some (DocValue.map o) =>
        match List.lookup "version".toList o with
        | none => Go.ret (Result.ok 1, st1)
        | some DocValue.null => Go.ret (Result.ok 1, st1)
        | some (DocValue.str version) =>
          if version = [] ∨ version = "1".toList then Go.ret (Result.ok 1, st1)
          else if version = "2".toList then Go.ret (Result.ok 2, st1)
          else Go.ret (Result.err ("unknown KV API version ".toList ++ version), st1)
        | some _ => Go.abort
      | some _ => Go.abort := by
  unfold getMountVersion mountOptions
  rw [hreq]
  simp only [hbody]

/-- C14: on a mount response that is parsed, `getMountVersion` returns 1 when the options
are absent, when the version is absent, and when the version is the empty text or `1`; it
returns 2 when the version is `2`; for every other version text it returns an error whose
message contains `unknown KV API version`, and then `pathToSecret` returns that error and
`Read` returns it with no secret. -/
theorem C14_getMountVersion_by_indicator {σ : Type} (client : ApiClient σ) (st st1 : σ)
    (path : Str) (r : Response) (secret : ApiSecret)
    (hreq : client.RawRequest st "GET".toList ("/v1/sys/internal/ui/mounts/".toList ++ path) =
      ((some r, none), st1))
    (hbody : r.Body = Result.ok (some secret)) :
    (mountOptions secret = none → getMountVersion client st path = Go.ret (Result.ok 1, st1)) ∧
    (∀ o, mountOptions secret = some (DocValue.map o) →
      (List.lookup "version".toList o = none →
        getMountVersion client st path = Go.ret (Result.ok 1, st1)) ∧
      (∀ v, List.lookup "version".toList o = some (DocValue.str v) →
        (v = [] ∨ v = "1".toList → getMountVersion client st path = Go.ret (Result.ok 1, st1)) ∧
        (v = "2".toList → getMountVersion client st path = Go.ret (Result.ok 2, st1)) ∧
        (v ≠ [] → v ≠ "1".toList → v ≠ "2".toList →
          ∃ msg, getMountVersion client st path = Go.ret (Result.err msg, st1) ∧
            "unknown KV API version".toList <:+: msg ∧
            pathToSecret client st path = Go.ret (Result.err msg, st1) ∧
            (BaseClient.mk client).Read st path = Go.ret ((none, some msg), st1)))) := by
  have hg := getMountVersion_parsed client st st1 path r secret hreq hbody
  refine ⟨?_, ?_⟩
  · intro ho
    rw [hg, ho]
  · intro o ho
    rw [ho] at hg
    simp only at hg
    refine ⟨?_, ?_⟩
    · intro hv
      rw [hg, hv]
    · intro v hv
      rw [hv] at hg
      simp only at hg
      refine ⟨?_, ?_, ?_⟩
      · intro h1
        rw [hg, if_pos h1]
      · intro h2
        have hn : ¬ (v = [] ∨ v = "1".toList) := by
          subst h2
          decide
        rw [hg, if_neg hn, if_pos h2]
      · intro h0 h1 h2
        have hn : ¬ (v = [] ∨ v = "1".toList) := fun c => c.elim h0 h1
        have he : getMountVersion client st path =
            Go.ret (Result.err ("unknown KV API version ".toList ++ v), st1) := by
          rw [hg, if_neg hn, if_neg h2]
        have hp := (pathToSecret_of_version client st st1 path _ he).2 _ rfl
        refine ⟨_, he, ⟨[], ' ' :: v, rfl⟩, hp, ?_⟩
        exact (Read_of_pathToSecret ⟨client⟩ st st1 path _ hp).2 _ rfl

/-- C14, at the response of `TestBaseClient_Read_KvAPIUnknown`: the version `0987w456`
makes `Read` of `/secret/test` return an error and no secret. -/
theorem C14_getMountVersion_by_indicator_witness :
    ∃ msg, getMountVersion (mockApiClient unknownMountSecret) [] "/secret/test".toList =
        Go.ret (Result.err msg, []) ∧
      "unknown KV API version".toList <:+: msg ∧
      pathToSecret (mockApiClient unknownMountSecret) [] "/secret/test".toList =
        Go.ret (Result.err msg, []) ∧
      (BaseClient.mk (mockApiClient unknownMountSecret)).Read [] "/secret/test".toList =
        Go.ret ((none, some msg), []) :=
  (((C14_getMountVersion_by_indicator (mockApiClient unknownMountSecret) [] []
      "/secret/test".toList ⟨200, Result.ok (some unknownMountSecret)⟩ unknownMountSecret
      rfl rfl).2 [("version".toList, DocValue.str "0987w456".toList)] rfl).2
      "0987w456".toList rfl).2.2 (by decide) (by decide) (by decide)

/-- A text is what is stripped on the left, the text stripped on both sides, and what is
stripped on the right. -/
theorem strip_both_decomp (q : Char → Bool) (l : Str) :
    l = l.takeWhile q ++ (l.dropWhile q).rdropWhile q ++
      ((l.dropWhile q).reverse.takeWhile q).reverse := by
  have h1 := List.takeWhile_append_dropWhile q l
  have h2 := List.takeWhile_append_dropWhile q (l.dropWhile q).reverse
  have h3 : l.dropWhile q = (l.dropWhile q).rdropWhile q ++
      ((l.dropWhile q).reverse.takeWhile q).reverse := by
    unfold List.rdropWhile
    rw [← List.reverse_append, h2, List.reverse_reverse]
  rw [List.append_assoc, ← h3, h1]

theorem mem_takeWhile_holds (q : Char → Bool) (l : Str) (c : Char)
    (h : c ∈ l.takeWhile q) : q c = true :=
  List.mem_takeWhile_imp h

/-- The sanitised path is the path without the whitespace around it and then without the
slashes around what is left: the path is whitespace, slashes, the sanitised path, slashes
and whitespace, and the sanitised path begins with whitespace only after a slash that was
removed, and ends with whitespace only before one. -/
theorem sanitisePath_decomp (path : Str) :
    ∃ w1 s1 s2 w2, path = w1 ++ s1 ++ sanitisePath path ++ s2 ++ w2 ∧
      (∀ c ∈ w1, isSpace c = true) ∧ (∀ c ∈ w2, isSpace c = true) ∧
      (∀ c ∈ s1, c = '/') ∧ (∀ c ∈ s2, c = '/') ∧
      (s1 = [] → ∀ c, (sanitisePath path).head? = some c → isSpace c = false) ∧
      (s2 = [] → ∀ c, (sanitisePath path).getLast? = some c → isSpace c = false) := by
  have hslash : ∀ c : Char, decide (c ∈ ['/']) = true → c = '/' := by
    intro c hc
    simpa using hc
  have e1 := strip_both_decomp isSpace path
  have e2 := strip_both_decomp (fun c => decide (c ∈ ['/'])) (TrimSpace path)
  have hs : sanitisePath path =
      ((TrimSpace path).dropWhile (fun c => decide (c ∈ ['/']))).rdropWhile
        (fun c => decide (c ∈ ['/'])) := rfl
  have ht : TrimSpace path = (path.dropWhile isSpace).rdropWhile isSpace := rfl
  have hhead : ∀ c, (TrimSpace path).head? = some c → isSpace c = false := by
    intro c hc
    rw [ht] at hc
    exact head_dropWhile_not _ _ _ (head_rdropWhile _ _ _ hc)
  have hlast : ∀ c, (TrimSpace path).getLast? = some c → isSpace c = false := by
    intro c hc
    rw [ht] at hc
    exact last_rdropWhile_not _ _ _ hc
  refine ⟨path.takeWhile isSpace, (TrimSpace path).takeWhile (fun c => decide (c ∈ ['/'])),
    (((TrimSpace path).dropWhile (fun c => decide (c ∈ ['/']))).reverse.takeWhile
      (fun c => decide (c ∈ ['/']))).reverse,
    ((path.dropWhile isSpace).reverse.takeWhile isSpace).reverse, ?_, ?_, ?_, ?_, ?_, ?_, ?_⟩
  · rw [hs]
    have e3 : path = path.takeWhile isSpace ++ TrimSpace path ++
        ((path.dropWhile isSpace).reverse.takeWhile isSpace).reverse := e1
    have e4 : path.takeWhile isSpace ++ (TrimSpace path).takeWhile (fun c => decide (c ∈ ['/'])) ++
        ((TrimSpace path).dropWhile (fun c => decide (c ∈ ['/']))).rdropWhile
          (fun c => decide (c ∈ ['/'])) ++
        (((TrimSpace path).dropWhile (fun c => decide (c ∈ ['/']))).reverse.takeWhile
          (fun c => decide (c ∈ ['/']))).reverse =
        path.takeWhile isSpace ++ TrimSpace path := by
      rw [List.append_assoc, List.append_assoc, ← List.append_assoc
        ((TrimSpace path).takeWhile _), ← e2]
    rw [e4]
    exact e3
  · exact fun c hc => mem_takeWhile_holds _ _ c hc
  · exact fun c hc => mem_takeWhile_holds _ _ c (List.mem_reverse.1 hc)
  · exact fun c hc => hslash c (mem_takeWhile_holds _ _ c hc)
  · exact fun c hc => hslash c (mem_takeWhile_holds _ _ c (List.mem_reverse.1 hc))
  · intro h1 c hc
    apply hhead c
    have hd : (TrimSpace path).dropWhile (fun c => decide (c ∈ ['/'])) = TrimSpace path := by
      have := List.takeWhile_append_dropWhile (fun c => decide (c ∈ ['/'])) (TrimSpace path)
      rw [h1, List.nil_append] at this
      exact this
    rw [hs, hd] at hc
    exact head_rdropWhile _ _ _ hc
  · intro h2 c hc
    apply hlast c
    have h2a : ((TrimSpace path).dropWhile (fun c => decide (c ∈ ['/']))).reverse.takeWhile
        (fun c => decide (c ∈ ['/'])) = [] := by
      simpa using h2
    have hd : sanitisePath path = (TrimSpace path).dropWhile (fun c => decide (c ∈ ['/'])) := by
      rw [hs]
      unfold List.rdropWhile
      have := List.takeWhile_append_dropWhile (fun c => decide (c ∈ ['/']))
        ((TrimSpace path).dropWhile (fun c => decide (c ∈ ['/']))).reverse
      rw [h2a, List.nil_append] at this
      rw [this, List.reverse_reverse]
    have hne : sanitisePath path ≠ [] := by
      intro c0
      rw [c0] at hc
      cases hc
    have hsplit := List.takeWhile_append_dropWhile (fun c => decide (c ∈ ['/'])) (TrimSpace path)
    rw [← hd] at hsplit
    rw [← hsplit, List.getLast?_append_of_ne_nil _ hne]
    exact hc

/-- The result of `pathToSecret` on a mount of version 2. -/
theorem pathToSecret_of_version_two {σ : Type} (client : ApiClient σ) (st st1 : σ)
    (path c0 : Str) (rest : List Str)
    (h : getMountVersion client st path = Go.ret (Result.ok 2, st1))
    (hs : Split (sanitisePath path) ['/'] = c0 :: rest) :
    pathToSecret client st path =
      Go.ret (Result.ok (Join (c0 :: "data".toList :: rest) ['/']), st1) := by
  unfold pathToSecret
  rw [h, Go_bind_ret]
  simp only
  rw [if_neg (by decide), if_pos trivial, updatePath_eq path c0 rest hs, Go_bind_ret]

/-- The claim C13 as stated fails: on a flat mount `pathToSecret` gives the path
`/secret/test` as it is, and `Read` reads at it, not at the sanitised `secret/test`; and the
sanitised form of `/ a /` begins and ends with a space. -/
theorem C13_counterexample :
    getMountVersion (mockApiClient flatMountSecret) [] "/secret/test".toList =
      Go.ret (Result.ok 1, []) ∧
    pathToSecret (mockApiClient flatMountSecret) [] "/secret/test".toList =
      Go.ret (Result.ok "/secret/test".toList, []) ∧
    (BaseClient.mk (mockApiClient flatMountSecret)).Read [] "/secret/test".toList =
      Go.ret ((some flatMountSecret, none), ["/secret/test".toList]) ∧
    sanitisePath "/secret/test".toList = "secret/test".toList ∧
    sanitisePath "/ a /".toList = " a ".toList := by
  refine ⟨rfl, rfl, rfl, by decide, by decide⟩

/-- C13, amended: on a mount classified flat (version 1), `pathToSecret` gives the path as
it is, and `Read` reads at that path. On a mount of version 2 the path is sanitised:
`pathToSecret` gives, and `Read` reads at, the components of the sanitised path with `data`
put after the first. The sanitised path is the path without the whitespace around it and
then without the slashes around what is left; it neither begins nor ends with a slash, and
begins or ends with whitespace only where a slash was removed next to it. -/
theorem C13_flat_path_unchanged {σ : Type} (client : ApiClient σ) (st st1 : σ) (path : Str) :
    (getMountVersion client st path = Go.ret (Result.ok 1, st1) →
      pathToSecret client st path = Go.ret (Result.ok path, st1) ∧
      (BaseClient.mk client).Read st path = Go.ret (client.LogicalRead st1 path)) ∧
    (getMountVersion client st path = Go.ret (Result.ok 2, st1) →
      ∃ c0 rest, Split (sanitisePath path) ['/'] = c0 :: rest ∧
        pathToSecret client st path =
          Go.ret (Result.ok (Join (c0 :: "data".toList :: rest) ['/']), st1) ∧
        (BaseClient.mk client).Read st path =
          Go.ret (client.LogicalRead st1 (Join (c0 :: "data".toList :: rest) ['/']))) ∧
    ((sanitisePath path).head? ≠ some '/' ∧ (sanitisePath path).getLast? ≠ some '/') ∧
    (∃ w1 s1 s2 w2, path = w1 ++ s1 ++ sanitisePath path ++ s2 ++ w2 ∧
      (∀ c ∈ w1, isSpace c = true) ∧ (∀ c ∈ w2, isSpace c = true) ∧
      (∀ c ∈ s1, c = '/') ∧ (∀ c ∈ s2, c = '/') ∧
      (s1 = [] → ∀ c, (sanitisePath path).head? = some c → isSpace c = false) ∧
      (s2 = [] → ∀ c, (sanitisePath path).getLast? = some c → isSpace c = false)) := by
  refine ⟨fun h => ?_, fun h => ?_, sanitisePath_no_slash path, sanitisePath_decomp path⟩
  · have hp := (pathToSecret_of_version client st st1 path _ h).1 rfl
    exact ⟨hp, (Read_of_pathToSecret ⟨client⟩ st st1 path _ hp).1 _ rfl⟩
  · cases hs : Split (sanitisePath path) ['/'] with
    | nil => exact absurd hs (Split_single_ne_nil '/' _)
    | cons c0 rest =>
      have hp := pathToSecret_of_version_two client st st1 path c0 rest h hs
      exact ⟨c0, rest, rfl, hp, (Read_of_pathToSecret ⟨client⟩ st st1 path _ hp).1 _ rfl⟩

/-- C13 as amended, at the client of `TestBaseClient_Read` and the path `/secret/test` for
the flat mount, and at a mount of version 2 and the path `/secret/test/` between spaces,
which is read at `secret/data/test`. -/
theorem C13_flat_path_unchanged_witness :
    (pathToSecret (mockApiClient flatMountSecret) [] "/secret/test".toList =
        Go.ret (Result.ok "/secret/test".toList, []) ∧
      (BaseClient.mk (mockApiClient flatMountSecret)).Read [] "/secret/test".toList =
        Go.ret ((mockApiClient flatMountSecret).LogicalRead [] "/secret/test".toList)) ∧
    (∃ c0 rest, Split (sanitisePath " /secret/test/ ".toList) ['/'] = c0 :: rest ∧
      pathToSecret (mockApiClient envelopedMountSecret) [] " /secret/test/ ".toList =
        Go.ret (Result.ok (Join (c0 :: "data".toList :: rest) ['/']), []) ∧
      (BaseClient.mk (mockApiClient envelopedMountSecret)).Read [] " /secret/test/ ".toList =
        Go.ret ((mockApiClient envelopedMountSecret).LogicalRead []
          (Join (c0 :: "data".toList :: rest) ['/']))) ∧
    pathToSecret (mockApiClient envelopedMountSecret) [] " /secret/test/ ".toList =
      Go.ret (Result.ok "secret/data/test".toList, []) :=
  ⟨(C13_flat_path_unchanged (mockApiClient flatMountSecret) [] []
      "/secret/test".toList).1 rfl,
   (C13_flat_path_unchanged (mockApiClient envelopedMountSecret) [] []
      " /secret/test/ ".toList).2.1 rfl,
   by decide⟩

/-! ## The form of the placeholders found -/

/-- Every text `FindAllString` returns is a part of the text searched. -/
theorem findAllLoop_part (items : List Item) (k : Nat) (s : Str) :
    ∀ m ∈ findAllLoop items k s, m <:+: s := by
  induction s generalizing k with
  | nil => intro m hm; cases k <;> simp [findAllLoop] at hm
  | cons x xs ih =>
    intro m hm
    cases k with
    | succ k1 =>
      simp only [findAllLoop] at hm
      exact List.infix_cons (ih k1 m hm)
    | zero =>
      simp only [findAllLoop] at hm
      cases hmt : matchItems items (x :: xs) with
      | none =>
        rw [hmt] at hm
        exact List.infix_cons (ih 0 m hm)
      | some n =>
        rw [hmt] at hm
        rcases List.mem_cons.1 hm with h1 | h1
        · rw [h1]
          exact (List.take_prefix n (x :: xs)).isInfix
        · exact List.infix_cons (ih (n - 1) m h1)

/-- Every text `FindAllString` returns for the pattern is two opening braces, whitespace of
the pattern, a token without space and closing brace, whitespace, two closing braces. -/
theorem findAllLoop_form (k : Nat) (s : Str) :
    ∀ m ∈ findAllLoop matcher k s, ∃ w1 tok w2,
      m = '\x7b' :: '\x7b' :: (w1 ++ tok ++ w2 ++ ['\x7d', '\x7d']) ∧
      (∀ c ∈ w1, isReSpace c = true) ∧ (∀ c ∈ tok, isTokenChar c = true) ∧
      (∀ c ∈ w2, isReSpace c = true) := by
  induction s generalizing k with
  | nil => intro m hm; cases k <;> simp [findAllLoop] at hm
  | cons x xs ih =>
    intro m hm
    cases k with
    | succ k1 =>
      simp only [findAllLoop] at hm
      exact ih k1 m hm
    | zero =>
      simp only [findAllLoop] at hm
      cases hmt : matchItems matcher (x :: xs) with
      | none =>
        rw [hmt] at hm
        exact ih 0 m hm
      | some n =>
        rw [hmt] at hm
        rcases List.mem_cons.1 hm with h1 | h1
        · obtain ⟨w1, tok, w2, rest, e, hw1, htok, hw2, hn⟩ := matcher_match _ _ hmt
          refine ⟨w1, tok, w2, ?_, hw1, htok, hw2⟩
          have e1 : x :: xs =
              ('\x7b' :: '\x7b' :: (w1 ++ tok ++ w2 ++ ['\x7d', '\x7d'])) ++ rest := by
            rw [e]; simp
          have hl : ('\x7b' :: '\x7b' :: (w1 ++ tok ++ w2 ++ ['\x7d', '\x7d'])).length = n := by
            rw [hn]
            simp only [List.length_cons, List.length_append, List.length_nil]
          rw [h1, e1, List.take_left' hl]
        · exact ih (n - 1) m h1

theorem isTokenChar_iff (c : Char) : isTokenChar c = true ↔ c ≠ ' ' ∧ c ≠ '\x7d' := by
  simp [isTokenChar]

theorem not_SpecForm_example : ¬ SpecForm "\x7b\x7b\x7b\x7bx\x7d\x7d".toList := by
  rintro ⟨w1, tok, w2, e, h1, h2, h3⟩
  have e1 : "\x7b\x7b\x7b\x7bx\x7d\x7d".toList =
      '\x7b' :: '\x7b' :: (['\x7b', '\x7b', 'x'] ++ ['\x7d', '\x7d']) := rfl
  rw [e1] at e
  simp only [List.cons.injEq, true_and] at e
  have e2 : ['\x7b', '\x7b', 'x'] = w1 ++ tok ++ w2 := List.append_cancel_right e
  cases w1 with
  | cons a w =>
    simp only [List.cons_append, List.cons.injEq] at e2
    have := h1 a (List.mem_cons_self _ _)
    rw [← e2.1] at this
    exact absurd this (by decide)
  | nil =>
    cases tok with
    | cons a w =>
      simp only [List.nil_append, List.cons_append, List.cons.injEq] at e2
      have := (h3 a (List.mem_cons_self _ _)).1
      exact this e2.1.symm
    | nil =>
      simp only [List.nil_append] at e2
      have := h2 '\x7b' (by rw [← e2]; exact List.mem_cons_self _ _)
      exact absurd this (by decide)

/-- The claim C11 as stated fails: from the template `key={{{{x}}` the text `{{{{x}}` is
returned, whose token holds opening braces, so that it has not the form of the
specification. -/
theorem C11_counterexample :
    TemplateFile.FindPlaceholders braceFiles ⟨"in".toList⟩ =
      Result.ok ["\x7b\x7b\x7b\x7bx\x7d\x7d".toList] ∧
    ¬ SpecForm "\x7b\x7b\x7b\x7bx\x7d\x7d".toList :=
  ⟨by decide, not_SpecForm_example⟩

/-- C11, amended: every text `FindPlaceholders` returns is a part of the template, taken
as it stands, of the form two opening braces, whitespace, token, whitespace, two closing
braces, in which the token holds no space and no closing brace (it may hold opening braces
and tabs or line breaks); so a text closed by a single brace is never returned. -/
theorem C11_placeholders_form (fs : FileSystem) (t : TemplateFile) (T : Str)
    (hT : fs.ReadFile t.path = Result.ok T) :
    t.FindPlaceholders fs = Result.ok (FindAllString matcher T) ∧
    ∀ m ∈ FindAllString matcher T,
      m <:+: T ∧
      (∃ w1 tok w2, m = '\x7b' :: '\x7b' :: (w1 ++ tok ++ w2 ++ ['\x7d', '\x7d']) ∧
        (∀ c ∈ w1, isReSpace c = true) ∧ (∀ c ∈ tok, c ≠ ' ' ∧ c ≠ '\x7d') ∧
        (∀ c ∈ w2, isReSpace c = true)) ∧
      (∃ b, m = b ++ ['\x7d', '\x7d']) ∧
      m ≠ "\x7b\x7b secret/invalid!invalid \x7d".toList := by
  constructor
  · unfold TemplateFile.FindPlaceholders
    rw [hT]
  · intro m hm
    obtain ⟨w1, tok, w2, e, hw1, htok, hw2⟩ := findAllLoop_form 0 T m hm
    refine ⟨findAllLoop_part matcher 0 T m hm,
      ⟨w1, tok, w2, e, hw1, fun c hc => (isTokenChar_iff c).1 (htok c hc), hw2⟩,
      ⟨'\x7b' :: '\x7b' :: (w1 ++ tok ++ w2), by rw [e]; simp⟩, ?_⟩
    intro hc
    have h1 : (m.reverse).take 2 = ['\x7d', '\x7d'] := by
      rw [e]; simp
    rw [hc] at h1
    exact absurd h1 (by decide)

/-- C11 as amended, at the example template. -/
theorem C11_placeholders_form_witness :
    TemplateFile.FindPlaceholders exampleFiles ⟨"in".toList⟩ =
      Result.ok (FindAllString matcher
        "user=\x7b\x7bx!y\x7d\x7d;admin=\x7b\x7bx!y\x7d\x7d".toList) :=
  (C11_placeholders_form exampleFiles ⟨"in".toList⟩
    "user=\x7b\x7bx!y\x7d\x7d;admin=\x7b\x7bx!y\x7d\x7d".toList (by decide)).1

/-! ## What `NewSecret` constructs -/

theorem beforeFirst_append (c : Char) (a b : Str) (h : c ∉ a) :
    beforeFirst c (a ++ c :: b) = a ∧ afterFirst c (a ++ c :: b) = b := by
  unfold beforeFirst afterFirst
  induction a with
  | nil => simp
  | cons x xs ih =>
    have hx : x ≠ c := fun e => h (by simp [e])
    have hxs : c ∉ xs := fun e => h (by simp [e])
    obtain ⟨h1, h2⟩ := ih hxs
    simp only [List.cons_append, List.takeWhile_cons, List.dropWhile_cons, bne_iff_ne, ne_eq, hx,
      not_false_eq_true, decide_True, if_true]
    exact ⟨by rw [h1], h2⟩

theorem beforeFirst_of_absent (c : Char) (s : Str) (h : c ∉ s) : beforeFirst c s = s := by
  unfold beforeFirst
  rw [List.takeWhile_eq_self_iff]
  intro x hx
  simp only [bne_iff_ne, ne_eq]
  intro e
  exact h (e ▸ hx)

/-- The first piece of a split is the part before the first separator. -/
theorem index_zero_Split_eq (c : Char) (s : Str) :
    index (Split s [c]) 0 = Go.ret (beforeFirst c s) := by
  by_cases h : c ∈ s
  · obtain ⟨a, b, e, ha⟩ := exists_first c s h
    rw [e, Split_single_first c a b ha, (beforeFirst_append c a b ha).1]
    exact index_cons_zero _ _
  · rw [Split_single_absent c s h, beforeFirst_of_absent c s h]
    exact index_cons_zero _ _

/-- The second piece of a split is the part between the first and the second separator. -/
theorem index_one_Split_eq (c : Char) (s : Str) (h : c ∈ s) :
    index (Split s [c]) 1 = Go.ret (beforeFirst c (afterFirst c s)) := by
  obtain ⟨a, b, e, ha⟩ := exists_first c s h
  rw [e, Split_single_first c a b ha, (beforeFirst_append c a b ha).2]
  have h0 := index_zero_Split_eq c b
  cases hb : Split b [c] with
  | nil => exact absurd hb (Split_single_ne_nil c b)
  | cons y t =>
    rw [hb, index_cons_zero] at h0
    rw [index_cons_one]
    exact h0

/-- The value `fallback` returns: the part of the whole text between its first and its
second colon, the empty text when it has no colon. -/
theorem fallback_eq (p : Str) :
    fallback p =
      Go.ret (if ':' ∈ p then beforeFirst ':' (afterFirst ':' p) else [], none) := by
  unfold fallback
  by_cases h : ':' ∈ p
  · have hc : Contains p [':'] = true := (Contains_single p ':').2 h
    rw [if_pos hc, if_pos h]
    simp only [index_one_Split_eq ':' p h, Go_bind_ret]
  · have hc : ¬ Contains p [':'] = true := fun c => h ((Contains_single p ':').1 c)
    rw [if_neg hc, if_neg h]

/-- What `NewSecret` constructs from a placeholder with `!`, in terms of the text `p`
stripped of its delimiters: the path is the part of `p` before its first `!`, the key the
part after that `!` up to the next `!` or colon, and the value the part of `p` between its
first and its second colon. -/
theorem NewSecret_parts (x : Str) (h : '!' ∈ x) :
    NewSecret x = Go.ret (Result.ok
      ⟨beforeFirst '!' (trimBrackets x),
       beforeFirst ':' (beforeFirst '!' (afterFirst '!' (trimBrackets x))),
       if ':' ∈ trimBrackets x then beforeFirst ':' (afterFirst ':' (trimBrackets x))
       else []⟩) := by
  have hc : Contains x ['!'] = true := (Contains_single x '!').2 h
  have hm : '!' ∈ trimBrackets x := mem_trimBrackets '!' x h (by decide)
  unfold NewSecret
  simp only [hc, Bool.not_true, Bool.false_eq_true, if_false, fallback_eq, Go_bind_ret,
    index_one_Split_eq '!' _ hm, index_zero_Split_eq]

theorem beforeFirst_eq_nil_iff (c : Char) (s : Str) :
    beforeFirst c s = [] ↔ s = [] ∨ s.head? = some c := by
  unfold beforeFirst
  cases s with
  | nil => simp
  | cons x xs =>
    by_cases hx : x = c
    · simp [List.takeWhile_cons, hx]
    · simp [List.takeWhile_cons, hx]

/-- The claim C15 as stated fails: `NewSecret` succeeds on `!key` with an empty path, and
on `path!` and `path!:fallback` with an empty key. -/
theorem C15_counterexample :
    NewSecret "!key".toList = Go.ret (Result.ok ⟨[], "key".toList, []⟩) ∧
    NewSecret "path!".toList = Go.ret (Result.ok ⟨"path".toList, [], []⟩) ∧
    NewSecret "path!:fallback".toList =
      Go.ret (Result.ok ⟨"path".toList, [], "fallback".toList⟩) := by
  decide

/-- C15, amended: on every input with `!`, `NewSecret` succeeds; the path is the part of
the stripped input before its first `!` and the key the part after that `!` up to the next
`!` or colon, and either may be empty: the path is empty exactly when the stripped input
begins with `!`, the key exactly when nothing or `!` or a colon comes after the first
`!`. -/
theorem C15_path_and_key_may_be_empty (x : Str) (h : '!' ∈ x) :
    ∃ s, NewSecret x = Go.ret (Result.ok s) ∧
      s.Path = beforeFirst '!' (trimBrackets x) ∧
      s.Key = beforeFirst ':' (beforeFirst '!' (afterFirst '!' (trimBrackets x))) ∧
      (s.Path = [] ↔ (trimBrackets x).head? = some '!') ∧
      (s.Key = [] ↔ afterFirst '!' (trimBrackets x) = [] ∨
        (afterFirst '!' (trimBrackets x)).head? = some '!' ∨
        (afterFirst '!' (trimBrackets x)).head? = some ':') := by
  have hm : '!' ∈ trimBrackets x := mem_trimBrackets '!' x h (by decide)
  refine ⟨⟨beforeFirst '!' (trimBrackets x),
       beforeFirst ':' (beforeFirst '!' (afterFirst '!' (trimBrackets x))),
       if ':' ∈ trimBrackets x then beforeFirst ':' (afterFirst ':' (trimBrackets x))
       else []⟩, NewSecret_parts x h, rfl, rfl, ?_, ?_⟩
  · simp only [VaultSecret.Path]
    rw [beforeFirst_eq_nil_iff]
    constructor
    · rintro (h1 | h1)
      · rw [h1] at hm
        exact absurd hm (List.not_mem_nil _)
      · exact h1
    · exact Or.inr
  · simp only [VaultSecret.Key]
    rw [beforeFirst_eq_nil_iff, beforeFirst_eq_nil_iff]
    generalize afterFirst '!' (trimBrackets x) = seg
    cases seg with
    | nil => simp
    | cons y ys =>
      by_cases hy : y = '!'
      · subst hy
        simp [beforeFirst]
      · simp [beforeFirst, List.takeWhile_cons, hy]

/-- C15 as amended, at `path!:fallback`: the key is empty. -/
theorem C15_path_and_key_may_be_empty_witness :
    ∃ s, NewSecret "path!:fallback".toList = Go.ret (Result.ok s) ∧
      s.Path = "path".toList ∧ s.Key = [] := by
  obtain ⟨s, h1, h2, h3, _⟩ := C15_path_and_key_may_be_empty "path!:fallback".toList (by decide)
  refine ⟨s, h1, ?_, ?_⟩
  · rw [h2]; decide
  · rw [h3]; decide

/-- The code at inputs on which C16 fails: the value of `secret/a!key:http://x` is `http`,
the part up to the second colon, where the claim has `http://x`, all after the first colon
of the segment; the value of `a:b!k` is `b!k`, taken after the colon of the path, where the
claim has the empty text; the key of `a!k!z` is `k` where the claim has `k!z`. -/
theorem C16_code_at_failing_input :
    NewSecret "secret/a!key:http://x".toList =
      Go.ret (Result.ok ⟨"secret/a".toList, "key".toList, "http".toList⟩) ∧
    afterFirst ':' (afterFirst '!' (trimBrackets "secret/a!key:http://x".toList)) =
      "http://x".toList ∧
    NewSecret "a:b!k".toList = Go.ret (Result.ok ⟨"a:b".toList, "k".toList, "b!k".toList⟩) ∧
    NewSecret "a!k!z".toList = Go.ret (Result.ok ⟨"a".toList, "k".toList, []⟩) ∧
    afterFirst '!' (trimBrackets "a!k!z".toList) = "k!z".toList := by
  decide

/-! ## `trimBrackets` on a delimited token -/

theorem dropWhile_of_all (q : Char → Bool) (w s : Str) (h : ∀ c ∈ w, q c = true) :
    (w ++ s).dropWhile q = s.dropWhile q := by
  induction w with
  | nil => rfl
  | cons x xs ih =>
    rw [List.cons_append, List.dropWhile_cons, if_pos (h x (List.mem_cons_self _ _))]
    exact ih (fun c hc => h c (List.mem_cons_of_mem _ hc))

/-- The cons form of `rdropWhile`. -/
theorem rdropWhile_cons (q : Char → Bool) (x : Char) (xs : Str) :
    (x :: xs).rdropWhile q =
      if xs.rdropWhile q = [] then (if q x then [] else [x]) else x :: xs.rdropWhile q := by
  unfold List.rdropWhile
  rw [List.reverse_cons, List.dropWhile_append]
  by_cases h : List.dropWhile q xs.reverse = []
  · simp [h]
    by_cases hq : q x = true
    · simp [hq]
    · simp [hq]
  · have h1 : (List.dropWhile q xs.reverse).isEmpty = false := by
      cases hd : List.dropWhile q xs.reverse with
      | nil => exact absurd hd h
      | cons _ _ => rfl
    simp [h, h1]

/-- Stripping on the left and stripping on the right can be done in either order. -/
theorem dropWhile_rdropWhile_comm (p q : Char → Bool) (l : Str) :
    (l.rdropWhile q).dropWhile p = (l.dropWhile p).rdropWhile q := by
  induction l with
  | nil => simp
  | cons x xs ih =>
    by_cases hp : p x = true
    · rw [List.dropWhile_cons, if_pos hp, ← ih, rdropWhile_cons]
      by_cases hr : xs.rdropWhile q = []
      · rw [if_pos hr, hr]
        by_cases hq : q x = true
        · rw [if_pos hq]
        · rw [if_neg hq, List.dropWhile_cons, if_pos hp]
      · rw [if_neg hr, List.dropWhile_cons, if_pos hp]
    · rw [List.dropWhile_cons, if_neg hp, rdropWhile_cons]
      by_cases hr : xs.rdropWhile q = []
      · rw [if_pos hr]
        by_cases hq : q x = true
        · rw [if_pos hq]; rfl
        · rw [if_neg hq, List.dropWhile_cons, if_neg hp]
      · rw [if_neg hr, List.dropWhile_cons, if_neg hp]

/-- The function `trimBrackets` with its three strippings on the left done first. -/
theorem trimBrackets_eq (x : Str) :
    trimBrackets x =
      (((((x.dropWhile isSpace).dropWhile (fun c => decide (c ∈ ['\x7b']))).dropWhile
        isSpace).rdropWhile isSpace).rdropWhile (fun c => decide (c ∈ ['\x7d']))).rdropWhile
        isSpace := by
  unfold trimBrackets TrimSpace TrimLeft TrimRight
  simp only [dropWhile_rdropWhile_comm]

theorem mem_replicate_eq (n : Nat) (br c : Char) (h : c ∈ List.replicate n br) : c = br :=
  List.eq_of_mem_replicate h

/-- The three strippings on the left remove whitespace, braces and whitespace. -/
theorem strip_left (br : Char) (hbr : isSpace br = false) (w1 w2 S : Str) (a : Nat)
    (h1 : ∀ c ∈ w1, isSpace c = true) (h2 : ∀ c ∈ w2, isSpace c = true)
    (hS : ∀ c, (S.dropWhile isSpace).head? = some c → c ≠ br) :
    (((w1 ++ List.replicate a br ++ w2 ++ S).dropWhile isSpace).dropWhile
      (fun c => decide (c ∈ [br]))).dropWhile isSpace = S.dropWhile isSpace := by
  have e0 : w1 ++ List.replicate a br ++ w2 ++ S = w1 ++ (List.replicate a br ++ (w2 ++ S)) := by
    simp
  rw [e0, dropWhile_of_all isSpace w1 _ h1]
  have hq : ∀ c, c ≠ br → decide (c ∈ [br]) = false := by
    intro c hc
    simp [hc]
  cases a with
  | zero =>
    rw [List.replicate_zero, List.nil_append, dropWhile_of_all isSpace w2 _ h2,
      dropWhile_eq_self_of_head _ (S.dropWhile isSpace) (fun c hc => hq c (hS c hc)),
      List.dropWhile_idempotent]
  | succ n =>
    have hhead : (List.replicate (n + 1) br ++ (w2 ++ S)).dropWhile isSpace =
        List.replicate (n + 1) br ++ (w2 ++ S) := by
      apply dropWhile_eq_self_of_head
      intro c hc
      rw [List.replicate_succ] at hc
      simp only [List.cons_append, List.head?_cons, Option.some.injEq] at hc
      rw [← hc]
      exact hbr
    rw [hhead, dropWhile_of_all _ (List.replicate (n + 1) br) _
      (fun c hc => by rw [mem_replicate_eq _ _ _ hc]; simp)]
    have hstay : (w2 ++ S).dropWhile (fun c => decide (c ∈ [br])) = w2 ++ S := by
      apply dropWhile_eq_self_of_head
      intro c hc
      apply hq
      intro e
      subst e
      cases w2 with
      | cons y ys =>
        simp only [List.cons_append, List.head?_cons, Option.some.injEq] at hc
        have := h2 y (List.mem_cons_self _ _)
        rw [hc, hbr] at this
        cases this
      | nil =>
        rw [List.nil_append] at hc
        have hS1 : S.dropWhile isSpace = S :=
          dropWhile_eq_self_of_head _ S (fun d hd => by
            rw [hc] at hd
            simp only [Option.some.injEq] at hd
            rw [← hd]
            exact hbr)
        rw [hS1] at hS
        exact hS c hc rfl
    rw [hstay, dropWhile_of_all isSpace w2 _ h2]

/-- The three strippings on the right remove whitespace, braces and whitespace. -/
theorem strip_right (br : Char) (hbr : isSpace br = false) (w3 w4 S : Str) (b : Nat)
    (h3 : ∀ c ∈ w3, isSpace c = true) (h4 : ∀ c ∈ w4, isSpace c = true)
    (hS : ∀ c, (S.rdropWhile isSpace).getLast? = some c → c ≠ br) :
    (((S ++ w3 ++ List.replicate b br ++ w4).rdropWhile isSpace).rdropWhile
      (fun c => decide (c ∈ [br]))).rdropWhile isSpace = S.rdropWhile isSpace := by
  unfold List.rdropWhile
  simp only [List.reverse_reverse, List.reverse_append, List.reverse_replicate]
  have e : w4.reverse ++ (List.replicate b br ++ (w3.reverse ++ S.reverse)) =
      w4.reverse ++ List.replicate b br ++ w3.reverse ++ S.reverse := by simp
  rw [e, strip_left br hbr w4.reverse w3.reverse S.reverse b
    (fun c hc => h4 c (List.mem_reverse.1 hc)) (fun c hc => h3 c (List.mem_reverse.1 hc))]
  intro c hc
  apply hS c
  unfold List.rdropWhile
  rw [List.getLast?_reverse]
  exact hc

theorem head_clean (t : Str) (h : cleanEdges t = true) (c : Char) (hc : t.head? = some c) :
    isEdge c = false := by
  simp [cleanEdges, hc] at h
  simp [h.1]

theorem last_clean (t : Str) (h : cleanEdges t = true) (c : Char)
    (hc : t.getLast? = some c) : isEdge c = false := by
  simp [cleanEdges, hc] at h
  simp [h.2]

theorem isEdge_false (c : Char) (h : isEdge c = false) :
    isSpace c = false ∧ c ≠ '\x7b' ∧ c ≠ '\x7d' := by
  have h1 : (isSpace c = false ∧ ¬c = '\x7b') ∧ ¬c = '\x7d' := by simpa [isEdge] using h
  exact ⟨h1.1.1, h1.1.2, h1.2⟩

/-- A token with clean edges comes out of `trimBrackets` whatever whitespace and braces
surround it. -/
theorem trimBrackets_delimited (t w1 w2 w3 w4 : Str) (a b : Nat) (ht : cleanEdges t = true)
    (h1 : ∀ c ∈ w1, isSpace c = true) (h2 : ∀ c ∈ w2, isSpace c = true)
    (h3 : ∀ c ∈ w3, isSpace c = true) (h4 : ∀ c ∈ w4, isSpace c = true) :
    trimBrackets (w1 ++ List.replicate a '\x7b' ++ w2 ++ t ++ w3 ++ List.replicate b '\x7d' ++ w4)
      = t := by
  rw [trimBrackets_eq]
  have e0 : w1 ++ List.replicate a '\x7b' ++ w2 ++ t ++ w3 ++ List.replicate b '\x7d' ++ w4 =
      w1 ++ List.replicate a '\x7b' ++ w2 ++ (t ++ w3 ++ List.replicate b '\x7d' ++ w4) := by
    simp
  rw [e0]
  cases t with
  | cons x t1 =>
    have hx := isEdge_false x (head_clean _ ht x rfl)
    have hS : (x :: t1 ++ w3 ++ List.replicate b '\x7d' ++ w4).dropWhile isSpace =
        x :: t1 ++ w3 ++ List.replicate b '\x7d' ++ w4 :=
      dropWhile_eq_self_of_head _ _ (fun c hc => by
        simp only [List.cons_append, List.head?_cons, Option.some.injEq] at hc
        rw [← hc]; exact hx.1)
    rw [strip_left '\x7b' (by decide) w1 w2 _ a h1 h2 (fun c hc => by
      rw [hS] at hc
      simp only [List.cons_append, List.head?_cons, Option.some.injEq] at hc
      rw [← hc]; exact hx.2.1), hS]
    have hr : (x :: t1).rdropWhile isSpace = x :: t1 :=
      rdropWhile_eq_self_of_last _ _ (fun c hc =>
        (isEdge_false c (last_clean _ ht c hc)).1)
    rw [strip_right '\x7d' (by decide) w3 w4 (x :: t1) b h3 h4 (fun c hc => by
      rw [hr] at hc
      exact (isEdge_false c (last_clean _ ht c hc)).2.2), hr]
  | nil =>
    have hmem : ∀ c ∈ [] ++ w3 ++ List.replicate b '\x7d' ++ w4, c ≠ '\x7b' := by
      intro c hc e
      subst e
      simp only [List.nil_append, List.mem_append] at hc
      rcases hc with (hc | hc) | hc
      · exact absurd (h3 _ hc) (by decide)
      · exact absurd (mem_replicate_eq _ _ _ hc) (by decide)
      · exact absurd (h4 _ hc) (by decide)
    rw [strip_left '\x7b' (by decide) w1 w2 _ a h1 h2 (fun c hc =>
      hmem c ((List.dropWhile_sublist _).subset (List.mem_of_mem_head? hc)))]
    rw [List.nil_append, List.append_assoc, dropWhile_of_all isSpace w3 _ h3]
    cases b with
    | zero =>
      rw [List.replicate_zero, List.nil_append]
      have : w4.dropWhile isSpace = [] := List.dropWhile_eq_nil_iff.2 (fun c hc => h4 c hc)
      rw [this]
      rfl
    | succ n =>
      have hhead : (List.replicate (n + 1) '\x7d' ++ w4).dropWhile isSpace =
          List.replicate (n + 1) '\x7d' ++ w4 := by
        apply dropWhile_eq_self_of_head
        intro c hc
        rw [List.replicate_succ] at hc
        simp only [List.cons_append, List.head?_cons, Option.some.injEq] at hc
        rw [← hc]
        decide
      rw [hhead]
      have e1 : List.replicate (n + 1) '\x7d' ++ w4 =
          [] ++ [] ++ List.replicate (n + 1) '\x7d' ++ w4 := by simp
      rw [e1, strip_right '\x7d' (by decide) [] w4 [] (n + 1)
        (fun c hc => (List.not_mem_nil _ hc).elim) h4 (fun c hc => by simp at hc)]
      rfl


theorem NewSecret_congr (x y : Str) (hc : Contains x ['!'] = Contains y ['!'])
    (ht : trimBrackets x = trimBrackets y) : NewSecret x = NewSecret y := by
  unfold NewSecret
  rw [hc, ht]

/-- C18: for a text `t` that neither begins nor ends with whitespace or a brace, whitespace
texts `w1` to `w4` and counts `a` and `b`, `trimBrackets` maps `w1`, `a` opening braces,
`w2`, `t`, `w3`, `b` closing braces, `w4` to `t`, and `NewSecret` returns for the
delimited text what it returns for `t`. -/
theorem C18_trimBrackets_strips_delimiters (t w1 w2 w3 w4 : Str) (a b : Nat)
    (ht : cleanEdges t = true)
    (h1 : ∀ c ∈ w1, isSpace c = true) (h2 : ∀ c ∈ w2, isSpace c = true)
    (h3 : ∀ c ∈ w3, isSpace c = true) (h4 : ∀ c ∈ w4, isSpace c = true) :
    trimBrackets (w1 ++ List.replicate a '\x7b' ++ w2 ++ t ++ w3 ++ List.replicate b '\x7d' ++ w4)
      = t ∧
    NewSecret (w1 ++ List.replicate a '\x7b' ++ w2 ++ t ++ w3 ++ List.replicate b '\x7d' ++ w4)
      = NewSecret t := by
  have htrim := trimBrackets_delimited t w1 w2 w3 w4 a b ht h1 h2 h3 h4
  refine ⟨htrim, NewSecret_congr _ _ ?_ ?_⟩
  · have hmem : '!' ∈ w1 ++ List.replicate a '\x7b' ++ w2 ++ t ++ w3 ++
        List.replicate b '\x7d' ++ w4 ↔ '!' ∈ t := by
      simp only [List.mem_append]
      constructor
      · rintro ((((((h | h) | h) | h) | h) | h) | h)
        · exact absurd (h1 _ h) (by decide)
        · exact absurd (mem_replicate_eq _ _ _ h) (by decide)
        · exact absurd (h2 _ h) (by decide)
        · exact h
        · exact absurd (h3 _ h) (by decide)
        · exact absurd (mem_replicate_eq _ _ _ h) (by decide)
        · exact absurd (h4 _ h) (by decide)
      · intro h
        exact Or.inl (Or.inl (Or.inl (Or.inr h)))
    rw [Bool.eq_iff_iff, Contains_single, Contains_single]
    exact hmem
  · rw [htrim, trimBrackets_of_cleanEdges t ht]

/-- C18, at the text `foo bar` between double braces and single spaces, and at the
reference `secret/a!k:f` between the same. -/
theorem C18_trimBrackets_strips_delimiters_witness :
    trimBrackets "\x7b\x7b foo bar \x7d\x7d".toList = "foo bar".toList ∧
    NewSecret "\x7b\x7b secret/a!k:f \x7d\x7d".toList = NewSecret "secret/a!k:f".toList :=
  ⟨(C18_trimBrackets_strips_delimiters "foo bar".toList [] [' '] [' '] [] 2 2 (by decide)
      (by decide) (by decide) (by decide) (by decide)).1,
   (C18_trimBrackets_strips_delimiters "secret/a!k:f".toList [] [' '] [' '] [] 2 2 (by decide)
      (by decide) (by decide) (by decide) (by decide)).2⟩


/-! ## When `Retrieve` returns an error -/

/-- C17: on a store response in which the field that `Retrieve` looks up holds a string
when it is there, `Retrieve` returns, and it returns an error exactly when the read
returned an error, or the document is nil, or its data is nil, or the data has a member
`data` that is no mapping, or the data has a mapping `data` that lacks the key, or the data
has no member `data` and lacks the key. On a read error the message is made of the path
and the text of the error of the store; on a missing field it ends with
`does not contain key` and the key. -/
theorem C17_Retrieve_error_iff {σ : Type} (fmtV : DocValue → Str) (s : VaultSecret)
    (client : Vault σ) (st st1 : σ) (sec : Option ApiSecret) (err : Option Str)
    (hr : client.Read st s.Path = ((sec, err), st1))
    (hstr : ∀ data x, sec = some ⟨some data⟩ → err = none → fieldOf data s.Key = some x →
      ∃ v, x = DocValue.str v) :
    ∃ r, s.Retrieve fmtV client st = Go.ret r ∧
      (r.err ≠ none ↔
        (err ≠ none ∨ sec = none ∨ sec = some ⟨none⟩ ∨
         (∃ data val, sec = some ⟨some data⟩ ∧ List.lookup "data".toList data = some val ∧
            ∀ m, val ≠ DocValue.map m) ∨
         (∃ data m, sec = some ⟨some data⟩ ∧
            List.lookup "data".toList data = some (DocValue.map m) ∧
            List.lookup s.Key m = none) ∨
         (∃ data, sec = some ⟨some data⟩ ∧ List.lookup "data".toList data = none ∧
            List.lookup s.Key data = none))) ∧
      (∀ e, err = some e → r.err = some ("failed to fetch secret '".toList ++ s.Path ++
        "' from Vault: ".toList ++ e)) ∧
      (∀ data, err = none → sec = some ⟨some data⟩ →
        ((∃ m, List.lookup "data".toList data = some (DocValue.map m) ∧
            List.lookup s.Key m = none) ∨
         (List.lookup "data".toList data = none ∧ List.lookup s.Key data = none)) →
        r.err = some ("secret data for path ".toList ++ s.Path ++
          " does not contain key ".toList ++ s.Key)) := by
  have hr1 : client.Read st s.path = ((sec, err), st1) := hr
  unfold VaultSecret.Retrieve
  rw [hr1]
  simp only [VaultSecret.Path, VaultSecret.Key] at hstr ⊢
  cases err with
  | some e =>
    cases sec with
    | none =>
      refine ⟨_, rfl, ⟨fun _ => Or.inl (fun c => Option.noConfusion c),
        fun _ c => Option.noConfusion c⟩, ?_, ?_⟩
      · intro e1 he; cases he; rfl
      · intro _ hc; cases hc
    | some sc =>
      refine ⟨_, rfl, ⟨fun _ => Or.inl (fun c => Option.noConfusion c),
        fun _ c => Option.noConfusion c⟩, ?_, ?_⟩
      · intro e1 he; cases he; rfl
      · intro _ hc; cases hc
  | none =>
    cases sec with
    | none =>
      refine ⟨_, rfl, ⟨fun _ => Or.inr (Or.inl rfl), fun _ c => Option.noConfusion c⟩, ?_, ?_⟩
      · intro e1 he; cases he
      · intro _ _ hc; cases hc
    | some secret =>
      obtain ⟨d⟩ := secret
      cases d with
      | none =>
        refine ⟨_, rfl, ⟨fun _ => Or.inr (Or.inr (Or.inl rfl)),
          fun _ c => Option.noConfusion c⟩, ?_, ?_⟩
        · intro e1 he; cases he
        · intro _ _ hc; cases hc
      | some data =>
        simp only
        have hs : ∀ x, fieldOf data s.key = some x → ∃ v, x = DocValue.str v :=
          fun x hx => hstr data x rfl rfl hx
        cases hd : List.lookup "data".toList data with
        | none =>
          simp only
          cases hk : List.lookup s.key data with
          | none =>
            refine ⟨_, rfl, ⟨fun _ => ?_, fun _ c => Option.noConfusion c⟩, ?_, ?_⟩
            · exact Or.inr (Or.inr (Or.inr (Or.inr (Or.inr ⟨data, rfl, hd, hk⟩))))
            · intro e1 he; cases he
            · intro _ _ _ _; rfl
          | some val =>
            have hf : fieldOf data s.key = some val := by
              unfold fieldOf; rw [hd]; exact hk
            obtain ⟨v, hv⟩ := hs val hf
            subst hv
            refine ⟨_, rfl, ⟨fun h => absurd rfl h, ?_⟩, ?_, ?_⟩
            · rintro (h | h | h | ⟨d1, val, h, h2, _⟩ | ⟨d1, m, h, h2, _⟩ | ⟨d1, h, _, h3⟩)
              · exact absurd rfl h
              · cases h
              · cases h
              · cases h; rw [hd] at h2; cases h2
              · cases h; rw [hd] at h2; cases h2
              · cases h; rw [hk] at h3; cases h3
            · intro e1 he; cases he
            · rintro d1 _ h (⟨m, h2, _⟩ | ⟨_, h3⟩)
              · cases h; rw [hd] at h2; cases h2
              · cases h; rw [hk] at h3; cases h3
        | some val =>
          have notmap : (∀ m, val ≠ DocValue.map m) →
              (∀ (e : Str) (r : Retrieved σ), r = ⟨some e, s, st1⟩ →
                (r.err ≠ none ↔
                  ((none : Option Str) ≠ none ∨ (some (⟨some data⟩ : ApiSecret)) = none ∨
                   some (⟨some data⟩ : ApiSecret) = some ⟨none⟩ ∨
                   (∃ data1 val, some (⟨some data⟩ : ApiSecret) = some ⟨some data1⟩ ∧
                      List.lookup "data".toList data1 = some val ∧
                      ∀ m, val ≠ DocValue.map m) ∨
                   (∃ data1 m, some (⟨some data⟩ : ApiSecret) = some ⟨some data1⟩ ∧
                      List.lookup "data".toList data1 = some (DocValue.map m) ∧
                      List.lookup s.key m = none) ∨
                   (∃ data1, some (⟨some data⟩ : ApiSecret) = some ⟨some data1⟩ ∧
                      List.lookup "data".toList data1 = none ∧
                      List.lookup s.key data1 = none))) ∧
                (∀ e1, (none : Option Str) = some e1 → r.err = some ("failed to fetch secret '".toList
                  ++ s.path ++ "' from Vault: ".toList ++ e1)) ∧
                (∀ data1, True →
                  some (⟨some data⟩ : ApiSecret) = some ⟨some data1⟩ →
                  ((∃ m, List.lookup "data".toList data1 = some (DocValue.map m) ∧
                      List.lookup s.key m = none) ∨
                   (List.lookup "data".toList data1 = none ∧ List.lookup s.key data1 = none)) →
                  r.err = some ("secret data for path ".toList ++ s.path ++
                    " does not contain key ".toList ++ s.key))) := by
            intro hnm e r hre
            subst hre
            refine ⟨⟨fun _ => ?_, fun _ c => Option.noConfusion c⟩, ?_, ?_⟩
            · exact Or.inr (Or.inr (Or.inr (Or.inl ⟨data, val, rfl, hd, hnm⟩)))
            · intro e1 he; cases he
            · rintro d1 _ h (⟨m, h2, _⟩ | ⟨h2, _⟩)
              · cases h; rw [hd] at h2; cases h2; exact absurd rfl (hnm m)
              · cases h; rw [hd] at h2; cases h2
          cases val with
          | map m =>
            simp only
            cases hk : List.lookup s.key m with
            | none =>
              refine ⟨_, rfl, ⟨fun _ => ?_, fun _ c => Option.noConfusion c⟩, ?_, ?_⟩
              · exact Or.inr (Or.inr (Or.inr (Or.inr (Or.inl ⟨data, m, rfl, hd, hk⟩))))
              · intro e1 he; cases he
              · intro _ _ _ _; rfl
            | some x =>
              have hf : fieldOf data s.key = some x := by
                unfold fieldOf; rw [hd]; exact hk
              obtain ⟨v, hv⟩ := hs x hf
              subst hv
              refine ⟨_, rfl, ⟨fun h => absurd rfl h, ?_⟩, ?_, ?_⟩
              · rintro (h | h | h | ⟨d1, val, h, h2, h3⟩ | ⟨d1, m1, h, h2, h3⟩ | ⟨d1, h, h2, _⟩)
                · exact absurd rfl h
                · cases h
                · cases h
                · cases h; rw [hd] at h2; cases h2; exact absurd rfl (h3 m)
                · cases h; rw [hd] at h2; cases h2; rw [hk] at h3; cases h3
                · cases h; rw [hd] at h2; cases h2
              · intro e1 he; cases he
              · rintro d1 _ h (⟨m1, h2, h3⟩ | ⟨h2, _⟩)
                · cases h; rw [hd] at h2; cases h2; rw [hk] at h3; cases h3
                · cases h; rw [hd] at h2; cases h2
          | str _ => exact ⟨_, rfl, notmap (fun m c => DocValue.noConfusion c) _ _ rfl⟩
          | num _ => exact ⟨_, rfl, notmap (fun m c => DocValue.noConfusion c) _ _ rfl⟩
          | bool _ => exact ⟨_, rfl, notmap (fun m c => DocValue.noConfusion c) _ _ rfl⟩
          | null => exact ⟨_, rfl, notmap (fun m c => DocValue.noConfusion c) _ _ rfl⟩
          | list _ => exact ⟨_, rfl, notmap (fun m c => DocValue.noConfusion c) _ _ rfl⟩


/-- C17, at the document and the reference of the test of `Run` with a secret that is not
resolved: the document has the single field `key`, the reference asks for `invalid`. -/
theorem C17_Retrieve_error_iff_witness :
    ∃ r, VaultSecret.Retrieve fmtNone ⟨"secret/invalid".toList, "invalid".toList, []⟩
        (constVault (some ⟨some [("key".toList, DocValue.str "value1".toList)]⟩, none)) ()
        = Go.ret r ∧
      r.err = some "secret data for path secret/invalid does not contain key invalid".toList := by
  obtain ⟨r, h1, _, _, h4⟩ := C17_Retrieve_error_iff fmtNone
    ⟨"secret/invalid".toList, "invalid".toList, []⟩
    (constVault (some ⟨some [("key".toList, DocValue.str "value1".toList)]⟩, none)) () ()
    (some ⟨some [("key".toList, DocValue.str "value1".toList)]⟩) none rfl
    (by
      intro data x hd _ hf
      cases hd
      have hn : fieldOf [("key".toList, DocValue.str "value1".toList)]
          (VaultSecret.Key ⟨"secret/invalid".toList, "invalid".toList, []⟩) = none := rfl
      rw [hn] at hf
      cases hf)
  exact ⟨r, h1, h4 _ rfl rfl (Or.inr ⟨rfl, rfl⟩)⟩

/-! ## Flat documents with a member `data` -/

/-- C20 fails on a flat document with a field named `data`: for the key `k` of the document
with the fields `data` and `k`, both strings, and for the key `data` of the document with
the single field `data`, `Retrieve` returns the error of a malformed envelope and leaves
the value as it was. -/
theorem C20_counterexample :
    VaultSecret.Retrieve fmtNone ⟨"secret/a".toList, "k".toList, "f".toList⟩
        (constVault (some ⟨some [("data".toList, DocValue.str "x".toList),
          ("k".toList, DocValue.str "v".toList)]⟩, none)) ()
      = Go.ret ⟨some "could not parse KV v2 secret data: ".toList,
          ⟨"secret/a".toList, "k".toList, "f".toList⟩, ()⟩ ∧
    VaultSecret.Retrieve fmtNone ⟨"secret/a".toList, "data".toList, "f".toList⟩
        (constVault (some ⟨some [("data".toList, DocValue.str "v".toList)]⟩, none)) ()
      = Go.ret ⟨some "could not parse KV v2 secret data: ".toList,
          ⟨"secret/a".toList, "data".toList, "f".toList⟩, ()⟩ := by
  decide

/-- C20, amended: let the store return a document that holds the string `v` for the key
at top level. When the document has no member `data`, `Retrieve` returns no error and sets
the value to `v`. When it has a member `data` that is no mapping, which is so when the key
itself is `data`, `Retrieve` returns the error `could not parse KV v2 secret data` with the
member, and leaves the secret as it was. When the member `data` is a mapping without the
key, `Retrieve` returns the error of a missing field. -/
theorem C20_flat_document_and_data_member {σ : Type} (fmtV : DocValue → Str)
    (s : VaultSecret) (client : Vault σ) (st st1 : σ) (data : Document) (v : Str)
    (hr : client.Read st s.Path = ((some ⟨some data⟩, none), st1))
    (hk : List.lookup s.Key data = some (DocValue.str v)) :
    (List.lookup "data".toList data = none →
      s.Retrieve fmtV client st = Go.ret ⟨none, s.SetValue v, st1⟩ ∧
      (s.SetValue v).Value = v) ∧
    (∀ val, List.lookup "data".toList data = some val → (∀ m, val ≠ DocValue.map m) →
      s.Retrieve fmtV client st =
        Go.ret ⟨some ("could not parse KV v2 secret data: ".toList ++ fmtV val), s, st1⟩) ∧
    (s.Key = "data".toList →
      s.Retrieve fmtV client st =
        Go.ret ⟨some ("could not parse KV v2 secret data: ".toList ++ fmtV (DocValue.str v)),
          s, st1⟩) ∧
    (∀ m, List.lookup "data".toList data = some (DocValue.map m) →
      List.lookup s.Key m = none →
      s.Retrieve fmtV client st =
        Go.ret ⟨some ("secret data for path ".toList ++ s.Path ++
          " does not contain key ".toList ++ s.Key), s, st1⟩) := by
  have hr1 : client.Read st s.path = ((some ⟨some data⟩, none), st1) := hr
  have hnm : ∀ val, List.lookup "data".toList data = some val → (∀ m, val ≠ DocValue.map m) →
      s.Retrieve fmtV client st =
        Go.ret ⟨some ("could not parse KV v2 secret data: ".toList ++ fmtV val), s, st1⟩ := by
    intro val hd hm
    unfold VaultSecret.Retrieve
    rw [hr1]
    cases val with
    | map m => exact absurd rfl (hm m)
    | str _ => simp only [hd]
    | num _ => simp only [hd]
    | bool _ => simp only [hd]
    | null => simp only [hd]
    | list _ => simp only [hd]
  refine ⟨fun hd => ⟨Retrieve_success fmtV s client st st1 data v hr1 ?_, rfl⟩, hnm, ?_, ?_⟩
  · unfold fieldOf
    rw [hd]
    exact hk
  · intro hkey
    rw [hkey] at hk
    exact hnm _ hk (fun m c => DocValue.noConfusion c)
  · intro m hd hkm
    have hkm1 : List.lookup s.key m = none := hkm
    unfold VaultSecret.Retrieve
    rw [hr1]
    simp only [hd, hkm1]
    rfl

/-- C20, amended, at the flat document of the tests, which has no member `data`: the
reference `secret/example!testKey` gets the value `testValue`. -/
theorem C20_flat_document_and_data_member_witness :
    VaultSecret.Retrieve fmtNone ⟨"secret/example".toList, "testKey".toList, []⟩
        (constVault (some ⟨some [("testKey".toList, DocValue.str "testValue".toList)]⟩, none)) ()
      = Go.ret ⟨none, ⟨"secret/example".toList, "testKey".toList, "testValue".toList⟩, ()⟩ :=
  ((C20_flat_document_and_data_member fmtNone ⟨"secret/example".toList, "testKey".toList, []⟩
      (constVault (some ⟨some [("testKey".toList, DocValue.str "testValue".toList)]⟩, none))
      () () [("testKey".toList, DocValue.str "testValue".toList)] "testValue".toList
      rfl rfl).1 rfl).1


/-! ## `Run` -/

theorem runRender_spec {σ : Type} (coe : Bool) (later : FileSystem) (order : RangeOrder)
    (template : TemplateFile) (secrets : Option SecretMap) (outputFile : Str)
    (logged : List Str) (st : σ) :
    ((runRender coe later order template secrets outputFile logged st).err ≠ none ↔
      coe = false ∧
        (template.RenderSecrets later order (secrets.getD []) outputFile).err ≠ none) ∧
    (runRender coe later order template secrets outputFile logged st).written =
      (template.RenderSecrets later order (secrets.getD []) outputFile).written ∧
    (runRender coe later order template secrets outputFile logged st).store = st ∧
    (coe = true → (runRender coe later order template secrets outputFile logged st).logged =
      logged ++ logLine "failed rendering secrets: ".toList
        (template.RenderSecrets later order (secrets.getD []) outputFile).err
        "; continuing".toList) := by
  unfold runRender
  dsimp only
  cases he : (template.RenderSecrets later order (secrets.getD []) outputFile).err with
  | none =>
    refine ⟨⟨fun h => absurd rfl h, fun h => absurd rfl h.2⟩, rfl, rfl, fun _ => ?_⟩
    simp only [logLine, List.append_nil]
  | some e =>
    cases coe with
    | true =>
      refine ⟨⟨fun h => absurd rfl h, fun h => Bool.noConfusion h.1⟩, rfl, rfl, fun _ => ?_⟩
      simp only [logLine, if_true, List.append_assoc]
    | false =>
      exact ⟨⟨fun _ => ⟨rfl, fun c => Option.noConfusion c⟩, fun _ c => Option.noConfusion c⟩,
        rfl, rfl, fun h => Bool.noConfusion h⟩

/-- What `RenderSecrets` returns: the error of reading the template; or, the template read,
the error of the write with the path of the output, or nil when the write succeeds. -/
theorem RenderSecrets_outcome (fs : FileSystem) (order : RangeOrder) (t : TemplateFile)
    (secrets : SecretMap) (out : Str) :
    (∀ e, fs.ReadFile t.path = Result.err e →
      t.RenderSecrets fs order secrets out = ⟨none, some e⟩) ∧
    (∀ T, fs.ReadFile t.path = Result.ok T →
      (t.RenderSecrets fs order secrets out).written =
        some (renderLoop T (order.visit secrets)) ∧
      (∀ e, fs.WriteFile out (renderLoop T (order.visit secrets)) = some e →
        (t.RenderSecrets fs order secrets out).err =
          some ("failed writing to file '".toList ++ out ++ "': ".toList ++ e)) ∧
      (fs.WriteFile out (renderLoop T (order.visit secrets)) = none →
        (t.RenderSecrets fs order secrets out).err = none)) := by
  unfold TemplateFile.RenderSecrets
  constructor
  · intro e he
    rw [he]
  · intro T hT
    rw [hT]
    simp only
    cases hw : fs.WriteFile out (renderLoop T (order.visit secrets)) with
    | none => exact ⟨rfl, fun e he => Option.noConfusion he, fun _ => rfl⟩
    | some e1 =>
      refine ⟨rfl, fun e he => ?_, fun h => Option.noConfusion h⟩
      cases he
      rfl

/-- The claim C19 as stated fails: on the template `pw={{secret/a!k}}` and the store whose
document at `secret/a` holds a number for `k`, `Run` aborts, with continue-on-error set and
unset: it returns neither nil nor an error. -/
theorem C19_counterexample :
    Run fmtNone orderAsListed orderAsListed true numberHost numberHost.toFileSystem
      numberClient [] ⟨"in".toList, "out".toList, []⟩ = Go.abort ∧
    Run fmtNone orderAsListed orderAsListed false numberHost numberHost.toFileSystem
      numberClient [] ⟨"in".toList, "out".toList, []⟩ = Go.abort := by
  decide

/-- C19, amended: when the resolution, where `Run` reaches it, returns (no retrieval
aborts), `Run` returns, and it returns
an error exactly when the creation of the template fails, or the reading of the
placeholders fails, or continue-on-error is unset and the authentication, the resolution or
the rendering fails. With continue-on-error unset, an error of the resolution makes `Run`
return an error that begins with `failed resolving secrets` and nothing is written. With
continue-on-error set, `Run` returns nil, the failures of authentication, resolution and
rendering are logged, and what is written is what the rendering of the secrets returned by
the resolution writes. The rendering fails with the error of reading the template, or, the
template read, with `failed writing to file`, the path of the output and the error of the
write; it succeeds when the write does. -/
theorem C19_Run_error_iff {σ : Type} (fmtV : DocValue → Str) (order1 order2 : RangeOrder)
    (continueOnError : Bool) (files : HostFiles) (later : FileSystem) (client : AuthVault σ)
    (st : σ) (config : talebearerConfig) (res : Resolved σ)
    (hres : ∀ contents, files.StatNotExist config.inputFile = false →
      files.ReadFile config.inputFile = Result.ok contents →
      (continueOnError = true ∨ (client.Authenticate st config.vaultRole).1 = none) →
      SecretResolver.Resolve fmtV order1 ⟨client.toVault, NewSecret⟩
        (FindAllString matcher contents) (client.Authenticate st config.vaultRole).2 =
        Go.ret res) :
    (∃ r, Run fmtV order1 order2 continueOnError files later client st config = Go.ret r ∧
      (r.err ≠ none ↔
        (files.StatNotExist config.inputFile = true ∨
         (∃ e, files.ReadFile config.inputFile = Result.err e) ∨
         (continueOnError = false ∧
            ((client.Authenticate st config.vaultRole).1 ≠ none ∨ res.err ≠ none ∨
             (TemplateFile.RenderSecrets later order2 ⟨config.inputFile⟩
                (res.secrets.getD []) config.outputFile).err ≠ none)))) ∧
      (files.StatNotExist config.inputFile = false →
        (∃ contents, files.ReadFile config.inputFile = Result.ok contents) →
        continueOnError = false → (client.Authenticate st config.vaultRole).1 = none →
        ∀ e, res.err = some e →
          r.err = some ("failed resolving secrets: ".toList ++ e ++ "; exiting".toList) ∧
          r.written = none) ∧
      (files.StatNotExist config.inputFile = false →
        (∃ contents, files.ReadFile config.inputFile = Result.ok contents) →
        continueOnError = true →
          r.err = none ∧
          r.written = (TemplateFile.RenderSecrets later order2 ⟨config.inputFile⟩
            (res.secrets.getD []) config.outputFile).written ∧
          r.logged =
            logLine "failed authenticating with Vault: ".toList
              (client.Authenticate st config.vaultRole).1 [] ++
            logLine "failed resolving secrets: ".toList res.err "; continuing".toList ++
            logLine "failed rendering secrets: ".toList
              (TemplateFile.RenderSecrets later order2 ⟨config.inputFile⟩
                (res.secrets.getD []) config.outputFile).err "; continuing".toList)) ∧
    (∀ e, later.ReadFile config.inputFile = Result.err e →
      TemplateFile.RenderSecrets later order2 ⟨config.inputFile⟩ (res.secrets.getD [])
        config.outputFile = ⟨none, some e⟩) ∧
    (∀ T, later.ReadFile config.inputFile = Result.ok T →
      (TemplateFile.RenderSecrets later order2 ⟨config.inputFile⟩ (res.secrets.getD [])
        config.outputFile).written =
        some (renderLoop T (order2.visit (res.secrets.getD []))) ∧
      (∀ e, later.WriteFile config.outputFile
          (renderLoop T (order2.visit (res.secrets.getD []))) = some e →
        (TemplateFile.RenderSecrets later order2 ⟨config.inputFile⟩ (res.secrets.getD [])
          config.outputFile).err =
          some ("failed writing to file '".toList ++ config.outputFile ++ "': ".toList ++ e)) ∧
      (later.WriteFile config.outputFile
          (renderLoop T (order2.visit (res.secrets.getD []))) = none →
        (TemplateFile.RenderSecrets later order2 ⟨config.inputFile⟩ (res.secrets.getD [])
          config.outputFile).err = none)) := by
  refine ⟨?_, RenderSecrets_outcome later order2 ⟨config.inputFile⟩ (res.secrets.getD [])
    config.outputFile⟩
  unfold Run NewTemplateFile
  cases hs : files.StatNotExist config.inputFile with
  | true =>
    simp only [if_true]
    refine ⟨_, rfl, ⟨fun _ => Or.inl trivial, fun _ c => Option.noConfusion c⟩, ?_, ?_⟩
    · intro h; cases h
    · intro h; cases h
  | false =>
    simp only [Bool.false_eq_true, if_false, TemplateFile.FindPlaceholders]
    cases hf : files.ReadFile config.inputFile with
    | err e =>
      simp only
      refine ⟨_, rfl, ⟨fun _ => Or.inr (Or.inl ⟨e, rfl⟩), fun _ c => Option.noConfusion c⟩,
        ?_, ?_⟩
      · rintro _ ⟨c, hc⟩; cases hc
      · rintro _ ⟨c, hc⟩; cases hc
    | ok contents =>
      simp only
      have hres1 := hres contents hs hf
      rcases hA : client.Authenticate st config.vaultRole with ⟨ae, st1⟩
      rw [hA] at hres1
      simp only at hres1 ⊢
      have key : ∀ (logged : List Str), (continueOnError = true ∨ ae = none) →
          ∃ r, runResolve fmtV order1 order2 continueOnError later client.toVault
              ⟨config.inputFile⟩ (FindAllString matcher contents) config.outputFile logged st1 =
              Go.ret r ∧
            (r.err ≠ none ↔ continueOnError = false ∧ (res.err ≠ none ∨
              (TemplateFile.RenderSecrets later order2 ⟨config.inputFile⟩
                (res.secrets.getD []) config.outputFile).err ≠ none)) ∧
            (continueOnError = false → ∀ e, res.err = some e →
              r.err = some ("failed resolving secrets: ".toList ++ e ++ "; exiting".toList) ∧
              r.written = none) ∧
            (continueOnError = true →
              r.written = (TemplateFile.RenderSecrets later order2 ⟨config.inputFile⟩
                (res.secrets.getD []) config.outputFile).written ∧
              r.logged = logged ++
                logLine "failed resolving secrets: ".toList res.err "; continuing".toList ++
                logLine "failed rendering secrets: ".toList
                  (TemplateFile.RenderSecrets later order2 ⟨config.inputFile⟩
                    (res.secrets.getD []) config.outputFile).err "; continuing".toList) := by
        intro logged hc
        unfold runResolve
        rw [hres1 hc, Go_bind_ret]
        cases hre : res.err with
        | none =>
          simp only
          have hsp := runRender_spec continueOnError later order2 ⟨config.inputFile⟩
            res.secrets config.outputFile logged res.store
          refine ⟨_, rfl, ?_, ?_, ?_⟩
          · rw [hsp.1]
            constructor
            · exact fun h => ⟨h.1, Or.inr h.2⟩
            · rintro ⟨h1, h2 | h2⟩
              · exact absurd rfl h2
              · exact ⟨h1, h2⟩
          · intro _ e he; cases he
          · intro hcoe
            refine ⟨hsp.2.1, ?_⟩
            rw [hsp.2.2.2 hcoe]
            simp only [logLine, List.append_nil]
        | some e =>
          cases hcoe : continueOnError with
          | false =>
            simp only [Bool.false_eq_true, if_false]
            refine ⟨_, rfl, ⟨fun _ => ⟨trivial, Or.inl (fun c => Option.noConfusion c)⟩,
              fun _ c => Option.noConfusion c⟩, ?_, ?_⟩
            · intro _ e1 he
              cases he
              exact ⟨rfl, rfl⟩
            · intro h; cases h
          | true =>
            simp only [if_true]
            have hsp := runRender_spec true later order2 ⟨config.inputFile⟩
              res.secrets config.outputFile
              (logged ++ ["failed resolving secrets: ".toList ++ e ++ "; continuing".toList])
              res.store
            refine ⟨_, rfl, ?_, ?_, ?_⟩
            · rw [hsp.1]
              constructor
              · exact fun h => Bool.noConfusion h.1
              · exact fun h => Bool.noConfusion h.1
            · intro h; cases h
            · intro _
              refine ⟨hsp.2.1, ?_⟩
              rw [hsp.2.2.2 rfl]
              simp only [logLine]
      cases ae with
      | none =>
        simp only
        obtain ⟨r, hr, h1, h2, h3⟩ := key [] (Or.inr rfl)
        refine ⟨r, hr, ?_, ?_, ?_⟩
        · rw [h1]
          constructor
          · rintro ⟨hc, h⟩
            exact Or.inr (Or.inr ⟨hc, Or.inr h⟩)
          · rintro (h | ⟨e, h⟩ | ⟨hc, h | h⟩)
            · cases h
            · cases h
            · exact absurd rfl h
            · exact ⟨hc, h⟩
        · intro _ _ hc _ e he
          exact h2 hc e he
        · intro _ _ hc
          have hnone : r.err = none := by
            by_contra hne
            have := (h1.1 hne).1
            rw [hc] at this
            cases this
          refine ⟨hnone, (h3 hc).1, ?_⟩
          rw [(h3 hc).2]
          simp only [logLine, List.nil_append]
      | some e =>
        simp only
        cases hcoe : continueOnError with
        | false =>
          simp only [Bool.false_eq_true, if_false]
          refine ⟨_, rfl, ⟨fun _ => Or.inr (Or.inr ⟨trivial, Or.inl (fun c => Option.noConfusion c)⟩),
            fun _ c => Option.noConfusion c⟩, ?_, ?_⟩
          · intro _ _ _ h; cases h
          · intro _ _ h; cases h
        | true =>
          simp only [if_true]
          obtain ⟨r, hr, h1, _, h3⟩ := key ["failed authenticating with Vault: ".toList ++ e]
            (Or.inl hcoe)
          rw [hcoe] at hr h1 h3
          refine ⟨r, hr, ?_, ?_, ?_⟩
          · rw [h1]
            constructor
            · exact fun h => Bool.noConfusion h.1
            · rintro (h | ⟨e1, h⟩ | ⟨hc, _⟩)
              · cases h
              · cases h
              · cases hc
          · intro _ _ h; cases h
          · intro _ _ _
            have hnone : r.err = none := by
              by_contra hne
              exact Bool.noConfusion (h1.1 hne).1
            refine ⟨hnone, (h3 rfl).1, ?_⟩
            rw [(h3 rfl).2]
            simp only [logLine, List.append_nil]


/-- C19 as amended, on the example template, whose reference `x!y` the example store does
not hold. With continue-on-error unset `Run` returns the error of the resolution and writes
nothing. With continue-on-error set and files on which no write succeeds, `Run` returns
nil, hands the template as it is to the write, and logs the failure of the resolution and
the failure of the write. -/
theorem C19_Run_error_iff_witness :
    (∃ r, Run fmtNone orderAsListed orderAsListed false exampleHost exampleFiles exampleClient []
        ⟨"in".toList, "out".toList, []⟩ = Go.ret r ∧
      r.err = some ("failed resolving secrets: ".toList ++
        "[\"failed to fetch secret 'x' from Vault: not found\"]".toList ++
        "; exiting".toList) ∧
      r.written = none) ∧
    (∃ r, Run fmtNone orderAsListed orderAsListed true exampleHost readOnlyFiles exampleClient []
        ⟨"in".toList, "out".toList, []⟩ = Go.ret r ∧
      r.err = none ∧
      r.written = some "user=\x7b\x7bx!y\x7d\x7d;admin=\x7b\x7bx!y\x7d\x7d".toList ∧
      r.logged = ["failed resolving secrets: [\"failed to fetch secret 'x' from Vault: not found\"]; continuing".toList,
        "failed rendering secrets: failed writing to file 'out': permission denied; continuing".toList]) := by
  have hread : ∀ c, exampleHost.ReadFile "in".toList = Result.ok c →
      c = "user=\x7b\x7bx!y\x7d\x7d;admin=\x7b\x7bx!y\x7d\x7d".toList := by
    intro c hc
    have h0 : exampleHost.ReadFile "in".toList =
        Result.ok "user=\x7b\x7bx!y\x7d\x7d;admin=\x7b\x7bx!y\x7d\x7d".toList := by decide
    rw [h0] at hc
    cases hc
    rfl
  constructor
  · obtain ⟨⟨r, hr, _, h2, _⟩, _⟩ := C19_Run_error_iff fmtNone orderAsListed orderAsListed false
      exampleHost exampleFiles exampleClient [] ⟨"in".toList, "out".toList, []⟩
      ⟨some [("\x7b\x7bx!y\x7d\x7d".toList, ⟨"x".toList, "y".toList, []⟩)],
        some "[\"failed to fetch secret 'x' from Vault: not found\"]".toList, ["x".toList]⟩
      (by
        intro c _ hc _
        rw [hread c hc]
        decide)
    exact ⟨r, hr, h2 (by decide)
      ⟨"user=\x7b\x7bx!y\x7d\x7d;admin=\x7b\x7bx!y\x7d\x7d".toList, by decide⟩ rfl rfl _ rfl⟩
  · obtain ⟨⟨r, hr, _, _, h3⟩, _, hw⟩ := C19_Run_error_iff fmtNone orderAsListed orderAsListed
      true exampleHost readOnlyFiles exampleClient [] ⟨"in".toList, "out".toList, []⟩
      ⟨some [("\x7b\x7bx!y\x7d\x7d".toList, ⟨"x".toList, "y".toList, []⟩)],
        some "[\"failed to fetch secret 'x' from Vault: not found\"]".toList, ["x".toList]⟩
      (by
        intro c _ hc _
        rw [hread c hc]
        decide)
    obtain ⟨h4, h5, h6⟩ := h3 (by decide)
      ⟨"user=\x7b\x7bx!y\x7d\x7d;admin=\x7b\x7bx!y\x7d\x7d".toList, by decide⟩ rfl
    obtain ⟨hw1, hw2, _⟩ := hw "user=\x7b\x7bx!y\x7d\x7d;admin=\x7b\x7bx!y\x7d\x7d".toList
      (by decide)
    have hw3 := hw2 "permission denied".toList rfl
    refine ⟨r, hr, h4, ?_, ?_⟩
    · rw [h5, hw1]
      decide
    · rw [h6, hw3]
      decide


/-! ## Rendering does not depend on the order, on plain templates -/

/-- The claim C21 as stated fails: from the template `{{{{a!b}} {{a!b}}` the placeholders
`{{{{a!b}}` and `{{a!b}}` are found; with both resolved to `v`, rendering in the order
listed writes `v v`, and rendering in the reverse order writes `{{v v`. -/
theorem C21_counterexample :
    TemplateFile.FindPlaceholders nestedFiles ⟨"in".toList⟩ =
      Result.ok ["\x7b\x7b\x7b\x7ba!b\x7d\x7d".toList, "\x7b\x7ba!b\x7d\x7d".toList] ∧
    (TemplateFile.RenderSecrets nestedFiles orderAsListed ⟨"in".toList⟩ nestedSecrets
      "out".toList).written = some "v v".toList ∧
    (TemplateFile.RenderSecrets nestedFiles orderReversed ⟨"in".toList⟩ nestedSecrets
      "out".toList).written = some "\x7b\x7bv v".toList := by
  decide


theorem braceFree_iff (s : Str) :
    braceFree s = true ↔ ∀ c ∈ s, c ≠ '\x7b' ∧ c ≠ '\x7d' := by
  simp [braceFree, List.all_eq_true]

theorem PlainHole_ne_nil (p : Str) (h : PlainHole p) : p ≠ [] := by
  obtain ⟨ip, e, _⟩ := h
  rw [e]
  exact List.cons_ne_nil _ _

/-- A text without opening brace holds no beginning of a plain placeholder. -/
theorem replaceLoop_text (p v g rest : Str) (hp : PlainHole p)
    (hg : ∀ c ∈ g, c ≠ '\x7b') :
    replaceLoop p v 0 (g ++ rest) = g ++ replaceLoop p v 0 rest := by
  obtain ⟨ip, e, _⟩ := hp
  induction g with
  | nil => rfl
  | cons c cs ih =>
    have hc : c ≠ '\x7b' := hg c (List.mem_cons_self _ _)
    have hnp : ¬ p <+: c :: (cs ++ rest) := by
      rw [e]
      rintro ⟨t, ht⟩
      simp only [List.cons_append, List.cons.injEq] at ht
      exact hc ht.1.symm
    show replaceLoop p v 0 (c :: (cs ++ rest)) = c :: (cs ++ replaceLoop p v 0 rest)
    rw [replaceLoop, if_neg hnp, ih (fun d hd => hg d (List.mem_cons_of_mem _ hd))]

/-- A plain placeholder at the head of a text is all of the plain placeholder that begins
there. -/
theorem PlainHole_isPrefix_eq (p q rest : Str) (hp : PlainHole p) (hq : PlainHole q)
    (h : p <+: q ++ rest) : p = q := by
  obtain ⟨ip, ep, hip⟩ := hp
  obtain ⟨iq, eq, hiq⟩ := hq
  obtain ⟨t, ht⟩ := h
  rw [ep, eq] at ht
  simp only [List.cons_append, List.cons.injEq, true_and, List.append_assoc] at ht
  have h1 := (beforeFirst_append '\x7d' ip ('\x7d' :: t)
    (fun c => ((braceFree_iff ip).1 hip _ c).2 rfl)).1
  have h2 := (beforeFirst_append '\x7d' iq ('\x7d' :: rest)
    (fun c => ((braceFree_iff iq).1 hiq _ c).2 rfl)).1
  have e1 : ip ++ '\x7d' :: '\x7d' :: t = iq ++ '\x7d' :: '\x7d' :: rest := by
    simpa using ht
  rw [e1, h2] at h1
  rw [ep, eq, h1]

/-- Another plain placeholder is passed over as it is. -/
theorem replaceLoop_other_hole (p v q rest : Str) (hp : PlainHole p) (hq : PlainHole q)
    (hne : q ≠ p) :
    replaceLoop p v 0 (q ++ rest) = q ++ replaceLoop p v 0 rest := by
  have h0 : ¬ p <+: q ++ rest := fun c => hne (PlainHole_isPrefix_eq p q rest hp hq c).symm
  obtain ⟨iq, eq, hiq⟩ := hq
  have hp1 := hp
  obtain ⟨ip, ep, _⟩ := hp1
  have h1 : ¬ p <+: '\x7b' :: (iq ++ ['\x7d', '\x7d'] ++ rest) := by
    rw [ep]
    rintro ⟨t, ht⟩
    simp only [List.cons_append, List.cons.injEq, true_and] at ht
    cases iq with
    | nil =>
      simp only [List.nil_append, List.cons_append, List.cons.injEq] at ht
      exact absurd ht.1 (by decide)
    | cons c cs =>
      simp only [List.cons_append, List.cons.injEq] at ht
      exact ((braceFree_iff _).1 hiq c (List.mem_cons_self _ _)).1 ht.1.symm
  have htail : ∀ c ∈ iq ++ ['\x7d', '\x7d'], c ≠ '\x7b' := by
    intro c hc
    rcases List.mem_append.1 hc with h | h
    · exact ((braceFree_iff _).1 hiq c h).1
    · intro e
      subst e
      simp at h
  rw [eq] at h0 ⊢
  simp only [List.cons_append] at h0 ⊢
  rw [replaceLoop, if_neg h0, replaceLoop, if_neg h1,
    replaceLoop_text p v (iq ++ ['\x7d', '\x7d']) rest hp htail]

/-- The placeholder itself is replaced. -/
theorem replaceLoop_same_hole (p v rest : Str) (hp : p ≠ []) :
    replaceLoop p v 0 (p ++ rest) = v ++ replaceLoop p v 0 rest := by
  have h := replaceLoop_first p v [] rest hp (by
    rw [List.nil_append]
    exact not_infix_dropLast p hp)
  simpa using h

theorem lookup_single (q p : Str) (s : VaultSecret) :
    List.lookup q [(p, s)] = if q = p then some s else none := by
  by_cases h : q = p
  · subst h
    simp [List.lookup]
  · have hb : (q == p) = false := by simpa using h
    simp [List.lookup, hb, h]

/-- One turn of the loop of `RenderSecrets` on a plain template fills the placeholders that
are the key of the entry. -/
theorem renderStep_assemble (pieces : List Piece) (e : Str × VaultSecret)
    (hpc : ∀ pc ∈ pieces, pc.Plain) (hk : PlainHole e.1) :
    renderStep (assemble pieces) e = assemble (pieces.map (fill [e])) := by
  obtain ⟨p, s⟩ := e
  unfold renderStep
  by_cases hv : s.Value = []
  · rw [if_pos hv]
    congr 1
    symm
    rw [List.map_id'']
    intro pc
    cases pc with
    | text g => rfl
    | hole q =>
      simp only [fill, lookup_single]
      by_cases hq : q = p
      · rw [if_pos hq]
        simp only [hv, if_true]
      · rw [if_neg hq]
  · rw [if_neg hv]
    simp only
    rw [ReplaceAll_eq_loop _ p _ (PlainHole_ne_nil p hk)]
    induction pieces with
    | nil => rfl
    | cons pc rest ih =>
      have ih1 := ih (fun x hx => hpc x (List.mem_cons_of_mem _ hx))
      have hpl := hpc pc (List.mem_cons_self _ _)
      have ea : assemble (pc :: rest) = pc.str ++ assemble rest := by
        simp [assemble]
      have eb : assemble ((pc :: rest).map (fill [(p, s)])) =
          (fill [(p, s)] pc).str ++ assemble (rest.map (fill [(p, s)])) := by
        simp [assemble]
      rw [ea, eb, ← ih1]
      cases pc with
      | text g =>
        exact replaceLoop_text p s.Value g _ hk
          (fun c hc => ((braceFree_iff g).1 hpl c hc).1)
      | hole q =>
        simp only [fill, lookup_single, Piece.str]
        by_cases hq : q = p
        · rw [if_pos hq]
          simp only [hv, if_false, Piece.str]
          rw [hq]
          exact replaceLoop_same_hole p s.Value _ (PlainHole_ne_nil p hk)
        · rw [if_neg hq]
          exact replaceLoop_other_hole p s.Value q _ hk hpl hq


theorem lookup_cons_same (q : Str) (s : VaultSecret) (rest : SecretMap) :
    List.lookup q ((q, s) :: rest) = some s := by
  simp [List.lookup]

theorem lookup_cons_other (q p : Str) (s : VaultSecret) (rest : SecretMap) (h : q ≠ p) :
    List.lookup q ((p, s) :: rest) = List.lookup q rest := by
  have hb : (q == p) = false := by simpa using h
  simp [List.lookup, hb]

theorem lookup_of_not_key (q : Str) (l : SecretMap) (h : q ∉ l.map Prod.fst) :
    List.lookup q l = none := by
  induction l with
  | nil => rfl
  | cons e rest ih =>
    obtain ⟨p, s⟩ := e
    simp only [List.map_cons, List.mem_cons, not_or] at h
    rw [lookup_cons_other q p s rest h.1]
    exact ih h.2

/-- In a map, whose keys are all different, the value looked up for a key is the value of
the entry with that key. -/
theorem lookup_eq_some_iff_mem (q : Str) (s : VaultSecret) (l : SecretMap)
    (hn : (l.map Prod.fst).Nodup) : List.lookup q l = some s ↔ (q, s) ∈ l := by
  induction l with
  | nil => simp
  | cons e rest ih =>
    obtain ⟨p, s1⟩ := e
    simp only [List.map_cons, List.nodup_cons] at hn
    by_cases hq : q = p
    · subst hq
      rw [lookup_cons_same]
      constructor
      · intro h
        cases h
        exact List.mem_cons_self _ _
      · intro h
        rcases List.mem_cons.1 h with h | h
        · cases h; rfl
        · exact absurd (List.mem_map_of_mem Prod.fst h) hn.1
    · rw [lookup_cons_other q p s1 rest hq, ih hn.2]
      constructor
      · exact fun h => List.mem_cons_of_mem _ h
      · intro h
        rcases List.mem_cons.1 h with h | h
        · cases h; exact absurd rfl hq
        · exact h

/-- Looking a key up does not depend on the order of the entries of a map. -/
theorem lookup_of_perm (q : Str) (l1 l2 : SecretMap) (hp : l1.Perm l2)
    (hn : (l1.map Prod.fst).Nodup) : List.lookup q l1 = List.lookup q l2 := by
  have hn2 : (l2.map Prod.fst).Nodup := (hp.map Prod.fst).nodup_iff.1 hn
  cases h1 : List.lookup q l1 with
  | some s =>
    exact ((lookup_eq_some_iff_mem q s l2 hn2).2
      (hp.mem_iff.1 ((lookup_eq_some_iff_mem q s l1 hn).1 h1))).symm
  | none =>
    cases h2 : List.lookup q l2 with
    | none => rfl
    | some s =>
      have := (lookup_eq_some_iff_mem q s l1 hn).2
        (hp.mem_iff.2 ((lookup_eq_some_iff_mem q s l2 hn2).1 h2))
      rw [h1] at this
      cases this

theorem fill_of_perm (l1 l2 : SecretMap) (hp : l1.Perm l2) (hn : (l1.map Prod.fst).Nodup)
    (pc : Piece) : fill l1 pc = fill l2 pc := by
  cases pc with
  | text g => rfl
  | hole q => simp only [fill, lookup_of_perm q l1 l2 hp hn]

theorem fill_nil (pc : Piece) : fill [] pc = pc := by
  cases pc <;> rfl

/-- Filling from the first entry and then from the others is filling from all. -/
theorem fill_cons (e : Str × VaultSecret) (rest : SecretMap)
    (hn : ((e :: rest).map Prod.fst).Nodup) (pc : Piece) :
    fill rest (fill [e] pc) = fill (e :: rest) pc := by
  obtain ⟨p, s⟩ := e
  simp only [List.map_cons, List.nodup_cons] at hn
  cases pc with
  | text g => rfl
  | hole q =>
    by_cases hq : q = p
    · subst hq
      simp only [fill, lookup_single, lookup_cons_same, if_true]
      by_cases hv : s.Value = []
      · simp only [hv, if_true, fill, lookup_of_not_key q rest hn.1]
      · simp only [hv, if_false, fill]
    · simp only [fill, lookup_single, if_neg hq, lookup_cons_other q p s rest hq]

theorem fill_plain (l : SecretMap) (hv : ∀ e ∈ l, braceFree e.2.Value = true)
    (hn : (l.map Prod.fst).Nodup) (pc : Piece) (h : pc.Plain) : (fill l pc).Plain := by
  cases pc with
  | text g => exact h
  | hole q =>
    simp only [fill]
    cases hl : List.lookup q l with
    | none => exact h
    | some s =>
      simp only
      by_cases hs : s.Value = []
      · rw [if_pos hs]; exact h
      · rw [if_neg hs]
        exact hv (q, s) ((lookup_eq_some_iff_mem q s l hn).1 hl)

/-- The loop of `RenderSecrets` on a plain template fills every placeholder from the
entries. -/
theorem renderLoop_assemble (l : SecretMap) :
    ∀ pieces : List Piece, (l.map Prod.fst).Nodup →
      (∀ e ∈ l, PlainHole e.1 ∧ braceFree e.2.Value = true) →
      (∀ pc ∈ pieces, pc.Plain) →
      renderLoop (assemble pieces) l = assemble (pieces.map (fill l)) := by
  induction l with
  | nil =>
    intro pieces _ _ _
    have : pieces.map (fill []) = pieces := by
      rw [List.map_id'']
      exact fill_nil
    rw [this]
    rfl
  | cons e rest ih =>
    intro pieces hn he hpc
    have hn1 : ((List.map Prod.fst rest)).Nodup := by
      simp only [List.map_cons, List.nodup_cons] at hn
      exact hn.2
    have hstep : renderLoop (assemble pieces) (e :: rest) =
        renderLoop (renderStep (assemble pieces) e) rest := rfl
    rw [hstep, renderStep_assemble pieces e hpc (he e (List.mem_cons_self _ _)).1,
      ih (pieces.map (fill [e])) hn1 (fun x hx => he x (List.mem_cons_of_mem _ hx))
        (fun pc hm => by
          obtain ⟨pc0, h0, e0⟩ := List.mem_map.1 hm
          rw [← e0]
          exact fill_plain [e] (fun x hx => by
            rw [List.mem_singleton.1 hx]
            exact (he e (List.mem_cons_self _ _)).2) (by simp) pc0 (hpc pc0 h0)),
      List.map_map]
    congr 1
    apply List.map_congr_left
    intro pc _
    exact fill_cons e rest hn pc

/-- C21, amended: on a template made of texts without braces and of placeholders without
braces between their delimiters, with a mapping whose keys are such placeholders, all
different, and whose values hold no brace, what `RenderSecrets` does is the same for every
order in which the entries are visited, and the text written is the template with every
placeholder that is a key with a value that is not empty replaced by that value. -/
theorem C21_render_order_plain (fs : FileSystem) (order1 order2 : RangeOrder)
    (t : TemplateFile) (pieces : List Piece) (secrets : SecretMap) (out : Str)
    (hT : fs.ReadFile t.path = Result.ok (assemble pieces))
    (hpc : ∀ pc ∈ pieces, pc.Plain)
    (hn : (secrets.map Prod.fst).Nodup)
    (he : ∀ e ∈ secrets, PlainHole e.1 ∧ braceFree e.2.Value = true) :
    t.RenderSecrets fs order1 secrets out = t.RenderSecrets fs order2 secrets out ∧
    (t.RenderSecrets fs order1 secrets out).written =
      some (assemble (pieces.map (fill secrets))) := by
  have key : ∀ order : RangeOrder,
      renderLoop (assemble pieces) (order.visit secrets) =
        assemble (pieces.map (fill secrets)) := by
    intro order
    have hp := order.perm secrets
    have hn1 : ((order.visit secrets).map Prod.fst).Nodup :=
      (hp.map Prod.fst).nodup_iff.2 hn
    rw [renderLoop_assemble (order.visit secrets) pieces hn1
      (fun e h => he e (hp.mem_iff.1 h)) hpc]
    congr 1
    apply List.map_congr_left
    intro pc _
    exact fill_of_perm _ _ hp hn1 pc
  constructor
  · unfold TemplateFile.RenderSecrets
    rw [hT]
    simp only
    rw [key order1, key order2]
  · rw [RenderSecrets_written fs order1 t secrets out _ hT, key order1]


/-- C21, amended, on the example template `user={{x!y}};admin={{x!y}}` with a mapping of two
entries: the order listed and the reverse order do the same, and `user=pw;admin=pw` is
written. -/
theorem C21_render_order_plain_witness :
    TemplateFile.RenderSecrets exampleFiles orderAsListed ⟨"in".toList⟩ exampleSecretsTwo
        "out".toList =
      TemplateFile.RenderSecrets exampleFiles orderReversed ⟨"in".toList⟩ exampleSecretsTwo
        "out".toList ∧
    (TemplateFile.RenderSecrets exampleFiles orderAsListed ⟨"in".toList⟩ exampleSecretsTwo
        "out".toList).written = some "user=pw;admin=pw".toList := by
  have h := C21_render_order_plain exampleFiles orderAsListed orderReversed ⟨"in".toList⟩
    [Piece.text "user=".toList, Piece.hole "\x7b\x7bx!y\x7d\x7d".toList,
     Piece.text ";admin=".toList, Piece.hole "\x7b\x7bx!y\x7d\x7d".toList]
    exampleSecretsTwo "out".toList (by decide)
    (by
      intro pc hpc
      simp only [List.mem_cons, List.mem_singleton, List.not_mem_nil, or_false] at hpc
      rcases hpc with h | h | h | h
      · rw [h]; exact (by decide : braceFree "user=".toList = true)
      · rw [h]; exact ⟨"x!y".toList, by decide, by decide⟩
      · rw [h]; exact (by decide : braceFree ";admin=".toList = true)
      · rw [h]; exact ⟨"x!y".toList, by decide, by decide⟩)
    (by decide)
    (by
      intro e he
      simp only [exampleSecretsTwo, List.mem_cons, List.mem_singleton, List.not_mem_nil,
        or_false] at he
      rcases he with h | h
      · rw [h]; exact ⟨⟨"x!y".toList, by decide, by decide⟩, by decide⟩
      · rw [h]; exact ⟨⟨"u!w".toList, by decide, by decide⟩, by decide⟩)
  exact ⟨h.1, h.2.trans (by decide)⟩


/-! ## When `Retrieve` aborts -/

/-- The two assertions `x.(string)` are the only places where `Retrieve` aborts: it aborts
exactly when the store returns a document in which the field, found inside the mapping
`data` or, without member `data`, at top level, holds no string. -/
theorem Retrieve_abort_iff {σ : Type} (fmtV : DocValue → Str) (s : VaultSecret)
    (client : Vault σ) (st : σ) :
    s.Retrieve fmtV client st = Go.abort ↔
      ∃ data x, (client.Read st s.path).1 = (some ⟨some data⟩, none) ∧
        ((∃ m, List.lookup "data".toList data = some (DocValue.map m) ∧
            List.lookup s.key m = some x) ∨
         (List.lookup "data".toList data = none ∧ List.lookup s.key data = some x)) ∧
        ∀ v, x ≠ DocValue.str v := by
  unfold VaultSecret.Retrieve
  rcases hr : client.Read st s.path with ⟨⟨sec, err⟩, st1⟩
  simp only
  cases err with
  | some e =>
    constructor
    · intro h; cases sec <;> cases h
    · rintro ⟨data, x, h, _⟩; cases h
  | none =>
    cases sec with
    | none =>
      constructor
      · intro h; cases h
      · rintro ⟨data, x, h, _⟩; cases h
    | some secret =>
      obtain ⟨d⟩ := secret
      cases d with
      | none =>
        constructor
        · intro h; cases h
        · rintro ⟨data, x, h, _⟩; cases h
      | some data =>
        simp only
        cases hd : List.lookup "data".toList data with
        | none =>
          simp only
          cases hk : List.lookup s.key data with
          | none =>
            constructor
            · intro h; cases h
            · rintro ⟨d1, x, h, (⟨m, h1, _⟩ | ⟨_, h2⟩), _⟩
              · cases h; rw [hd] at h1; cases h1
              · cases h; rw [hk] at h2; cases h2
          | some val =>
            have hback : (∃ d1 x, ((some (⟨some data⟩ : ApiSecret), (none : Option Str)) =
                  (some ⟨some d1⟩, none)) ∧
                ((∃ m, List.lookup "data".toList d1 = some (DocValue.map m) ∧
                    List.lookup s.key m = some x) ∨
                 (List.lookup "data".toList d1 = none ∧ List.lookup s.key d1 = some x)) ∧
                ∀ v, x ≠ DocValue.str v) ↔ ∀ v, val ≠ DocValue.str v := by
              constructor
              · rintro ⟨d1, x, h, (⟨m, h1, _⟩ | ⟨_, h2⟩), hx⟩
                · cases h; rw [hd] at h1; cases h1
                · cases h; rw [hk] at h2; cases h2; exact hx
              · exact fun hx => ⟨data, val, rfl, Or.inr ⟨hd, hk⟩, hx⟩
            rw [hback]
            cases val with
            | str v => exact ⟨fun h => (by cases h), fun h => absurd rfl (h v)⟩
            | num _ => exact ⟨fun _ v c => DocValue.noConfusion c, fun _ => rfl⟩
            | bool _ => exact ⟨fun _ v c => DocValue.noConfusion c, fun _ => rfl⟩
            | null => exact ⟨fun _ v c => DocValue.noConfusion c, fun _ => rfl⟩
            | list _ => exact ⟨fun _ v c => DocValue.noConfusion c, fun _ => rfl⟩
            | map _ => exact ⟨fun _ v c => DocValue.noConfusion c, fun _ => rfl⟩
        | some val =>
          have notmap : (∀ m, val ≠ DocValue.map m) →
              ¬ ∃ d1 x, ((some (⟨some data⟩ : ApiSecret), (none : Option Str)) =
                  (some ⟨some d1⟩, none)) ∧
                ((∃ m, List.lookup "data".toList d1 = some (DocValue.map m) ∧
                    List.lookup s.key m = some x) ∨
                 (List.lookup "data".toList d1 = none ∧ List.lookup s.key d1 = some x)) ∧
                ∀ v, x ≠ DocValue.str v := by
            rintro hnm ⟨d1, x, h, (⟨m, h1, _⟩ | ⟨h1, _⟩), _⟩
            · cases h; rw [hd] at h1; cases h1; exact hnm m rfl
            · cases h; rw [hd] at h1; cases h1
          cases val with
          | map m =>
            simp only
            cases hk : List.lookup s.key m with
            | none =>
              constructor
              · intro h; cases h
              · rintro ⟨d1, x, h, (⟨m1, h1, h2⟩ | ⟨h1, _⟩), _⟩
                · cases h; rw [hd] at h1; cases h1; rw [hk] at h2; cases h2
                · cases h; rw [hd] at h1; cases h1
            | some x0 =>
              have hback : (∃ d1 x, ((some (⟨some data⟩ : ApiSecret), (none : Option Str)) =
                    (some ⟨some d1⟩, none)) ∧
                  ((∃ m, List.lookup "data".toList d1 = some (DocValue.map m) ∧
                      List.lookup s.key m = some x) ∨
                   (List.lookup "data".toList d1 = none ∧ List.lookup s.key d1 = some x)) ∧
                  ∀ v, x ≠ DocValue.str v) ↔ ∀ v, x0 ≠ DocValue.str v := by
                constructor
                · rintro ⟨d1, x, h, (⟨m1, h1, h2⟩ | ⟨h1, _⟩), hx⟩
                  · cases h; rw [hd] at h1; cases h1; rw [hk] at h2; cases h2; exact hx
                  · cases h; rw [hd] at h1; cases h1
                · exact fun hx => ⟨data, x0, rfl, Or.inl ⟨m, hd, hk⟩, hx⟩
              rw [hback]
              cases x0 with
              | str v => exact ⟨fun h => (by cases h), fun h => absurd rfl (h v)⟩
              | num _ => exact ⟨fun _ v c => DocValue.noConfusion c, fun _ => rfl⟩
              | bool _ => exact ⟨fun _ v c => DocValue.noConfusion c, fun _ => rfl⟩
              | null => exact ⟨fun _ v c => DocValue.noConfusion c, fun _ => rfl⟩
              | list _ => exact ⟨fun _ v c => DocValue.noConfusion c, fun _ => rfl⟩
              | map _ => exact ⟨fun _ v c => DocValue.noConfusion c, fun _ => rfl⟩
          | str _ =>
            exact ⟨fun h => (by cases h), fun h => absurd h (notmap fun m c => DocValue.noConfusion c)⟩
          | num _ =>
            exact ⟨fun h => (by cases h), fun h => absurd h (notmap fun m c => DocValue.noConfusion c)⟩
          | bool _ =>
            exact ⟨fun h => (by cases h), fun h => absurd h (notmap fun m c => DocValue.noConfusion c)⟩
          | null =>
            exact ⟨fun h => (by cases h), fun h => absurd h (notmap fun m c => DocValue.noConfusion c)⟩
          | list _ =>
            exact ⟨fun h => (by cases h), fun h => absurd h (notmap fun m c => DocValue.noConfusion c)⟩

/-- C22: `Retrieve` returns, with nil or with an error, on every answer of the store in
which the field of the key, when it is there at the place of the look-up (inside the
mapping `data` if the document has one, at top level otherwise), holds a string; and
`Retrieve` aborts exactly at one of its two assertions `x.(string)`, that is when the field
was found, inside the mapping `data` or, in a document without member `data`, at top level,
and holds no string. -/
theorem C22_Retrieve_returns_on_strings {σ : Type} (fmtV : DocValue → Str) (s : VaultSecret)
    (client : Vault σ) (st : σ) :
    ((∀ data x, (client.Read st s.Path).1 = (some ⟨some data⟩, none) →
        ((∃ m, List.lookup "data".toList data = some (DocValue.map m) ∧
            List.lookup s.Key m = some x) ∨
         ((∀ m, List.lookup "data".toList data ≠ some (DocValue.map m)) ∧
            List.lookup s.Key data = some x)) →
        ∃ v, x = DocValue.str v) →
      ∃ r, s.Retrieve fmtV client st = Go.ret r ∧ (r.err = none ∨ ∃ e, r.err = some e)) ∧
    (s.Retrieve fmtV client st = Go.abort ↔
      ∃ data x, (client.Read st s.Path).1 = (some ⟨some data⟩, none) ∧
        ((∃ m, List.lookup "data".toList data = some (DocValue.map m) ∧
            List.lookup s.Key m = some x) ∨
         (List.lookup "data".toList data = none ∧ List.lookup s.Key data = some x)) ∧
        ∀ v, x ≠ DocValue.str v) := by
  refine ⟨fun hstr => ?_, Retrieve_abort_iff fmtV s client st⟩
  cases hR : s.Retrieve fmtV client st with
  | ret r =>
    refine ⟨r, rfl, ?_⟩
    cases r.err with
    | none => exact Or.inl rfl
    | some e => exact Or.inr ⟨e, rfl⟩
  | abort =>
    obtain ⟨data, x, h, hx, hns⟩ := (Retrieve_abort_iff fmtV s client st).1 hR
    have hplace : (∃ m, List.lookup "data".toList data = some (DocValue.map m) ∧
            List.lookup s.Key m = some x) ∨
         ((∀ m, List.lookup "data".toList data ≠ some (DocValue.map m)) ∧
            List.lookup s.Key data = some x) := by
      rcases hx with h1 | ⟨h1, h2⟩
      · exact Or.inl h1
      · refine Or.inr ⟨fun m c => ?_, h2⟩
        rw [h1] at c
        cases c
    obtain ⟨v, hv⟩ := hstr data x h hplace
    exact absurd hv (hns v)

/-- C22, at the flat document of the tests, whose fields are strings: `Retrieve` returns. -/
theorem C22_Retrieve_returns_on_strings_witness :
    ∃ r, VaultSecret.Retrieve fmtNone ⟨"secret/example".toList, "testKey".toList, []⟩
        (constVault (some ⟨some [("testKey".toList, DocValue.str "testValue".toList)]⟩, none)) ()
        = Go.ret r ∧ (r.err = none ∨ ∃ e, r.err = some e) :=
  (C22_Retrieve_returns_on_strings fmtNone ⟨"secret/example".toList, "testKey".toList, []⟩
    (constVault (some ⟨some [("testKey".toList, DocValue.str "testValue".toList)]⟩, none))
    ()).1 (by
      intro data x hd hx
      cases hd
      rcases hx with ⟨m, h1, _⟩ | ⟨_, h2⟩
      · have hn : List.lookup "data".toList
            [("testKey".toList, DocValue.str "testValue".toList)] = none := rfl
        rw [hn] at h1
        cases h1
      · have hs : List.lookup
            (VaultSecret.Key ⟨"secret/example".toList, "testKey".toList, []⟩)
            [("testKey".toList, DocValue.str "testValue".toList)] =
            some (DocValue.str "testValue".toList) := rfl
        rw [hs] at h2
        cases h2
        exact ⟨_, rfl⟩)

end Talebearer
